import Mathlib

/-! # Edge detection (`src/main.c`): convolution kernels, convolver, normalizers

A shallow embedding of the edge-detection core of `main.c` and the proofs of
its specified properties.

Modelling conventions.

* `Uint32` values are `Nat` reduced modulo `2^32`; `int` values are `Int`.
  Mixed `int`/`Uint32` arithmetic is carried out, as in C, on `Uint32`
  (wrapping) and converted back to `int` by two's complement.
* Signed `int` overflow in `grad_x*grad_x + grad_y*grad_y` is undefined in C;
  the functions that evaluate it return `Option`, with `none` for overflow.
* `sqrt` followed by the conversion to `Uint32` is the integer square root
  (`sqrt_uint32`, proved equal to `Nat.sqrt` on 32-bit arguments).
* The two `double` scalings of the normalizers are evaluated exactly and then
  truncated; a division `0.0/0` (a NaN converted to `Uint32`) is `none`.
* The outcome of `malloc` in the Local normalizer is an input of the model: a
  flag that says whether a buffer was returned.
* An `SDL_Surface` holds 32-bit pixels, row-major without row padding
  (`pitch = 4*w`, `BytesPerPixel = 4`, what `SDL_CreateRGBSurface(.., 32, ..)`
  builds at `main.c:306`).  `pixels` is the word memory that starts at the
  surface's base pointer: indices `0 .. w*h-1` are the pixel buffer, larger
  indices are whatever memory follows it.
-/

namespace EdgeDetection

/-! ## Machine integers -/

/-- Number of `Uint32` values, `2^32`. -/
def UINT32_MOD : Nat := 4294967296

/-- Largest `int`, `2^31 - 1`. -/
def INT_MAX : Int := 2147483647

/-- Conversion of an `int` to `Uint32` (reduction modulo `2^32`). -/
def to_uint32 (i : Int) : Nat := (i % 4294967296).toNat

/-- Conversion of a `Uint32` to `int` (two's complement). -/
def to_int (n : Nat) : Int :=
  if n % 4294967296 < 2147483648 then ((n % 4294967296 : Nat) : Int)
  else ((n % 4294967296 : Nat) : Int) - 4294967296

/-- The C expression `k * pixel` for `int k` and `Uint32 pixel`: `k` is
converted to `Uint32` and the product wraps. -/
def mul_int_uint32 (k : Int) (pixel : Nat) : Nat :=
  (to_uint32 k * pixel) % UINT32_MOD

/-- The C statement `grad += v` for `int grad` and `Uint32 v`: the sum is
taken on `Uint32` and stored back into the `int`. -/
def add_int_uint32 (grad : Int) (v : Nat) : Int :=
  to_int ((to_uint32 grad + v) % UINT32_MOD)

/-- Bit-by-bit integer square root: tries the bits `b-1, .., 0` on top of `r`. -/
def sqrt_bits (n : Nat) : Nat → Nat → Nat
  | 0, r => r
  | b + 1, r => if (r + 2 ^ b) * (r + 2 ^ b) ≤ n then sqrt_bits n b (r + 2 ^ b) else sqrt_bits n b r

/-- The C expression `(Uint32) sqrt((double) n)` for `0 ≤ n < 2^32`: the
integer part of the square root. -/
def sqrt_uint32 (n : Nat) : Nat := sqrt_bits n 16 0

/-- The C return expression `sqrt(grad_x*grad_x + grad_y*grad_y)` of both
`ConvolutionMatrix_convolve` and `ConvolutionMatrix_max_output`: the products
and the sum are `int`; `none` when they overflow. -/
def sqrt_sum_squares (grad_x grad_y : Int) : Option Nat :=
  if grad_x * grad_x + grad_y * grad_y ≤ INT_MAX then
    some (sqrt_uint32 (grad_x * grad_x + grad_y * grad_y).toNat)
  else none

/-! ## Pixel formats and surfaces -/

/-- The fields of `SDL_PixelFormat` that `main.c` reads. -/
structure SDL_PixelFormat where
  Rmask : Nat
  Gmask : Nat
  Bmask : Nat
  Amask : Nat
  Rshift : Nat
  Gshift : Nat
  Bshift : Nat
  Ashift : Nat

/-- The fields of `SDL_Surface` that `main.c` reads. -/
structure SDL_Surface where
  w : Nat
  h : Nat
  format : SDL_PixelFormat
  pixels : Nat → Nat

/-- Word index of the pixel `(x, y)`: `(y * pitch + x * BytesPerPixel) / 4`. -/
def pixel_index (surface : SDL_Surface) (x y : Int) : Nat :=
  (y * surface.w + x).toNat

/-- Function `get_pixel` (`main.c:208`): the `Uint32` stored at `(x, y)`; no bounds check. -/
def get_pixel (surface : SDL_Surface) (x y : Int) : Nat :=
  surface.pixels (pixel_index surface x y) % UINT32_MOD

/-- Function `set_pixel` (`main.c:213`): stores `pixel` at `(x, y)`; no bounds check. -/
def set_pixel (surface : SDL_Surface) (x y : Int) (pixel : Nat) : SDL_Surface :=
  { surface with
    pixels := fun i => if i = pixel_index surface x y then pixel else surface.pixels i }

/-- The call `SDL_FillRect(surface, NULL, color)`: every pixel of the buffer becomes
`color`; memory outside the buffer is untouched. -/
def SDL_FillRect (surface : SDL_Surface) (color : Nat) : SDL_Surface :=
  { surface with
    pixels := fun i => if i < surface.h * surface.w then color else surface.pixels i }

/-- Function `to_greyscale` (`main.c:218`): `(r+g+b)/3` on `Uint32`. -/
def to_greyscale (_format : SDL_PixelFormat) (r g b _a : Nat) : Nat :=
  (((r + g) % UINT32_MOD + b) % UINT32_MOD) / 3

/-- Function `explode` (`main.c:222`): the four channel values `(r, g, b, a)`. -/
def explode (format : SDL_PixelFormat) (pixel : Nat) : Nat × Nat × Nat × Nat :=
  ((pixel &&& format.Rmask) >>> format.Rshift,
   (pixel &&& format.Gmask) >>> format.Gshift,
   (pixel &&& format.Bmask) >>> format.Bshift,
   (pixel &&& format.Amask) >>> format.Ashift)

/-- Function `compress` (`main.c:229`): shifts each channel into place and ORs them. -/
def compress (format : SDL_PixelFormat) (r g b a : Nat) : Nat :=
  (((0 ||| (r <<< format.Rshift) % UINT32_MOD)
      ||| (g <<< format.Gshift) % UINT32_MOD)
      ||| (b <<< format.Bshift) % UINT32_MOD)
      ||| (a <<< format.Ashift) % UINT32_MOD

/-! ## Convolution kernels -/

/-- Structure `struct ConvolutionMatrix` (`main.c:59`): the declared footprint and the
two weight tables, indexed `[row][column]`. -/
structure ConvolutionMatrix where
  width : Nat
  height : Nat
  x_kernel : Nat → Nat → Int
  y_kernel : Nat → Nat → Int

/-- A C array initialiser: the listed rows, zero elsewhere. -/
def kernel_rows (rows : List (List Int)) (y x : Nat) : Int :=
  (rows.getD y []).getD x 0

/-- Kernel stored by `SobelConvolutionMatrix_init` (`main.c:510`). -/
def SobelConvolutionMatrix : ConvolutionMatrix :=
  { width := 3, height := 3,
    x_kernel := kernel_rows [[1, 0, -1], [2, 0, -2], [1, 0, -1]],
    y_kernel := kernel_rows [[1, 2, 1], [0, 0, 0], [-1, -2, -1]] }

/-- Kernel stored by `RobertsConvolutionMatrix_init` (`main.c:529`). -/
def RobertsConvolutionMatrix : ConvolutionMatrix :=
  { width := 2, height := 2,
    x_kernel := kernel_rows [[1, 0], [0, -1]],
    y_kernel := kernel_rows [[0, 1], [-1, 0]] }

/-- Kernel stored by `PrewittConvolutionMatrix_init` (`main.c:546`). -/
def PrewittConvolutionMatrix : ConvolutionMatrix :=
  { width := 3, height := 3,
    x_kernel := kernel_rows [[1, 0, -1], [1, 0, -1], [1, 0, -1]],
    y_kernel := kernel_rows [[1, 1, 1], [0, 0, 0], [-1, -1, -1]] }

/-- Kernel stored by `ScharrConvolutionMatrix_init` (`main.c:565`). -/
def ScharrConvolutionMatrix : ConvolutionMatrix :=
  { width := 3, height := 3,
    x_kernel := kernel_rows [[3, 0, -3], [10, 0, -10], [3, 0, -3]],
    y_kernel := kernel_rows [[3, 10, 3], [0, 0, 0], [-3, -10, -3]] }

/-- The four built-in kernels, in the order of `enum ConvolutionMode`. -/
def built_in_kernels : List ConvolutionMatrix :=
  [SobelConvolutionMatrix, PrewittConvolutionMatrix, RobertsConvolutionMatrix,
   ScharrConvolutionMatrix]

/-! ## Convolver -/

/-- Local variables of `ConvolutionMatrix_convolve`, together with the list of
coordinates handed to `get_pixel` so far. -/
structure ConvolveState where
  grad_x : Int
  grad_y : Int
  reads : List (Int × Int)

/-- The greyscale value the convolver derives from the pixel at `(x, y)`
(`main.c:598-600`). -/
def grey_at (image : SDL_Surface) (x y : Int) : Nat :=
  let c := explode image.format (get_pixel image x y)
  to_greyscale image.format c.1 c.2.1 c.2.2.1 c.2.2.2

/-- Body of the inner loop of `ConvolutionMatrix_convolve` (`main.c:597-604`)
at `y = min_y + dy`, `x = min_x + dx`. -/
def convolve_step (matrix : ConvolutionMatrix) (image : SDL_Surface)
    (min_x min_y : Int) (dy dx : Nat) (s : ConvolveState) : ConvolveState :=
  let x := min_x + dx
  let y := min_y + dy
  if x ≥ 0 ∧ x ≤ image.w ∧ y ≥ 0 ∧ y < image.h then
    let pixel := grey_at image x y
    { grad_x := add_int_uint32 s.grad_x (mul_int_uint32 (matrix.x_kernel dy dx) pixel),
      grad_y := add_int_uint32 s.grad_y (mul_int_uint32 (matrix.y_kernel dy dx) pixel),
      reads := s.reads ++ [(x, y)] }
  else s

/-- The two nested loops of `ConvolutionMatrix_convolve` (`main.c:589-606`). -/
def convolve_loops (matrix : ConvolutionMatrix) (image : SDL_Surface)
    (x0 y0 : Int) : ConvolveState :=
  let min_y := y0 - ((matrix.height / 3 : Nat) : Int)
  let min_x := x0 - ((matrix.width / 3 : Nat) : Int)
  (List.range matrix.height).foldl
    (fun s dy => (List.range matrix.width).foldl
      (fun s dx => convolve_step matrix image min_x min_y dy dx s) s)
    { grad_x := 0, grad_y := 0, reads := [] }

/-- Function `ConvolutionMatrix_convolve` (`main.c:584`). -/
def ConvolutionMatrix_convolve (matrix : ConvolutionMatrix) (image : SDL_Surface)
    (x0 y0 : Int) : Option Nat :=
  let s := convolve_loops matrix image x0 y0
  sqrt_sum_squares s.grad_x s.grad_y

/-- The coordinates `ConvolutionMatrix_convolve` passes to `get_pixel`. -/
def convolve_reads (matrix : ConvolutionMatrix) (image : SDL_Surface)
    (x0 y0 : Int) : List (Int × Int) :=
  (convolve_loops matrix image x0 y0).reads

/-! ## Theoretical maximum -/

/-- Local accumulators of `ConvolutionMatrix_max_output`. -/
structure MaxOutputState where
  pos_grad_x : Int
  pos_grad_y : Int
  neg_grad_x : Int
  neg_grad_y : Int

/-- The C expression `max_input * k` for `Uint32 max_input` and `int k`. -/
def mul_uint32_int (max_input : Nat) (k : Int) : Nat :=
  (max_input * to_uint32 k) % UINT32_MOD

/-- The C library function `abs` on `int`. -/
def abs (k : Int) : Int := (k.natAbs : Int)

/-- Body of the inner loop of `ConvolutionMatrix_max_output` (`main.c:624-633`). -/
def max_output_step (matrix : ConvolutionMatrix) (max_input : Nat) (y x : Nat)
    (s : MaxOutputState) : MaxOutputState :=
  let kx := matrix.x_kernel y x
  let ky := matrix.y_kernel y x
  let s1 : MaxOutputState :=
    if kx > 0 then
      { s with pos_grad_x := add_int_uint32 s.pos_grad_x (mul_uint32_int max_input kx) }
    else
      { s with neg_grad_x := add_int_uint32 s.neg_grad_x (mul_uint32_int max_input (abs kx)) }
  if ky > 0 then
    { s1 with pos_grad_y := add_int_uint32 s1.pos_grad_y (mul_uint32_int max_input ky) }
  else
    { s1 with neg_grad_y := add_int_uint32 s1.neg_grad_y (mul_uint32_int max_input (abs ky)) }

/-- The two nested loops of `ConvolutionMatrix_max_output` (`main.c:617-635`). -/
def max_output_loops (matrix : ConvolutionMatrix) (max_input : Nat) : MaxOutputState :=
  (List.range matrix.height).foldl
    (fun s y => (List.range matrix.width).foldl
      (fun s x => max_output_step matrix max_input y x s) s)
    { pos_grad_x := 0, pos_grad_y := 0, neg_grad_x := 0, neg_grad_y := 0 }

/-- Function `ConvolutionMatrix_max_output` (`main.c:611`). -/
def ConvolutionMatrix_max_output (matrix : ConvolutionMatrix) (max_input : Nat) : Option Nat :=
  let s := max_output_loops matrix max_input
  let grad_x := if s.pos_grad_x > s.neg_grad_x then s.pos_grad_x else s.neg_grad_x
  let grad_y := if s.pos_grad_y > s.neg_grad_y then s.pos_grad_y else s.neg_grad_y
  sqrt_sum_squares grad_x grad_y

/-! ## Normalizers -/

/-- Structure `struct EdgeDetector` (`main.c:65`). -/
structure EdgeDetector where
  matrix : ConvolutionMatrix
  image : SDL_Surface
  edges : SDL_Surface

/-- The C expression `(Uint32)((((double) n) / d) * 255)` of the Local and
Global normalizers, evaluated exactly and truncated.  A zero divisor gives a
NaN or an infinity, and a quotient outside `Uint32` cannot be converted: both
are undefined and give `none`. -/
def scale_255 (n d : Nat) : Option Nat :=
  if d = 0 then none
  else if n * 255 / d < UINT32_MOD then some (n * 255 / d) else none

/-- Subtraction `a - b` on `Uint32`. -/
def sub_uint32 (a b : Nat) : Nat := (a + UINT32_MOD - b % UINT32_MOD) % UINT32_MOD

/-- The two statements that end every write loop (`main.c:427-428`,
`449-450`, `467-468`): build the grey, opaque pixel and store it. -/
def write_grey (edges : SDL_Surface) (x y : Int) (gradient : Nat) : SDL_Surface :=
  let pixel := compress edges.format gradient gradient gradient 0xFF
  set_pixel edges x y pixel

/-- Local variables of the first loop of `EdgeDetector_detect_normalize_local`. -/
structure LocalState where
  gradients : List Nat
  max : Nat
  min : Nat

/-- Body of the first loop of `EdgeDetector_detect_normalize_local`
(`main.c:405-411`). -/
def local_gradient_step (ed : EdgeDetector) (s : LocalState) (i : Nat) : Option LocalState := do
  let g ← ConvolutionMatrix_convolve ed.matrix ed.image
            ((i % ed.image.w : Nat) : Int) ((i / ed.image.w : Nat) : Int)
  let max := if g > s.max then g else s.max
  let min := if g < s.min then g else s.min
  pure { gradients := s.gradients ++ [g], max := max, min := min }

/-- First loop of `EdgeDetector_detect_normalize_local` (`main.c:392-412`):
all gradient magnitudes with their maximum and minimum. -/
def local_gradients (ed : EdgeDetector) : Option LocalState :=
  (List.range (ed.image.h * ed.image.w)).foldlM (local_gradient_step ed)
    { gradients := [], max := 0, min := 0xFFFFFFFF }

/-- Second loop of `EdgeDetector_detect_normalize_local` (`main.c:421-423`):
the grey levels that will be written. -/
def local_normalize (s : LocalState) : Option (List Nat) :=
  s.gradients.mapM (fun g => scale_255 (sub_uint32 g s.min) (sub_uint32 s.max s.min))

/-- The grey levels `EdgeDetector_detect_normalize_local` writes, in pixel order. -/
def local_values (ed : EdgeDetector) : Option (List Nat) :=
  (local_gradients ed).bind local_normalize

/-- Third loop of `EdgeDetector_detect_normalize_local` (`main.c:426-429`). -/
def local_write (n : Nat) (gradients : List Nat) (edges : SDL_Surface) : SDL_Surface :=
  (List.range n).foldl
    (fun e i => write_grey e ((i % e.w : Nat) : Int) ((i / e.w : Nat) : Int) (gradients.getD i 0))
    edges

/-- Function `EdgeDetector_detect_normalize_local` (`main.c:387`).  The flag
`allocated` says whether `malloc` returned a buffer for the gradients; when it
did not, the function prints a message and returns before `SDL_FillRect` and
before any write, so the output surface stays as it was (`main.c:395-398`). -/
def EdgeDetector_detect_normalize_local (ed : EdgeDetector) (allocated : Bool) :
    Option EdgeDetector :=
  if allocated = false then some ed
  else do
    let edges := SDL_FillRect ed.edges 0x000000
    let gradients ← local_values ed
    pure { ed with edges := local_write (ed.image.h * ed.image.w) gradients edges }

/-- Body of the inner loop of `EdgeDetector_detect_normalize_global`
(`main.c:447-450`). -/
def global_step (ed : EdgeDetector) (max_output : Nat) (y x : Nat) (edges : SDL_Surface) :
    Option SDL_Surface := do
  let gradient ← ConvolutionMatrix_convolve ed.matrix ed.image (x : Int) (y : Int)
  let gradient ← scale_255 gradient max_output
  pure (write_grey edges (x : Int) (y : Int) gradient)

/-- Function `EdgeDetector_detect_normalize_global` (`main.c:434`). -/
def EdgeDetector_detect_normalize_global (ed : EdgeDetector) : Option EdgeDetector := do
  let edges := SDL_FillRect ed.edges 0x000000
  let max_output ← ConvolutionMatrix_max_output ed.matrix 255
  let edges ← (List.range ed.image.h).foldlM
    (fun e y => (List.range ed.image.w).foldlM (fun e x => global_step ed max_output y x e) e)
    edges
  pure { ed with edges := edges }

/-- Body of the inner loop of `EdgeDetector_detect_normalize_none`
(`main.c:466-468`). -/
def none_step (ed : EdgeDetector) (y x : Nat) (edges : SDL_Surface) : Option SDL_Surface := do
  let gradient ← ConvolutionMatrix_convolve ed.matrix ed.image (x : Int) (y : Int)
  pure (write_grey edges (x : Int) (y : Int) gradient)

/-- Function `EdgeDetector_detect_normalize_none` (`main.c:455`). -/
def EdgeDetector_detect_normalize_none (ed : EdgeDetector) : Option EdgeDetector := do
  let edges := SDL_FillRect ed.edges 0x000000
  let edges ← (List.range ed.image.h).foldlM
    (fun e y => (List.range ed.image.w).foldlM (fun e x => none_step ed y x e) e)
    edges
  pure { ed with edges := edges }

/-- The pixel buffer of a surface, row by row. -/
def buffer_words (surface : SDL_Surface) : List Nat :=
  (List.range (surface.h * surface.w)).map fun i => surface.pixels i % UINT32_MOD

/-! ## Image processor -/

/-- Enumeration `DisplayMode` (`main.c:40`). -/
inductive DisplayMode where
  | SHOW_ORIGINAL
  | SHOW_EDGES
  deriving DecidableEq, Repr

/-- Enumeration `ConvolutionMode` (`main.c:45`); `NUM_MATRICES` is the count
and the only value that is not a kernel. -/
inductive ConvolutionMode where
  | SOBEL
  | PREWITT
  | ROBERTS
  | SCHARR
  | NUM_MATRICES
  deriving DecidableEq, Repr

/-- Enumeration `NormalizationMode` (`main.c:53`). -/
inductive NormalizationMode where
  | LOCAL
  | GLOBAL
  | NONE
  deriving DecidableEq, Repr

/-- Integer value of a `ConvolutionMode` enumerator. -/
def ConvolutionMode.value : ConvolutionMode → Nat
  | .SOBEL => 0
  | .PREWITT => 1
  | .ROBERTS => 2
  | .SCHARR => 3
  | .NUM_MATRICES => 4

/-- Table `CONVOLUTION_NAMES` (`main.c:22`), indexed by `ConvolutionMode`. -/
def CONVOLUTION_NAMES : List String :=
  ["Sobel (3x3)", "Prewitt (3x3)", "Roberts (2x2)", "Scharr (3x3)"]

/-- Structure `struct ImageProcessor` (`main.c:76`), without the window and
renderer handles. -/
structure ImageProcessor where
  display_mode : DisplayMode
  convolution_mode : ConvolutionMode
  normalization_mode : NormalizationMode
  edge_detector : EdgeDetector

/-- Function `ImageProcessor_set_convolution_mode` (`main.c:268`): each `_init`
call assigns the whole matrix. -/
def ImageProcessor_set_convolution_mode (ip : ImageProcessor) (cm : ConvolutionMode) :
    ImageProcessor :=
  let ip1 : ImageProcessor := { ip with convolution_mode := cm }
  match ip1.convolution_mode with
  | .SOBEL =>
    { ip1 with edge_detector := { ip1.edge_detector with matrix := SobelConvolutionMatrix } }
  | .ROBERTS =>
    { ip1 with edge_detector := { ip1.edge_detector with matrix := RobertsConvolutionMatrix } }
  | .PREWITT =>
    { ip1 with edge_detector := { ip1.edge_detector with matrix := PrewittConvolutionMatrix } }
  | .SCHARR =>
    { ip1 with edge_detector := { ip1.edge_detector with matrix := ScharrConvolutionMatrix } }
  | _ => ip1

/-- Function `ImageProcessor_detect` (`main.c:328`); `allocated` is the outcome
of the `malloc` of the Local normalizer. -/
def ImageProcessor_detect (ip : ImageProcessor) (allocated : Bool) : Option ImageProcessor :=
  if ip.normalization_mode = NormalizationMode.LOCAL then
    (EdgeDetector_detect_normalize_local ip.edge_detector allocated).map
      fun ed => { ip with edge_detector := ed }
  else if ip.normalization_mode = NormalizationMode.GLOBAL then
    (EdgeDetector_detect_normalize_global ip.edge_detector).map
      fun ed => { ip with edge_detector := ed }
  else if ip.normalization_mode = NormalizationMode.NONE then
    (EdgeDetector_detect_normalize_none ip.edge_detector).map
      fun ed => { ip with edge_detector := ed }
  else some ip

/-! ## The specification's formulas -/

/-- Footprint offsets `(dx, dy)` with `0 ≤ dx < width` and `0 ≤ dy < height`. -/
def footprint_offsets (matrix : ConvolutionMatrix) : List (Nat × Nat) :=
  (List.range matrix.height).flatMap fun dy => (List.range matrix.width).map fun dx => (dx, dy)

/-- Sample coordinate of the offset `(dx, dy)`:
`(x0 - width/3 + dx, y0 - height/3 + dy)`. -/
def sample_coordinate (matrix : ConvolutionMatrix) (x0 y0 : Int) (o : Nat × Nat) : Int × Int :=
  (x0 - ((matrix.width / 3 : Nat) : Int) + (o.1 : Int),
   y0 - ((matrix.height / 3 : Nat) : Int) + (o.2 : Int))

/-- The bounds test `0 ≤ x ≤ image width` and `0 ≤ y < image height`. -/
def passes_bounds_test (image : SDL_Surface) (c : Int × Int) : Bool :=
  decide (0 ≤ c.1 ∧ c.1 ≤ (image.w : Int) ∧ 0 ≤ c.2 ∧ c.2 < (image.h : Int))

/-- The footprint offsets whose sample coordinate passes the bounds test. -/
def sampled_offsets (matrix : ConvolutionMatrix) (image : SDL_Surface) (x0 y0 : Int) :
    List (Nat × Nat) :=
  (footprint_offsets matrix).filter fun o =>
    passes_bounds_test image (sample_coordinate matrix x0 y0 o)

/-- The sum, over the sampled offsets, of `kernel[dy][dx]` times the greyscale
value of the sampled pixel, in unbounded integers. -/
def gradient_sum (kernel : Nat → Nat → Int) (matrix : ConvolutionMatrix) (image : SDL_Surface)
    (x0 y0 : Int) : Int :=
  ((sampled_offsets matrix image x0 y0).map fun o =>
    kernel o.2 o.1 *
      (grey_at image (sample_coordinate matrix x0 y0 o).1 (sample_coordinate matrix x0 y0 o).2
        : Int)).sum

/-- Sum of the positive weights of `kernel` over the declared footprint. -/
def positive_weight_sum (kernel : Nat → Nat → Int) (matrix : ConvolutionMatrix) : Int :=
  ((footprint_offsets matrix).map fun o => if kernel o.2 o.1 > 0 then kernel o.2 o.1 else 0).sum

/-- Sum of the absolute values of the negative weights of `kernel` over the
declared footprint. -/
def negative_weight_sum (kernel : Nat → Nat → Int) (matrix : ConvolutionMatrix) : Int :=
  ((footprint_offsets matrix).map fun o => if kernel o.2 o.1 < 0 then -kernel o.2 o.1 else 0).sum

/-- Worst-case gradient of one axis: the larger of `max_input` times the
positive weights and `max_input` times the absolute negative weights. -/
def axis_max (kernel : Nat → Nat → Int) (matrix : ConvolutionMatrix) (max_input : Nat) : Int :=
  max ((max_input : Int) * positive_weight_sum kernel matrix)
      ((max_input : Int) * negative_weight_sum kernel matrix)

/-- A layout of four pairwise-disjoint 8-bit channels inside a 32-bit pixel. -/
def eight_bit_channels (format : SDL_PixelFormat) : Prop :=
  format.Rmask = 0xFF <<< format.Rshift ∧ format.Gmask = 0xFF <<< format.Gshift
  ∧ format.Bmask = 0xFF <<< format.Bshift ∧ format.Amask = 0xFF <<< format.Ashift
  ∧ format.Rshift + 8 ≤ 32 ∧ format.Gshift + 8 ≤ 32
  ∧ format.Bshift + 8 ≤ 32 ∧ format.Ashift + 8 ≤ 32
  ∧ format.Rmask &&& format.Gmask = 0 ∧ format.Rmask &&& format.Bmask = 0
  ∧ format.Rmask &&& format.Amask = 0 ∧ format.Gmask &&& format.Bmask = 0
  ∧ format.Gmask &&& format.Amask = 0 ∧ format.Bmask &&& format.Amask = 0

/-- The grey levels of the buffer of `surface` after `explode`: for each pixel
the quadruple `(r, g, b, a)`, row by row. -/
def buffer_channels (surface : SDL_Surface) : List (Nat × Nat × Nat × Nat) :=
  (buffer_words surface).map (explode surface.format)

/-- Square root of `n` rounded to the nearest integer: the `r` with
`(2r - 1)^2 ≤ 4n < (2r + 1)^2`, that is `floor(sqrt(n) + 1/2)`. -/
def round_sqrt (n : Nat) : Nat := (Nat.sqrt (4 * n) + 1) / 2

/-- The recognized kernel selections. -/
def recognized_modes : List ConvolutionMode :=
  [ConvolutionMode.SOBEL, ConvolutionMode.PREWITT, ConvolutionMode.ROBERTS,
   ConvolutionMode.SCHARR]

/-- The kernel that carries the name of a mode (Sobel for `NUM_MATRICES`,
which names none). -/
def kernel_named (cm : ConvolutionMode) : ConvolutionMatrix :=
  match cm with
  | .SOBEL => SobelConvolutionMatrix
  | .PREWITT => PrewittConvolutionMatrix
  | .ROBERTS => RobertsConvolutionMatrix
  | .SCHARR => ScharrConvolutionMatrix
  | .NUM_MATRICES => SobelConvolutionMatrix

/-- The numbers written in a label such as `"Roberts (2x2)"`. -/
def label_dimensions (label : String) : List Nat :=
  (label.data.filter Char.isDigit).map fun c => c.toNat - 48

/-- The 18 weights of a kernel: the 3x3 x table, then the 3x3 y table. -/
def kernel_weights (matrix : ConvolutionMatrix) : List Int :=
  ((List.range 3).flatMap fun y => (List.range 3).map fun x => matrix.x_kernel y x)
    ++ ((List.range 3).flatMap fun y => (List.range 3).map fun x => matrix.y_kernel y x)

/-- Sum of the weights of `kernel` over the declared footprint. -/
def weight_sum (kernel : Nat → Nat → Int) (matrix : ConvolutionMatrix) : Int :=
  ((footprint_offsets matrix).map fun o => kernel o.2 o.1).sum

/-- Every channel value of every word `get_pixel` can return for `image` (the
words after the buffer, which the convolver reads at `x = w`, included) is at
most `c`. -/
def channels_at_most (image : SDL_Surface) (c : Nat) : Prop :=
  ∀ x y : Int,
    (explode image.format (get_pixel image x y)).1 ≤ c
    ∧ (explode image.format (get_pixel image x y)).2.1 ≤ c
    ∧ (explode image.format (get_pixel image x y)).2.2.1 ≤ c
    ∧ (explode image.format (get_pixel image x y)).2.2.2 ≤ c

/-- The whole footprint of `matrix` at `(x0, y0)` lies inside `[0, w) x [0, h)`. -/
def footprint_inside (matrix : ConvolutionMatrix) (image : SDL_Surface) (x0 y0 : Int) : Prop :=
  ∀ o ∈ footprint_offsets matrix,
    0 ≤ (sample_coordinate matrix x0 y0 o).1
    ∧ (sample_coordinate matrix x0 y0 o).1 < (image.w : Int)
    ∧ 0 ≤ (sample_coordinate matrix x0 y0 o).2
    ∧ (sample_coordinate matrix x0 y0 o).2 < (image.h : Int)

/-! ## Concrete inputs -/

/-- The layout `SDL_PIXELFORMAT_ARGB8888`: four disjoint 8-bit channels. -/
def ARGB8888 : SDL_PixelFormat :=
  { Rmask := 0x00FF0000, Gmask := 0x0000FF00, Bmask := 0x000000FF, Amask := 0xFF000000,
    Rshift := 16, Gshift := 8, Bshift := 0, Ashift := 24 }

/-- An ARGB8888 surface whose buffer holds `words`, followed in memory by
words of value `after`. -/
def surface_of_words (w h : Nat) (words : List Nat) (after : Nat) : SDL_Surface :=
  { w := w, h := h, format := ARGB8888, pixels := fun i => words.getD i after }

/-- A 1x1 kernel with the single x weight `0x01010101`. -/
def wide_weight_kernel : ConvolutionMatrix :=
  { width := 1, height := 1,
    x_kernel := kernel_rows [[16843009]],
    y_kernel := kernel_rows [[0]] }

/-- A 1x1 image holding one opaque white pixel. -/
def white_1x1 : SDL_Surface := surface_of_words 1 1 [0xFFFFFFFF] 0

/-- A 2x2 image of opaque black and white pixels. -/
def checker_2x2 : SDL_Surface :=
  surface_of_words 2 2 [0xFF000000, 0xFFFFFFFF, 0xFFFFFFFF, 0xFF000000] 0

/-- A 2x1 image: an opaque black pixel, then an opaque white pixel. -/
def edge_2x1 : SDL_Surface := surface_of_words 2 1 [0xFF000000, 0xFFFFFFFF] 0

/-- A 3x3 image with every channel of every pixel 0, followed by the word `after`. -/
def black_3x3 (after : Nat) : SDL_Surface := surface_of_words 3 3 (List.replicate 9 0) after

/-- An output surface of the given size holding stale pixels. -/
def stale_edges (w h : Nat) : SDL_Surface :=
  surface_of_words w h (List.replicate (h * w) 0xFF123456) 0

/-- A detector on `image` with the kernel `matrix` and a stale output surface. -/
def detector_on (matrix : ConvolutionMatrix) (image : SDL_Surface) : EdgeDetector :=
  { matrix := matrix, image := image, edges := stale_edges image.w image.h }

/-- A 2x2 image with grey value 2 in the top row and 0 in the bottom row. -/
def top_row_2x2 : SDL_Surface :=
  surface_of_words 2 2 [0xFF020202, 0xFF020202, 0xFF000000, 0xFF000000] 0

/-- A 2x2 image with a white top row and a black bottom row. -/
def white_top_2x2 : SDL_Surface :=
  surface_of_words 2 2 [0xFFFFFFFF, 0xFFFFFFFF, 0xFF000000, 0xFF000000] 0

/-- A 3x3 image of one grey value, 100. -/
def grey_3x3 : SDL_Surface := surface_of_words 3 3 (List.replicate 9 0xFF646464) 0

/-- A 3x3 image with a grey ramp. -/
def ramp_3x3 : SDL_Surface :=
  surface_of_words 3 3
    [0xFF000000, 0xFF0A0A0A, 0xFF141414,
     0xFF1E1E1E, 0xFF323232, 0xFF464646,
     0xFF5A5A5A, 0xFF787878, 0xFFC8C8C8] 0

/-- A detector on `image` with the kernel `matrix` whose output surface holds
the word `prior` in every pixel. -/
def detector_with_prior (matrix : ConvolutionMatrix) (image : SDL_Surface) (prior : Nat) :
    EdgeDetector :=
  { matrix := matrix, image := image,
    edges := surface_of_words image.w image.h (List.replicate (image.h * image.w) prior) 0 }

/-- A processor in the given normalization mode around a detector. -/
def processor_around (nm : NormalizationMode) (ed : EdgeDetector) : ImageProcessor :=
  { display_mode := DisplayMode.SHOW_EDGES, convolution_mode := ConvolutionMode.SOBEL,
    normalization_mode := nm, edge_detector := ed }

/-- A processor showing edges with the given kernel selection and
normalization mode on `image`. -/
def processor_on (cm : ConvolutionMode) (nm : NormalizationMode) (image : SDL_Surface) :
    ImageProcessor :=
  { display_mode := DisplayMode.SHOW_EDGES, convolution_mode := cm, normalization_mode := nm,
    edge_detector := detector_on (kernel_named cm) image }

/-! # Proofs -/

/-! ## Machine-integer lemmas -/

theorem sqrt_bits_eq (n : Nat) : ∀ (b r : Nat), r * r ≤ n → n < (r + 2 ^ b) * (r + 2 ^ b) →
    sqrt_bits n b r = Nat.sqrt n := by
  intro b
  induction b with
  | zero =>
    intro r h1 h2
    simp only [sqrt_bits]
    exact Nat.eq_sqrt.mpr ⟨h1, by simpa using h2⟩
  | succ b ih =>
    intro r h1 h2
    simp only [sqrt_bits]
    split
    · rename_i hc
      apply ih _ hc
      have : r + 2 ^ b + 2 ^ b = r + 2 ^ (b + 1) := by rw [pow_succ]; ring
      rw [this]; exact h2
    · rename_i hc
      exact ih _ h1 (by omega)

theorem sqrt_uint32_eq (n : Nat) (h : n < 4294967296) : sqrt_uint32 n = Nat.sqrt n := by
  unfold sqrt_uint32
  apply sqrt_bits_eq
  · simp
  · simpa using h

theorem to_int_to_uint32 (i : Int) (h1 : -2147483648 ≤ i) (h2 : i ≤ 2147483647) :
    to_int (to_uint32 i) = i := by
  unfold to_int to_uint32
  split <;> omega

theorem to_int_modEq (n : Nat) : to_int n ≡ (n : Int) [ZMOD 4294967296] := by
  unfold to_int Int.ModEq
  split <;> omega

theorem to_uint32_modEq (i : Int) : (to_uint32 i : Int) ≡ i [ZMOD 4294967296] := by
  unfold to_uint32 Int.ModEq
  omega

theorem to_int_range (n : Nat) : -2147483648 ≤ to_int n ∧ to_int n ≤ 2147483647 := by
  unfold to_int
  split <;> omega

theorem add_int_uint32_modEq (grad : Int) (v : Nat) :
    add_int_uint32 grad v ≡ grad + v [ZMOD 4294967296] := by
  unfold add_int_uint32 UINT32_MOD
  refine (to_int_modEq _).trans ?_
  have h := to_uint32_modEq grad
  unfold Int.ModEq at *
  omega

theorem mul_int_uint32_modEq (k : Int) (p : Nat) :
    (mul_int_uint32 k p : Int) ≡ k * p [ZMOD 4294967296] := by
  unfold mul_int_uint32 UINT32_MOD
  have h := (to_uint32_modEq k).mul_right (p : Int)
  refine Int.ModEq.trans ?_ h
  unfold Int.ModEq
  push_cast
  omega

theorem mul_uint32_int_modEq (m : Nat) (k : Int) :
    (mul_uint32_int m k : Int) ≡ m * k [ZMOD 4294967296] := by
  unfold mul_uint32_int UINT32_MOD
  have h := (to_uint32_modEq k).mul_left (m : Int)
  refine Int.ModEq.trans ?_ h
  unfold Int.ModEq
  push_cast
  omega

theorem eq_of_modEq_of_range {a b : Int} (h : a ≡ b [ZMOD 4294967296])
    (ha1 : -2147483648 ≤ a) (ha2 : a ≤ 2147483647)
    (hb1 : -2147483648 ≤ b) (hb2 : b ≤ 2147483647) : a = b := by
  unfold Int.ModEq at h
  omega


theorem testBit_shift_channel (p mask shift i : Nat)
    (hm : ∀ j, j < shift → mask.testBit j = false) :
    ((((p &&& mask) >>> shift) <<< shift) % UINT32_MOD).testBit i
      = (decide (i < 32) && (p.testBit i && mask.testBit i)) := by
  have hM : UINT32_MOD = 2 ^ 32 := by norm_num [UINT32_MOD]
  rw [hM, Nat.testBit_mod_two_pow, Nat.testBit_shiftLeft, Nat.testBit_shiftRight, Nat.testBit_and]
  by_cases hi : shift ≤ i
  · have : shift + (i - shift) = i := by omega
    simp [hi, this]
  · have hlt : i < shift := by omega
    simp [hi, hm i hlt]

/-- C8: for every layout in which no channel mask has a bit below its
channel's shift, and every packed 32-bit pixel `p` whose set bits all lie in
the union of the four masks, `compress(layout, explode(layout, p)) = p`. -/
theorem compress_explode_roundtrip (format : SDL_PixelFormat) (p : Nat)
    (hp : p < UINT32_MOD)
    (hR : ∀ i, i < format.Rshift → format.Rmask.testBit i = false)
    (hG : ∀ i, i < format.Gshift → format.Gmask.testBit i = false)
    (hB : ∀ i, i < format.Bshift → format.Bmask.testBit i = false)
    (hA : ∀ i, i < format.Ashift → format.Amask.testBit i = false)
    (hU : ∀ i, p.testBit i = true →
      (format.Rmask ||| format.Gmask ||| format.Bmask ||| format.Amask).testBit i = true) :
    compress format (explode format p).1 (explode format p).2.1 (explode format p).2.2.1
      (explode format p).2.2.2 = p := by
  apply Nat.eq_of_testBit_eq
  intro i
  unfold compress explode
  simp only [Nat.testBit_lor, Nat.zero_testBit, Bool.false_or,
    testBit_shift_channel _ _ _ _ hR, testBit_shift_channel _ _ _ _ hG,
    testBit_shift_channel _ _ _ _ hB, testBit_shift_channel _ _ _ _ hA]
  cases hpi : p.testBit i with
  | false => simp
  | true =>
    have hu := hU i hpi
    simp only [Nat.testBit_lor, Bool.or_eq_true] at hu
    have hi : i < 32 := by
      by_contra hge
      have : p < 2 ^ i := lt_of_lt_of_le hp (by
        have : (2:Nat) ^ 32 ≤ 2 ^ i := Nat.pow_le_pow_right (by norm_num) (by omega)
        simpa [UINT32_MOD] using this)
      rw [Nat.testBit_lt_two_pow this] at hpi
      exact Bool.false_ne_true hpi
    rcases hu with ((h | h) | h) | h <;> simp [hi, h]

theorem low_bits_clear_of_shifted (v shift : Nat) :
    ∀ i, i < shift → (v <<< shift).testBit i = false := by
  intro i hi
  rw [Nat.testBit_shiftLeft]
  simp [Nat.not_le.mpr hi]

/-- Witness of C8: the ARGB8888 layout and the pixel `0x80C0FFEE`. -/
theorem compress_explode_roundtrip_witness :
    (2160132078 : Nat) < UINT32_MOD
    ∧ (∀ i, i < ARGB8888.Rshift → ARGB8888.Rmask.testBit i = false)
    ∧ (∀ i, i < ARGB8888.Gshift → ARGB8888.Gmask.testBit i = false)
    ∧ (∀ i, i < ARGB8888.Bshift → ARGB8888.Bmask.testBit i = false)
    ∧ (∀ i, i < ARGB8888.Ashift → ARGB8888.Amask.testBit i = false)
    ∧ (∀ i, (2160132078 : Nat).testBit i = true →
        (ARGB8888.Rmask ||| ARGB8888.Gmask ||| ARGB8888.Bmask ||| ARGB8888.Amask).testBit i
          = true)
    ∧ compress ARGB8888 (explode ARGB8888 2160132078).1 (explode ARGB8888 2160132078).2.1
        (explode ARGB8888 2160132078).2.2.1 (explode ARGB8888 2160132078).2.2.2 = 2160132078 :=
  have hR : ∀ i, i < ARGB8888.Rshift → ARGB8888.Rmask.testBit i = false :=
    low_bits_clear_of_shifted 255 16
  have hG : ∀ i, i < ARGB8888.Gshift → ARGB8888.Gmask.testBit i = false :=
    low_bits_clear_of_shifted 255 8
  have hB : ∀ i, i < ARGB8888.Bshift → ARGB8888.Bmask.testBit i = false :=
    low_bits_clear_of_shifted 255 0
  have hA : ∀ i, i < ARGB8888.Ashift → ARGB8888.Amask.testBit i = false :=
    low_bits_clear_of_shifted 255 24
  have hU : ∀ i, (2160132078 : Nat).testBit i = true →
      (ARGB8888.Rmask ||| ARGB8888.Gmask ||| ARGB8888.Bmask ||| ARGB8888.Amask).testBit i
        = true := by
    intro i hi
    have h32 : i < 32 := by
      by_contra hge
      have hlt : (2160132078 : Nat) < 2 ^ i :=
        lt_of_lt_of_le (by norm_num) (Nat.pow_le_pow_right (by norm_num) (Nat.not_lt.mp hge))
      rw [Nat.testBit_lt_two_pow hlt] at hi
      exact absurd hi (by decide)
    have hm : (ARGB8888.Rmask ||| ARGB8888.Gmask ||| ARGB8888.Bmask ||| ARGB8888.Amask)
        = 2 ^ 32 - 1 := by decide
    rw [hm, Nat.testBit_two_pow_sub_one]
    simpa using h32
  ⟨by decide, hR, hG, hB, hA, hU,
    compress_explode_roundtrip ARGB8888 2160132078 (by decide) hR hG hB hA hU⟩

/-- C9: when `r + g + b` does not overflow 32 bits, `to_greyscale` returns
`(r + g + b) / 3` (integer division) whatever the alpha value and the layout;
so `to_greyscale(v, v, v, a) = v` for every `v ≤ 255` and every `a`. -/
theorem to_greyscale_is_mean (format : SDL_PixelFormat) (r g b a : Nat)
    (h : r + g + b < UINT32_MOD) :
    to_greyscale format r g b a = (r + g + b) / 3
    ∧ (∀ (format2 : SDL_PixelFormat) (a2 : Nat),
        to_greyscale format2 r g b a2 = to_greyscale format r g b a)
    ∧ (∀ v a3 : Nat, v ≤ 255 → to_greyscale format v v v a3 = v) := by
  unfold to_greyscale UINT32_MOD at *
  refine ⟨by omega, fun _ _ => rfl, ?_⟩
  intro v a3 hv
  omega

/-- Witness of C9 at `(r, g, b, a) = (10, 20, 31, 255)`. -/
theorem to_greyscale_is_mean_witness :
    (10 + 20 + 31 < UINT32_MOD)
    ∧ to_greyscale ARGB8888 10 20 31 255 = (10 + 20 + 31) / 3
    ∧ (∀ (format2 : SDL_PixelFormat) (a2 : Nat),
        to_greyscale format2 10 20 31 a2 = to_greyscale ARGB8888 10 20 31 255)
    ∧ (∀ v a3 : Nat, v ≤ 255 → to_greyscale ARGB8888 v v v a3 = v) :=
  ⟨by decide, to_greyscale_is_mean ARGB8888 10 20 31 255 (by decide)⟩

/-! ## Loops -/

theorem foldl_nested {σ : Type} (f : σ → Nat → Nat → σ) (xs : List Nat) :
    ∀ (ys : List Nat) (s : σ),
      ys.foldl (fun s dy => xs.foldl (fun s dx => f s dy dx) s) s
        = (ys.flatMap fun dy => xs.map fun dx => (dx, dy)).foldl (fun s o => f s o.2 o.1) s := by
  intro ys
  induction ys with
  | nil => intro s; rfl
  | cons y ys ih =>
    intro s
    simp only [List.foldl_cons, List.flatMap_cons, List.foldl_append, List.foldl_map]
    exact ih _

theorem foldlM_nested {σ : Type} (f : σ → Nat → Nat → Option σ) (xs : List Nat) :
    ∀ (ys : List Nat) (s : σ),
      ys.foldlM (fun s dy => xs.foldlM (fun s dx => f s dy dx) s) s
        = (ys.flatMap fun dy => xs.map fun dx => (dx, dy)).foldlM (fun s o => f s o.2 o.1) s := by
  intro ys
  induction ys with
  | nil => intro s; rfl
  | cons y ys ih =>
    intro s
    simp only [List.foldlM_cons, List.flatMap_cons, List.foldlM_append, List.foldlM_map]
    congr 1
    funext s1
    exact ih s1

theorem convolve_loops_eq (matrix : ConvolutionMatrix) (image : SDL_Surface) (x0 y0 : Int) :
    convolve_loops matrix image x0 y0
      = (footprint_offsets matrix).foldl
          (fun s o => convolve_step matrix image (x0 - ((matrix.width / 3 : Nat) : Int))
            (y0 - ((matrix.height / 3 : Nat) : Int)) o.2 o.1 s)
          { grad_x := 0, grad_y := 0, reads := [] } := by
  unfold convolve_loops footprint_offsets
  exact foldl_nested
    (fun s dy dx => convolve_step matrix image (x0 - ((matrix.width / 3 : Nat) : Int))
      (y0 - ((matrix.height / 3 : Nat) : Int)) dy dx s) _ _ _

theorem max_output_loops_eq (matrix : ConvolutionMatrix) (max_input : Nat) :
    max_output_loops matrix max_input
      = (footprint_offsets matrix).foldl
          (fun s o => max_output_step matrix max_input o.2 o.1 s)
          { pos_grad_x := 0, pos_grad_y := 0, neg_grad_x := 0, neg_grad_y := 0 } := by
  unfold max_output_loops footprint_offsets
  exact foldl_nested (fun s y x => max_output_step matrix max_input y x s) _ _ _

/-! ## `ConvolutionMatrix_max_output` -/

theorem add_int_uint32_range (grad : Int) (v : Nat) :
    -2147483648 ≤ add_int_uint32 grad v ∧ add_int_uint32 grad v ≤ 2147483647 :=
  to_int_range _

theorem add_mul_uint32_int_modEq (acc t : Int) (m : Nat) (k : Int)
    (h : acc ≡ t [ZMOD 4294967296]) :
    add_int_uint32 acc (mul_uint32_int m k) ≡ t + (m : Int) * k [ZMOD 4294967296] :=
  (add_int_uint32_modEq _ _).trans (h.add (mul_uint32_int_modEq m k))

theorem max_output_step_spec (matrix : ConvolutionMatrix) (max_input y x : Nat)
    (s : MaxOutputState) (px py nx ny : Int)
    (hpx : s.pos_grad_x ≡ px [ZMOD 4294967296]) (hpy : s.pos_grad_y ≡ py [ZMOD 4294967296])
    (hnx : s.neg_grad_x ≡ nx [ZMOD 4294967296]) (hny : s.neg_grad_y ≡ ny [ZMOD 4294967296]) :
    (max_output_step matrix max_input y x s).pos_grad_x
        ≡ px + (max_input : Int) * (if matrix.x_kernel y x > 0 then matrix.x_kernel y x else 0)
          [ZMOD 4294967296]
    ∧ (max_output_step matrix max_input y x s).pos_grad_y
        ≡ py + (max_input : Int) * (if matrix.y_kernel y x > 0 then matrix.y_kernel y x else 0)
          [ZMOD 4294967296]
    ∧ (max_output_step matrix max_input y x s).neg_grad_x
        ≡ nx + (max_input : Int) * (if matrix.x_kernel y x < 0 then -matrix.x_kernel y x else 0)
          [ZMOD 4294967296]
    ∧ (max_output_step matrix max_input y x s).neg_grad_y
        ≡ ny + (max_input : Int) * (if matrix.y_kernel y x < 0 then -matrix.y_kernel y x else 0)
          [ZMOD 4294967296] := by
  have habs : ∀ k : Int, ¬ k > 0 → abs k = if k < 0 then -k else 0 := by
    intro k hk
    unfold abs
    split <;> omega
  unfold max_output_step
  by_cases hx : matrix.x_kernel y x > 0 <;> by_cases hy : matrix.y_kernel y x > 0
  · have hx' : ¬ matrix.x_kernel y x < 0 := by omega
    have hy' : ¬ matrix.y_kernel y x < 0 := by omega
    simp only [hx, hy, hx', hy', if_true, if_false, mul_zero, add_zero]
    exact ⟨add_mul_uint32_int_modEq _ _ _ _ hpx, add_mul_uint32_int_modEq _ _ _ _ hpy, hnx, hny⟩
  · have hx' : ¬ matrix.x_kernel y x < 0 := by omega
    simp only [hx, hy, hx', if_true, if_false, mul_zero, add_zero]
    refine ⟨add_mul_uint32_int_modEq _ _ _ _ hpx, hpy, hnx, ?_⟩
    rw [← habs _ hy]
    exact add_mul_uint32_int_modEq _ _ max_input (abs (matrix.y_kernel y x)) hny
  · have hy' : ¬ matrix.y_kernel y x < 0 := by omega
    simp only [hx, hy, hy', if_true, if_false, mul_zero, add_zero]
    refine ⟨hpx, add_mul_uint32_int_modEq _ _ _ _ hpy, ?_, hny⟩
    rw [← habs _ hx]
    exact add_mul_uint32_int_modEq _ _ max_input (abs (matrix.x_kernel y x)) hnx
  · simp only [hx, hy, if_false, mul_zero, add_zero]
    refine ⟨hpx, hpy, ?_, ?_⟩
    · rw [← habs _ hx]
      exact add_mul_uint32_int_modEq _ _ max_input (abs (matrix.x_kernel y x)) hnx
    · rw [← habs _ hy]
      exact add_mul_uint32_int_modEq _ _ max_input (abs (matrix.y_kernel y x)) hny

theorem max_output_step_range (matrix : ConvolutionMatrix) (max_input y x : Nat)
    (s : MaxOutputState)
    (h : (-2147483648 ≤ s.pos_grad_x ∧ s.pos_grad_x ≤ 2147483647)
      ∧ (-2147483648 ≤ s.pos_grad_y ∧ s.pos_grad_y ≤ 2147483647)
      ∧ (-2147483648 ≤ s.neg_grad_x ∧ s.neg_grad_x ≤ 2147483647)
      ∧ (-2147483648 ≤ s.neg_grad_y ∧ s.neg_grad_y ≤ 2147483647)) :
    (-2147483648 ≤ (max_output_step matrix max_input y x s).pos_grad_x
        ∧ (max_output_step matrix max_input y x s).pos_grad_x ≤ 2147483647)
      ∧ (-2147483648 ≤ (max_output_step matrix max_input y x s).pos_grad_y
        ∧ (max_output_step matrix max_input y x s).pos_grad_y ≤ 2147483647)
      ∧ (-2147483648 ≤ (max_output_step matrix max_input y x s).neg_grad_x
        ∧ (max_output_step matrix max_input y x s).neg_grad_x ≤ 2147483647)
      ∧ (-2147483648 ≤ (max_output_step matrix max_input y x s).neg_grad_y
        ∧ (max_output_step matrix max_input y x s).neg_grad_y ≤ 2147483647) := by
  obtain ⟨h1, h2, h3, h4⟩ := h
  unfold max_output_step
  by_cases hx : matrix.x_kernel y x > 0 <;> by_cases hy : matrix.y_kernel y x > 0 <;>
    simp only [hx, hy, if_true, if_false] <;>
    exact ⟨by first | exact add_int_uint32_range _ _ | exact h1,
           by first | exact add_int_uint32_range _ _ | exact h2,
           by first | exact add_int_uint32_range _ _ | exact h3,
           by first | exact add_int_uint32_range _ _ | exact h4⟩

theorem max_output_fold_spec (matrix : ConvolutionMatrix) (max_input : Nat) :
    ∀ (l : List (Nat × Nat)) (s : MaxOutputState) (px py nx ny : Int),
      s.pos_grad_x ≡ px [ZMOD 4294967296] → s.pos_grad_y ≡ py [ZMOD 4294967296] →
      s.neg_grad_x ≡ nx [ZMOD 4294967296] → s.neg_grad_y ≡ ny [ZMOD 4294967296] →
      (l.foldl (fun s o => max_output_step matrix max_input o.2 o.1 s) s).pos_grad_x
          ≡ px + (max_input : Int) *
              (l.map fun o => if matrix.x_kernel o.2 o.1 > 0 then matrix.x_kernel o.2 o.1 else 0).sum
            [ZMOD 4294967296]
      ∧ (l.foldl (fun s o => max_output_step matrix max_input o.2 o.1 s) s).pos_grad_y
          ≡ py + (max_input : Int) *
              (l.map fun o => if matrix.y_kernel o.2 o.1 > 0 then matrix.y_kernel o.2 o.1 else 0).sum
            [ZMOD 4294967296]
      ∧ (l.foldl (fun s o => max_output_step matrix max_input o.2 o.1 s) s).neg_grad_x
          ≡ nx + (max_input : Int) *
              (l.map fun o => if matrix.x_kernel o.2 o.1 < 0 then -matrix.x_kernel o.2 o.1 else 0).sum
            [ZMOD 4294967296]
      ∧ (l.foldl (fun s o => max_output_step matrix max_input o.2 o.1 s) s).neg_grad_y
          ≡ ny + (max_input : Int) *
              (l.map fun o => if matrix.y_kernel o.2 o.1 < 0 then -matrix.y_kernel o.2 o.1 else 0).sum
            [ZMOD 4294967296] := by
  intro l
  induction l with
  | nil =>
    intro s px py nx ny h1 h2 h3 h4
    simpa using ⟨h1, h2, h3, h4⟩
  | cons o l ih =>
    intro s px py nx ny h1 h2 h3 h4
    obtain ⟨g1, g2, g3, g4⟩ := max_output_step_spec matrix max_input o.2 o.1 s px py nx ny h1 h2 h3 h4
    have := ih _ _ _ _ _ g1 g2 g3 g4
    simp only [List.foldl_cons, List.map_cons, List.sum_cons, mul_add]
    simpa only [add_assoc] using this

theorem max_output_fold_range (matrix : ConvolutionMatrix) (max_input : Nat) :
    ∀ (l : List (Nat × Nat)) (s : MaxOutputState),
      ((-2147483648 ≤ s.pos_grad_x ∧ s.pos_grad_x ≤ 2147483647)
        ∧ (-2147483648 ≤ s.pos_grad_y ∧ s.pos_grad_y ≤ 2147483647)
        ∧ (-2147483648 ≤ s.neg_grad_x ∧ s.neg_grad_x ≤ 2147483647)
        ∧ (-2147483648 ≤ s.neg_grad_y ∧ s.neg_grad_y ≤ 2147483647)) →
      ((-2147483648 ≤ (l.foldl (fun s o => max_output_step matrix max_input o.2 o.1 s) s).pos_grad_x
          ∧ (l.foldl (fun s o => max_output_step matrix max_input o.2 o.1 s) s).pos_grad_x
              ≤ 2147483647)
        ∧ (-2147483648 ≤ (l.foldl (fun s o => max_output_step matrix max_input o.2 o.1 s) s).pos_grad_y
          ∧ (l.foldl (fun s o => max_output_step matrix max_input o.2 o.1 s) s).pos_grad_y
              ≤ 2147483647)
        ∧ (-2147483648 ≤ (l.foldl (fun s o => max_output_step matrix max_input o.2 o.1 s) s).neg_grad_x
          ∧ (l.foldl (fun s o => max_output_step matrix max_input o.2 o.1 s) s).neg_grad_x
              ≤ 2147483647)
        ∧ (-2147483648 ≤ (l.foldl (fun s o => max_output_step matrix max_input o.2 o.1 s) s).neg_grad_y
          ∧ (l.foldl (fun s o => max_output_step matrix max_input o.2 o.1 s) s).neg_grad_y
              ≤ 2147483647)) := by
  intro l
  induction l with
  | nil => intro s h; simpa using h
  | cons o l ih =>
    intro s h
    simp only [List.foldl_cons]
    exact ih _ (max_output_step_range matrix max_input o.2 o.1 s h)

theorem positive_weight_sum_nonneg (kernel : Nat → Nat → Int) (matrix : ConvolutionMatrix) :
    0 ≤ positive_weight_sum kernel matrix := by
  unfold positive_weight_sum
  apply List.sum_nonneg
  intro v hv
  obtain ⟨o, _, rfl⟩ := List.mem_map.mp hv
  split <;> omega

theorem negative_weight_sum_nonneg (kernel : Nat → Nat → Int) (matrix : ConvolutionMatrix) :
    0 ≤ negative_weight_sum kernel matrix := by
  unfold negative_weight_sum
  apply List.sum_nonneg
  intro v hv
  obtain ⟨o, _, rfl⟩ := List.mem_map.mp hv
  split <;> omega

theorem axis_max_nonneg (kernel : Nat → Nat → Int) (matrix : ConvolutionMatrix) (max_input : Nat) :
    0 ≤ axis_max kernel matrix max_input := by
  unfold axis_max
  exact le_max_of_le_left
    (mul_nonneg (Int.ofNat_nonneg _) (positive_weight_sum_nonneg kernel matrix))

theorem sqrt_sum_squares_eq (gx gy : Int) (h : gx * gx + gy * gy ≤ INT_MAX) :
    sqrt_sum_squares gx gy = some (Nat.sqrt (gx * gx + gy * gy).toNat) := by
  unfold sqrt_sum_squares
  rw [if_pos h, sqrt_uint32_eq]
  unfold INT_MAX at h
  omega

/-- The accumulators of `ConvolutionMatrix_max_output` hold the exact weighted
sums whenever the sum of the squared axis maxima fits in an `int`. -/
theorem max_output_loops_exact (matrix : ConvolutionMatrix) (max_input : Nat)
    (h : axis_max matrix.x_kernel matrix max_input * axis_max matrix.x_kernel matrix max_input
      + axis_max matrix.y_kernel matrix max_input * axis_max matrix.y_kernel matrix max_input
        ≤ INT_MAX) :
    (max_output_loops matrix max_input).pos_grad_x
        = (max_input : Int) * positive_weight_sum matrix.x_kernel matrix
    ∧ (max_output_loops matrix max_input).pos_grad_y
        = (max_input : Int) * positive_weight_sum matrix.y_kernel matrix
    ∧ (max_output_loops matrix max_input).neg_grad_x
        = (max_input : Int) * negative_weight_sum matrix.x_kernel matrix
    ∧ (max_output_loops matrix max_input).neg_grad_y
        = (max_input : Int) * negative_weight_sum matrix.y_kernel matrix := by
  have hx0 := axis_max_nonneg matrix.x_kernel matrix max_input
  have hy0 := axis_max_nonneg matrix.y_kernel matrix max_input
  have hx1 : axis_max matrix.x_kernel matrix max_input ≤ 2147483647 := by
    unfold INT_MAX at h; nlinarith
  have hy1 : axis_max matrix.y_kernel matrix max_input ≤ 2147483647 := by
    unfold INT_MAX at h; nlinarith
  have hm : (0 : Int) ≤ max_input := Int.ofNat_nonneg _
  have b1 := mul_nonneg hm (positive_weight_sum_nonneg matrix.x_kernel matrix)
  have b2 := mul_nonneg hm (positive_weight_sum_nonneg matrix.y_kernel matrix)
  have b3 := mul_nonneg hm (negative_weight_sum_nonneg matrix.x_kernel matrix)
  have b4 := mul_nonneg hm (negative_weight_sum_nonneg matrix.y_kernel matrix)
  have c1 : (max_input : Int) * positive_weight_sum matrix.x_kernel matrix
      ≤ axis_max matrix.x_kernel matrix max_input := le_max_left _ _
  have c2 : (max_input : Int) * positive_weight_sum matrix.y_kernel matrix
      ≤ axis_max matrix.y_kernel matrix max_input := le_max_left _ _
  have c3 : (max_input : Int) * negative_weight_sum matrix.x_kernel matrix
      ≤ axis_max matrix.x_kernel matrix max_input := le_max_right _ _
  have c4 : (max_input : Int) * negative_weight_sum matrix.y_kernel matrix
      ≤ axis_max matrix.y_kernel matrix max_input := le_max_right _ _
  rw [max_output_loops_eq]
  obtain ⟨m1, m2, m3, m4⟩ := max_output_fold_spec matrix max_input (footprint_offsets matrix)
    { pos_grad_x := 0, pos_grad_y := 0, neg_grad_x := 0, neg_grad_y := 0 } 0 0 0 0
    (Int.ModEq.refl _) (Int.ModEq.refl _) (Int.ModEq.refl _) (Int.ModEq.refl _)
  obtain ⟨r1, r2, r3, r4⟩ := max_output_fold_range matrix max_input (footprint_offsets matrix)
    { pos_grad_x := 0, pos_grad_y := 0, neg_grad_x := 0, neg_grad_y := 0 }
    (by simp)
  simp only [zero_add] at m1 m2 m3 m4
  unfold positive_weight_sum negative_weight_sum at *
  exact ⟨eq_of_modEq_of_range m1 r1.1 r1.2 (by omega) (by omega),
         eq_of_modEq_of_range m2 r2.1 r2.2 (by omega) (by omega),
         eq_of_modEq_of_range m3 r3.1 r3.2 (by omega) (by omega),
         eq_of_modEq_of_range m4 r4.1 r4.2 (by omega) (by omega)⟩

theorem max_output_eq (matrix : ConvolutionMatrix) (max_input : Nat)
    (h : axis_max matrix.x_kernel matrix max_input * axis_max matrix.x_kernel matrix max_input
      + axis_max matrix.y_kernel matrix max_input * axis_max matrix.y_kernel matrix max_input
        ≤ INT_MAX) :
    ConvolutionMatrix_max_output matrix max_input
      = some (Nat.sqrt
          (axis_max matrix.x_kernel matrix max_input * axis_max matrix.x_kernel matrix max_input
            + axis_max matrix.y_kernel matrix max_input * axis_max matrix.y_kernel matrix max_input
          ).toNat) := by
  obtain ⟨e1, e2, e3, e4⟩ := max_output_loops_exact matrix max_input h
  have gx : (if (max_output_loops matrix max_input).pos_grad_x
        > (max_output_loops matrix max_input).neg_grad_x
      then (max_output_loops matrix max_input).pos_grad_x
      else (max_output_loops matrix max_input).neg_grad_x)
      = axis_max matrix.x_kernel matrix max_input := by
    rw [e1, e3]; unfold axis_max
    split
    · rw [max_eq_left]; omega
    · rw [max_eq_right]; omega
  have gy : (if (max_output_loops matrix max_input).pos_grad_y
        > (max_output_loops matrix max_input).neg_grad_y
      then (max_output_loops matrix max_input).pos_grad_y
      else (max_output_loops matrix max_input).neg_grad_y)
      = axis_max matrix.y_kernel matrix max_input := by
    rw [e2, e4]; unfold axis_max
    split
    · rw [max_eq_left]; omega
    · rw [max_eq_right]; omega
  unfold ConvolutionMatrix_max_output
  simp only [gx, gy]
  exact sqrt_sum_squares_eq _ _ h


theorem axis_max_mono (kernel : Nat → Nat → Int) (matrix : ConvolutionMatrix) (a b : Nat)
    (hab : a ≤ b) : axis_max kernel matrix a ≤ axis_max kernel matrix b := by
  unfold axis_max
  have h : (a : Int) ≤ b := Int.ofNat_le.mpr hab
  exact max_le_max
    (mul_le_mul_of_nonneg_right h (positive_weight_sum_nonneg kernel matrix))
    (mul_le_mul_of_nonneg_right h (negative_weight_sum_nonneg kernel matrix))

theorem built_in_weight_sums (matrix : ConvolutionMatrix) (hk : matrix ∈ built_in_kernels) :
    ∃ s : Int, 1 ≤ s ∧ s ≤ 16
      ∧ positive_weight_sum matrix.x_kernel matrix = s
      ∧ negative_weight_sum matrix.x_kernel matrix = s
      ∧ positive_weight_sum matrix.y_kernel matrix = s
      ∧ negative_weight_sum matrix.y_kernel matrix = s := by
  simp only [built_in_kernels, List.mem_cons, List.mem_singleton, List.not_mem_nil, or_false] at hk
  rcases hk with rfl | rfl | rfl | rfl
  · exact ⟨4, by decide, by decide, by decide, by decide, by decide, by decide⟩
  · exact ⟨3, by decide, by decide, by decide, by decide, by decide, by decide⟩
  · exact ⟨1, by decide, by decide, by decide, by decide, by decide, by decide⟩
  · exact ⟨16, by decide, by decide, by decide, by decide, by decide, by decide⟩

/-- C3: whenever nothing overflows 32 bits (the sum of the squared axis maxima
fits in an `int`), `ConvolutionMatrix_max_output` returns the integer part of
`sqrt(Gx^2 + Gy^2)`, with `Gx`, `Gy` the larger of `max_input` times the
positive weights and `max_input` times the absolute negative weights of the
x and y kernel over the declared footprint; for `max_input = 255` this is
1442 for Sobel, 1081 for Prewitt, 360 for Roberts and 5769 for Scharr. -/
theorem max_output_is_sqrt_of_axis_maxima (matrix : ConvolutionMatrix) (max_input : Nat)
    (h : axis_max matrix.x_kernel matrix max_input * axis_max matrix.x_kernel matrix max_input
      + axis_max matrix.y_kernel matrix max_input * axis_max matrix.y_kernel matrix max_input
        ≤ INT_MAX) :
    ConvolutionMatrix_max_output matrix max_input
        = some (Nat.sqrt
            (axis_max matrix.x_kernel matrix max_input * axis_max matrix.x_kernel matrix max_input
              + axis_max matrix.y_kernel matrix max_input
                * axis_max matrix.y_kernel matrix max_input).toNat)
    ∧ ConvolutionMatrix_max_output SobelConvolutionMatrix 255 = some 1442
    ∧ ConvolutionMatrix_max_output PrewittConvolutionMatrix 255 = some 1081
    ∧ ConvolutionMatrix_max_output RobertsConvolutionMatrix 255 = some 360
    ∧ ConvolutionMatrix_max_output ScharrConvolutionMatrix 255 = some 5769 :=
  ⟨max_output_eq matrix max_input h, by decide, by decide, by decide, by decide⟩

/-- Witness of C3 at the Scharr kernel and `max_input = 255`. -/
theorem max_output_is_sqrt_of_axis_maxima_witness :
    (axis_max ScharrConvolutionMatrix.x_kernel ScharrConvolutionMatrix 255
        * axis_max ScharrConvolutionMatrix.x_kernel ScharrConvolutionMatrix 255
      + axis_max ScharrConvolutionMatrix.y_kernel ScharrConvolutionMatrix 255
        * axis_max ScharrConvolutionMatrix.y_kernel ScharrConvolutionMatrix 255 ≤ INT_MAX)
    ∧ ConvolutionMatrix_max_output ScharrConvolutionMatrix 255
        = some (Nat.sqrt
            (axis_max ScharrConvolutionMatrix.x_kernel ScharrConvolutionMatrix 255
                * axis_max ScharrConvolutionMatrix.x_kernel ScharrConvolutionMatrix 255
              + axis_max ScharrConvolutionMatrix.y_kernel ScharrConvolutionMatrix 255
                * axis_max ScharrConvolutionMatrix.y_kernel ScharrConvolutionMatrix 255).toNat) :=
  ⟨by decide, (max_output_is_sqrt_of_axis_maxima ScharrConvolutionMatrix 255 (by decide)).1⟩

/-- C10, as stated, fails: with the Sobel kernel `max_input = 2^30` makes every
accumulator wrap to 0, so the result drops from 1442 (at 255) to 0. -/
theorem max_output_not_monotone_on_uint32 :
    (255 : Nat) ≤ 1073741824 ∧ 1073741824 < UINT32_MOD
    ∧ ConvolutionMatrix_max_output SobelConvolutionMatrix 255 = some 1442
    ∧ ConvolutionMatrix_max_output SobelConvolutionMatrix 1073741824 = some 0
    ∧ ¬ ((1442 : Nat) ≤ 0) := by
  decide

/-- C10, amended: for every kernel and `a ≤ b` such that the computation for
`b` does not overflow 32 bits, both results are defined and
`max_output(kernel, a) ≤ max_output(kernel, b)`; for the four built-in kernels
every `b ≤ 2047` is such a value. -/
theorem max_output_monotone_without_overflow (matrix : ConvolutionMatrix) (a b : Nat)
    (hab : a ≤ b)
    (h : axis_max matrix.x_kernel matrix b * axis_max matrix.x_kernel matrix b
      + axis_max matrix.y_kernel matrix b * axis_max matrix.y_kernel matrix b ≤ INT_MAX) :
    (∃ va vb, ConvolutionMatrix_max_output matrix a = some va
      ∧ ConvolutionMatrix_max_output matrix b = some vb ∧ va ≤ vb)
    ∧ (∀ k ∈ built_in_kernels, ∀ c : Nat, c ≤ 2047 →
        axis_max k.x_kernel k c * axis_max k.x_kernel k c
          + axis_max k.y_kernel k c * axis_max k.y_kernel k c ≤ INT_MAX) := by
  constructor
  · have hx := axis_max_mono matrix.x_kernel matrix a b hab
    have hy := axis_max_mono matrix.y_kernel matrix a b hab
    have hx0 := axis_max_nonneg matrix.x_kernel matrix a
    have hy0 := axis_max_nonneg matrix.y_kernel matrix a
    have hle : axis_max matrix.x_kernel matrix a * axis_max matrix.x_kernel matrix a
        + axis_max matrix.y_kernel matrix a * axis_max matrix.y_kernel matrix a
        ≤ axis_max matrix.x_kernel matrix b * axis_max matrix.x_kernel matrix b
        + axis_max matrix.y_kernel matrix b * axis_max matrix.y_kernel matrix b := by
      nlinarith
    refine ⟨_, _, max_output_eq matrix a (le_trans hle h), max_output_eq matrix b h, ?_⟩
    exact Nat.sqrt_le_sqrt (Int.toNat_le_toNat hle)
  · intro k hk c hc
    obtain ⟨s, hs1, hs2, e1, e2, e3, e4⟩ := built_in_weight_sums k hk
    unfold axis_max INT_MAX
    rw [e1, e2, e3, e4, max_self]
    have hc' : (c : Int) ≤ 2047 := by exact_mod_cast hc
    have hc0 : (0 : Int) ≤ c := Int.ofNat_nonneg _
    have : (c : Int) * s ≤ 2047 * 16 := by nlinarith
    have : 0 ≤ (c : Int) * s := by nlinarith
    nlinarith

/-- Witness of the amended C10 at the Scharr kernel, `a = 255`, `b = 2047`. -/
theorem max_output_monotone_without_overflow_witness :
    (255 : Nat) ≤ 2047
    ∧ (axis_max ScharrConvolutionMatrix.x_kernel ScharrConvolutionMatrix 2047
          * axis_max ScharrConvolutionMatrix.x_kernel ScharrConvolutionMatrix 2047
        + axis_max ScharrConvolutionMatrix.y_kernel ScharrConvolutionMatrix 2047
          * axis_max ScharrConvolutionMatrix.y_kernel ScharrConvolutionMatrix 2047 ≤ INT_MAX)
    ∧ (∃ va vb, ConvolutionMatrix_max_output ScharrConvolutionMatrix 255 = some va
        ∧ ConvolutionMatrix_max_output ScharrConvolutionMatrix 2047 = some vb ∧ va ≤ vb) :=
  ⟨by decide, by decide,
    (max_output_monotone_without_overflow ScharrConvolutionMatrix 255 2047 (by decide)
      (by decide)).1⟩


/-! ## `ConvolutionMatrix_convolve` -/

theorem convolve_step_of_passes (matrix : ConvolutionMatrix) (image : SDL_Surface) (x0 y0 : Int)
    (o : Nat × Nat) (s : ConvolveState)
    (h : passes_bounds_test image (sample_coordinate matrix x0 y0 o) = true) :
    convolve_step matrix image (x0 - ((matrix.width / 3 : Nat) : Int))
        (y0 - ((matrix.height / 3 : Nat) : Int)) o.2 o.1 s
      = { grad_x := add_int_uint32 s.grad_x (mul_int_uint32 (matrix.x_kernel o.2 o.1)
            (grey_at image (sample_coordinate matrix x0 y0 o).1
              (sample_coordinate matrix x0 y0 o).2)),
          grad_y := add_int_uint32 s.grad_y (mul_int_uint32 (matrix.y_kernel o.2 o.1)
            (grey_at image (sample_coordinate matrix x0 y0 o).1
              (sample_coordinate matrix x0 y0 o).2)),
          reads := s.reads ++ [sample_coordinate matrix x0 y0 o] } := by
  unfold passes_bounds_test sample_coordinate at h
  simp only [decide_eq_true_eq] at h
  unfold convolve_step sample_coordinate
  simp only
  rw [if_pos ⟨h.1, h.2.1, h.2.2.1, h.2.2.2⟩]

theorem convolve_step_of_fails (matrix : ConvolutionMatrix) (image : SDL_Surface) (x0 y0 : Int)
    (o : Nat × Nat) (s : ConvolveState)
    (h : ¬ passes_bounds_test image (sample_coordinate matrix x0 y0 o) = true) :
    convolve_step matrix image (x0 - ((matrix.width / 3 : Nat) : Int))
        (y0 - ((matrix.height / 3 : Nat) : Int)) o.2 o.1 s = s := by
  unfold passes_bounds_test sample_coordinate at h
  simp only [decide_eq_true_eq] at h
  unfold convolve_step
  simp only
  rw [if_neg]
  intro hc
  exact h ⟨hc.1, hc.2.1, hc.2.2.1, hc.2.2.2⟩

theorem convolve_fold_spec (matrix : ConvolutionMatrix) (image : SDL_Surface) (x0 y0 : Int) :
    ∀ (l : List (Nat × Nat)) (s : ConvolveState) (gx gy : Int),
      s.grad_x ≡ gx [ZMOD 4294967296] → s.grad_y ≡ gy [ZMOD 4294967296] →
      (-2147483648 ≤ s.grad_x ∧ s.grad_x ≤ 2147483647) →
      (-2147483648 ≤ s.grad_y ∧ s.grad_y ≤ 2147483647) →
      (l.foldl (fun s o => convolve_step matrix image (x0 - ((matrix.width / 3 : Nat) : Int))
            (y0 - ((matrix.height / 3 : Nat) : Int)) o.2 o.1 s) s).grad_x
          ≡ gx + ((l.filter fun o =>
                passes_bounds_test image (sample_coordinate matrix x0 y0 o)).map fun o =>
              matrix.x_kernel o.2 o.1 *
                (grey_at image (sample_coordinate matrix x0 y0 o).1
                  (sample_coordinate matrix x0 y0 o).2 : Int)).sum [ZMOD 4294967296]
      ∧ (l.foldl (fun s o => convolve_step matrix image (x0 - ((matrix.width / 3 : Nat) : Int))
            (y0 - ((matrix.height / 3 : Nat) : Int)) o.2 o.1 s) s).grad_y
          ≡ gy + ((l.filter fun o =>
                passes_bounds_test image (sample_coordinate matrix x0 y0 o)).map fun o =>
              matrix.y_kernel o.2 o.1 *
                (grey_at image (sample_coordinate matrix x0 y0 o).1
                  (sample_coordinate matrix x0 y0 o).2 : Int)).sum [ZMOD 4294967296]
      ∧ (-2147483648 ≤ (l.foldl (fun s o => convolve_step matrix image
            (x0 - ((matrix.width / 3 : Nat) : Int))
            (y0 - ((matrix.height / 3 : Nat) : Int)) o.2 o.1 s) s).grad_x
          ∧ (l.foldl (fun s o => convolve_step matrix image
            (x0 - ((matrix.width / 3 : Nat) : Int))
            (y0 - ((matrix.height / 3 : Nat) : Int)) o.2 o.1 s) s).grad_x ≤ 2147483647)
      ∧ (-2147483648 ≤ (l.foldl (fun s o => convolve_step matrix image
            (x0 - ((matrix.width / 3 : Nat) : Int))
            (y0 - ((matrix.height / 3 : Nat) : Int)) o.2 o.1 s) s).grad_y
          ∧ (l.foldl (fun s o => convolve_step matrix image
            (x0 - ((matrix.width / 3 : Nat) : Int))
            (y0 - ((matrix.height / 3 : Nat) : Int)) o.2 o.1 s) s).grad_y ≤ 2147483647)
      ∧ (l.foldl (fun s o => convolve_step matrix image (x0 - ((matrix.width / 3 : Nat) : Int))
            (y0 - ((matrix.height / 3 : Nat) : Int)) o.2 o.1 s) s).reads
          = s.reads ++ (l.filter fun o =>
              passes_bounds_test image (sample_coordinate matrix x0 y0 o)).map
                (sample_coordinate matrix x0 y0) := by
  intro l
  induction l with
  | nil =>
    intro s gx gy h1 h2 r1 r2
    simpa using ⟨h1, h2, r1, r2⟩
  | cons o l ih =>
    intro s gx gy h1 h2 r1 r2
    simp only [List.foldl_cons]
    by_cases hp : passes_bounds_test image (sample_coordinate matrix x0 y0 o) = true
    · rw [convolve_step_of_passes matrix image x0 y0 o s hp]
      have g1 := (add_int_uint32_modEq s.grad_x (mul_int_uint32 (matrix.x_kernel o.2 o.1)
            (grey_at image (sample_coordinate matrix x0 y0 o).1
              (sample_coordinate matrix x0 y0 o).2))).trans
          (h1.add (mul_int_uint32_modEq _ _))
      have g2 := (add_int_uint32_modEq s.grad_y (mul_int_uint32 (matrix.y_kernel o.2 o.1)
            (grey_at image (sample_coordinate matrix x0 y0 o).1
              (sample_coordinate matrix x0 y0 o).2))).trans
          (h2.add (mul_int_uint32_modEq _ _))
      have := ih ⟨_, _, s.reads ++ [sample_coordinate matrix x0 y0 o]⟩ _ _ g1 g2
        (add_int_uint32_range _ _) (add_int_uint32_range _ _)
      simp only [List.filter_cons, hp, if_true, List.map_cons, List.sum_cons]
      simpa only [add_assoc, List.append_assoc, List.singleton_append] using this
    · rw [convolve_step_of_fails matrix image x0 y0 o s hp]
      have := ih s gx gy h1 h2 r1 r2
      simp only [List.filter_cons, hp]
      simpa using this

/-- The loops of `ConvolutionMatrix_convolve` leave in `grad_x`, `grad_y` the
exact gradient sums whenever these fit in an `int`, and hand to `get_pixel`
exactly the sample coordinates that pass the bounds test. -/
theorem convolve_loops_spec (matrix : ConvolutionMatrix) (image : SDL_Surface) (x0 y0 : Int) :
    (convolve_loops matrix image x0 y0).grad_x
        ≡ gradient_sum matrix.x_kernel matrix image x0 y0 [ZMOD 4294967296]
    ∧ (convolve_loops matrix image x0 y0).grad_y
        ≡ gradient_sum matrix.y_kernel matrix image x0 y0 [ZMOD 4294967296]
    ∧ (-2147483648 ≤ (convolve_loops matrix image x0 y0).grad_x
        ∧ (convolve_loops matrix image x0 y0).grad_x ≤ 2147483647)
    ∧ (-2147483648 ≤ (convolve_loops matrix image x0 y0).grad_y
        ∧ (convolve_loops matrix image x0 y0).grad_y ≤ 2147483647)
    ∧ convolve_reads matrix image x0 y0
        = (sampled_offsets matrix image x0 y0).map (sample_coordinate matrix x0 y0) := by
  have := convolve_fold_spec matrix image x0 y0 (footprint_offsets matrix)
    { grad_x := 0, grad_y := 0, reads := [] } 0 0 (Int.ModEq.refl _) (Int.ModEq.refl _)
    (by simp) (by simp)
  unfold convolve_reads gradient_sum sampled_offsets
  rw [convolve_loops_eq]
  simpa using this

theorem sq_sum_bound (gx gy : Int) (h : gx * gx + gy * gy ≤ INT_MAX) :
    (-2147483648 ≤ gx ∧ gx ≤ 2147483647) ∧ (-2147483648 ≤ gy ∧ gy ≤ 2147483647) := by
  unfold INT_MAX at h
  refine ⟨⟨?_, ?_⟩, ⟨?_, ?_⟩⟩ <;> nlinarith

theorem convolve_eq (matrix : ConvolutionMatrix) (image : SDL_Surface) (x0 y0 : Int)
    (h : gradient_sum matrix.x_kernel matrix image x0 y0
          * gradient_sum matrix.x_kernel matrix image x0 y0
        + gradient_sum matrix.y_kernel matrix image x0 y0
          * gradient_sum matrix.y_kernel matrix image x0 y0 ≤ INT_MAX) :
    (convolve_loops matrix image x0 y0).grad_x = gradient_sum matrix.x_kernel matrix image x0 y0
    ∧ (convolve_loops matrix image x0 y0).grad_y
        = gradient_sum matrix.y_kernel matrix image x0 y0
    ∧ ConvolutionMatrix_convolve matrix image x0 y0
        = some (Nat.sqrt
            (gradient_sum matrix.x_kernel matrix image x0 y0
                * gradient_sum matrix.x_kernel matrix image x0 y0
              + gradient_sum matrix.y_kernel matrix image x0 y0
                * gradient_sum matrix.y_kernel matrix image x0 y0).toNat) := by
  obtain ⟨m1, m2, r1, r2, _⟩ := convolve_loops_spec matrix image x0 y0
  obtain ⟨b1, b2⟩ := sq_sum_bound _ _ h
  have e1 := eq_of_modEq_of_range m1 r1.1 r1.2 b1.1 b1.2
  have e2 := eq_of_modEq_of_range m2 r2.1 r2.2 b2.1 b2.2
  refine ⟨e1, e2, ?_⟩
  unfold ConvolutionMatrix_convolve
  simp only [e1, e2]
  exact sqrt_sum_squares_eq _ _ h


/-- C1, as stated, fails: the accumulators are 32-bit.  With the 1x1 kernel of
weight `0x01010101` on a white pixel the exact gradient is `4294967295`, whose
square root is `4294967295`, but `grad_x` wraps to `-1` and the function
returns 1. -/
theorem convolve_wraps_at_32_bits :
    wide_weight_kernel.width ≤ 3 ∧ wide_weight_kernel.height ≤ 3
    ∧ gradient_sum wide_weight_kernel.x_kernel wide_weight_kernel white_1x1 0 0 = 4294967295
    ∧ gradient_sum wide_weight_kernel.y_kernel wide_weight_kernel white_1x1 0 0 = 0
    ∧ Nat.sqrt ((4294967295 : Int) * 4294967295 + 0 * 0).toNat = 4294967295
    ∧ (convolve_loops wide_weight_kernel white_1x1 0 0).grad_x = -1
    ∧ ConvolutionMatrix_convolve wide_weight_kernel white_1x1 0 0 = some 1 := by
  refine ⟨by decide, by decide, by decide, by decide, ?_, by decide, by decide⟩
  symm
  rw [Nat.eq_sqrt]
  decide

/-- C1, amended: for every kernel with width, height at most 3, every image
and every coordinate, whenever `gx^2 + gy^2` fits in an `int`,
`ConvolutionMatrix_convolve` returns the integer part of `sqrt(gx^2 + gy^2)`,
with `gx`, `gy` the sums over the footprint offsets whose sample coordinate
`(x0 - width/3 + dx, y0 - height/3 + dy)` passes `0 ≤ x ≤ w`, `0 ≤ y < h` of
the x, y weight times the grey value there; a 3x3 footprint starts at
`(x0-1, y0-1)` and the 2x2 Roberts footprint at `(x0, y0)`. -/
theorem convolve_is_sqrt_of_gradient_sums (matrix : ConvolutionMatrix) (image : SDL_Surface)
    (x0 y0 : Int) (_hw : matrix.width ≤ 3) (_hh : matrix.height ≤ 3)
    (h : gradient_sum matrix.x_kernel matrix image x0 y0
          * gradient_sum matrix.x_kernel matrix image x0 y0
        + gradient_sum matrix.y_kernel matrix image x0 y0
          * gradient_sum matrix.y_kernel matrix image x0 y0 ≤ INT_MAX) :
    ConvolutionMatrix_convolve matrix image x0 y0
        = some (Nat.sqrt
            (gradient_sum matrix.x_kernel matrix image x0 y0
                * gradient_sum matrix.x_kernel matrix image x0 y0
              + gradient_sum matrix.y_kernel matrix image x0 y0
                * gradient_sum matrix.y_kernel matrix image x0 y0).toNat)
    ∧ (matrix.width = 3 → matrix.height = 3 →
        sample_coordinate matrix x0 y0 (0, 0) = (x0 - 1, y0 - 1))
    ∧ sample_coordinate RobertsConvolutionMatrix x0 y0 (0, 0) = (x0, y0) := by
  refine ⟨(convolve_eq matrix image x0 y0 h).2.2, ?_, ?_⟩
  · intro h3 h3'
    simp [sample_coordinate, h3, h3']
  · simp [sample_coordinate, RobertsConvolutionMatrix]

/-- Witness of the amended C1: the Sobel kernel on the 2x2 checker at `(1, 1)`. -/
theorem convolve_is_sqrt_of_gradient_sums_witness :
    SobelConvolutionMatrix.width ≤ 3 ∧ SobelConvolutionMatrix.height ≤ 3
    ∧ (gradient_sum SobelConvolutionMatrix.x_kernel SobelConvolutionMatrix checker_2x2 1 1
          * gradient_sum SobelConvolutionMatrix.x_kernel SobelConvolutionMatrix checker_2x2 1 1
        + gradient_sum SobelConvolutionMatrix.y_kernel SobelConvolutionMatrix checker_2x2 1 1
          * gradient_sum SobelConvolutionMatrix.y_kernel SobelConvolutionMatrix checker_2x2 1 1
          ≤ INT_MAX)
    ∧ ConvolutionMatrix_convolve SobelConvolutionMatrix checker_2x2 1 1
        = some (Nat.sqrt
            (gradient_sum SobelConvolutionMatrix.x_kernel SobelConvolutionMatrix checker_2x2 1 1
                * gradient_sum SobelConvolutionMatrix.x_kernel SobelConvolutionMatrix
                    checker_2x2 1 1
              + gradient_sum SobelConvolutionMatrix.y_kernel SobelConvolutionMatrix checker_2x2 1 1
                * gradient_sum SobelConvolutionMatrix.y_kernel SobelConvolutionMatrix
                    checker_2x2 1 1).toNat) :=
  ⟨by decide, by decide, by decide,
    (convolve_is_sqrt_of_gradient_sums SobelConvolutionMatrix checker_2x2 1 1
      (by decide) (by decide) (by decide)).1⟩

/-- C2 fails on the code: at the in-range coordinate `(1, 1)` of a 2x2 image
the Sobel convolver hands `(2, 0)` and `(2, 1)` to `get_pixel`; their `x`
equals the width, and `(2, 1)` is the word just past the 4-pixel buffer. -/
theorem convolve_reads_column_w :
    (0 : Int) ≤ 1 ∧ (1 : Int) < (checker_2x2.w : Int) ∧ (1 : Int) < (checker_2x2.h : Int)
    ∧ convolve_reads SobelConvolutionMatrix checker_2x2 1 1
        = [(0, 0), (1, 0), (2, 0), (0, 1), (1, 1), (2, 1)]
    ∧ ¬ ((2 : Int) < (checker_2x2.w : Int))
    ∧ pixel_index checker_2x2 2 1 = checker_2x2.h * checker_2x2.w := by
  decide


/-! ## Magnitude bound -/

theorem weighted_sum_bounds (k : Nat × Nat → Int) (g : Nat × Nat → Int) (p : Nat × Nat → Bool)
    (c : Int) (hc : 0 ≤ c) :
    ∀ (l : List (Nat × Nat)), (∀ o ∈ l.filter p, 0 ≤ g o ∧ g o ≤ c) →
      ((l.filter p).map fun o => k o * g o).sum
          ≤ c * (l.map fun o => if k o > 0 then k o else 0).sum
      ∧ -(c * (l.map fun o => if k o < 0 then -k o else 0).sum)
          ≤ ((l.filter p).map fun o => k o * g o).sum := by
  intro l
  induction l with
  | nil => intro _; simp
  | cons o l ih =>
    intro hg
    have hpos : 0 ≤ (if k o > 0 then k o else 0) := by split <;> omega
    have hneg : 0 ≤ (if k o < 0 then -k o else 0) := by split <;> omega
    by_cases hp : p o = true
    · have hgo := hg o (by simp [List.filter_cons, hp])
      have ih' := ih (fun o' ho' => hg o' (by
        simp only [List.filter_cons, hp, if_true, List.mem_cons]; exact Or.inr ho'))
      simp only [List.filter_cons, hp, if_true, List.map_cons, List.sum_cons, mul_add]
      have h1 : k o * g o ≤ c * (if k o > 0 then k o else 0) := by
        split
        · nlinarith
        · have : k o ≤ 0 := by omega
          nlinarith
      have h2 : -(c * (if k o < 0 then -k o else 0)) ≤ k o * g o := by
        split
        · nlinarith
        · have : 0 ≤ k o := by omega
          nlinarith
      constructor <;> linarith [ih'.1, ih'.2]
    · have ih' := ih (fun o' ho' => hg o' (by
        simp only [List.filter_cons, hp]; exact ho'))
      simp only [List.filter_cons, hp, List.map_cons, List.sum_cons, mul_add]
      have h1 : 0 ≤ c * (if k o > 0 then k o else 0) := mul_nonneg hc hpos
      have h2 : 0 ≤ c * (if k o < 0 then -k o else 0) := mul_nonneg hc hneg
      constructor
      · have := ih'.1; simp only [Bool.false_eq_true, if_false] at *; linarith
      · have := ih'.2; simp only [Bool.false_eq_true, if_false] at *; linarith

/-- When every sampled grey value is at most `c`, each exact gradient sum lies
between minus `c` times the negative weights and `c` times the positive
weights of its kernel. -/
theorem gradient_sum_bounds (kernel : Nat → Nat → Int) (matrix : ConvolutionMatrix)
    (image : SDL_Surface) (x0 y0 : Int) (c : Nat)
    (hgrey : ∀ p ∈ convolve_reads matrix image x0 y0, grey_at image p.1 p.2 ≤ c) :
    gradient_sum kernel matrix image x0 y0 ≤ (c : Int) * positive_weight_sum kernel matrix
    ∧ -((c : Int) * negative_weight_sum kernel matrix) ≤ gradient_sum kernel matrix image x0 y0 := by
  have hreads := (convolve_loops_spec matrix image x0 y0).2.2.2.2
  have := weighted_sum_bounds (fun o => kernel o.2 o.1)
    (fun o => (grey_at image (sample_coordinate matrix x0 y0 o).1
      (sample_coordinate matrix x0 y0 o).2 : Int))
    (fun o => passes_bounds_test image (sample_coordinate matrix x0 y0 o))
    (c : Int) (Int.ofNat_nonneg _) (footprint_offsets matrix)
    (by
      intro o ho
      refine ⟨Int.ofNat_nonneg _, ?_⟩
      have hm : sample_coordinate matrix x0 y0 o ∈ convolve_reads matrix image x0 y0 := by
        rw [hreads]
        exact List.mem_map.mpr ⟨o, ho, rfl⟩
      show ((grey_at image (sample_coordinate matrix x0 y0 o).1
        (sample_coordinate matrix x0 y0 o).2 : Nat) : Int) ≤ (c : Int)
      exact_mod_cast hgrey _ hm)
  unfold gradient_sum sampled_offsets positive_weight_sum negative_weight_sum
  exact this


theorem scale_255_le (g m : Nat) (hm : 0 < m) (hg : g ≤ m) :
    ∃ v, scale_255 g m = some v ∧ v ≤ 255 ∧ v = g * 255 / m := by
  have hv : g * 255 / m ≤ 255 := by
    apply Nat.div_le_of_le_mul
    nlinarith
  refine ⟨g * 255 / m, ?_, hv, rfl⟩
  unfold scale_255 UINT32_MOD
  rw [if_neg (by omega), if_pos (by omega)]

/-- For a built-in kernel on an image whose sampled grey values are at most
255, the accumulators hold the exact sums, the squares do not overflow and
the magnitude is at most `max_output(kernel, 255)`, which is positive. -/
theorem built_in_convolve_bound (matrix : ConvolutionMatrix) (hk : matrix ∈ built_in_kernels)
    (image : SDL_Surface) (x0 y0 : Int)
    (hgrey : ∀ p ∈ convolve_reads matrix image x0 y0, grey_at image p.1 p.2 ≤ 255) :
    ∃ g m, ConvolutionMatrix_convolve matrix image x0 y0 = some g
      ∧ ConvolutionMatrix_max_output matrix 255 = some m
      ∧ g ≤ m ∧ 0 < m
      ∧ (convolve_loops matrix image x0 y0).grad_x
          = gradient_sum matrix.x_kernel matrix image x0 y0
      ∧ (convolve_loops matrix image x0 y0).grad_y
          = gradient_sum matrix.y_kernel matrix image x0 y0
      ∧ (convolve_loops matrix image x0 y0).grad_x * (convolve_loops matrix image x0 y0).grad_x
          + (convolve_loops matrix image x0 y0).grad_y * (convolve_loops matrix image x0 y0).grad_y
          ≤ INT_MAX := by
  obtain ⟨s, hs1, hs2, e1, e2, e3, e4⟩ := built_in_weight_sums matrix hk
  obtain ⟨ux, lx⟩ := gradient_sum_bounds matrix.x_kernel matrix image x0 y0 255 hgrey
  obtain ⟨uy, ly⟩ := gradient_sum_bounds matrix.y_kernel matrix image x0 y0 255 hgrey
  rw [e1] at ux; rw [e2] at lx; rw [e3] at uy; rw [e4] at ly
  have ax : axis_max matrix.x_kernel matrix 255 = 255 * s := by
    unfold axis_max; rw [e1, e2, max_self]; norm_num
  have ay : axis_max matrix.y_kernel matrix 255 = 255 * s := by
    unfold axis_max; rw [e3, e4, max_self]; norm_num
  push_cast at ux lx uy ly
  have hsq : ∀ v : Int, v ≤ 255 * s → -(255 * s) ≤ v → v * v ≤ (255 * s) * (255 * s) := by
    intro v h1 h2; nlinarith
  have hxx := hsq _ ux lx
  have hyy := hsq _ uy ly
  have hG : (255 * s) * (255 * s) + (255 * s) * (255 * s) ≤ INT_MAX := by
    unfold INT_MAX; nlinarith
  have hle : gradient_sum matrix.x_kernel matrix image x0 y0
        * gradient_sum matrix.x_kernel matrix image x0 y0
      + gradient_sum matrix.y_kernel matrix image x0 y0
        * gradient_sum matrix.y_kernel matrix image x0 y0
      ≤ (255 * s) * (255 * s) + (255 * s) * (255 * s) := by linarith
  have hover := le_trans hle hG
  obtain ⟨c1, c2, c3⟩ := convolve_eq matrix image x0 y0 hover
  have hmax := max_output_eq matrix 255 (by rw [ax, ay]; exact hG)
  rw [ax, ay] at hmax
  refine ⟨_, _, c3, hmax, Nat.sqrt_le_sqrt (Int.toNat_le_toNat hle), ?_, c1, c2, ?_⟩
  · apply Nat.sqrt_pos.mpr
    have : (0 : Int) < (255 * s) * (255 * s) + (255 * s) * (255 * s) := by nlinarith
    omega
  · rw [c1, c2]; exact hover

/-- C4: for each of the four built-in kernels, every image whose sampled
pixels have grey value at most 255 and every coordinate, the magnitude is at
most `max_output(kernel, 255)`, the accumulators hold the exact gradient sums
and the sum of squares fits in an `int`; hence the grey level the Global
normalizer derives, `gradient / max_output * 255` truncated, is at most 255. -/
theorem convolve_le_max_output (matrix : ConvolutionMatrix) (hk : matrix ∈ built_in_kernels)
    (image : SDL_Surface) (x0 y0 : Int)
    (hgrey : ∀ p ∈ convolve_reads matrix image x0 y0, grey_at image p.1 p.2 ≤ 255) :
    ∃ g m v, ConvolutionMatrix_convolve matrix image x0 y0 = some g
      ∧ ConvolutionMatrix_max_output matrix 255 = some m
      ∧ g ≤ m
      ∧ (convolve_loops matrix image x0 y0).grad_x
          = gradient_sum matrix.x_kernel matrix image x0 y0
      ∧ (convolve_loops matrix image x0 y0).grad_y
          = gradient_sum matrix.y_kernel matrix image x0 y0
      ∧ (convolve_loops matrix image x0 y0).grad_x * (convolve_loops matrix image x0 y0).grad_x
          + (convolve_loops matrix image x0 y0).grad_y * (convolve_loops matrix image x0 y0).grad_y
          ≤ INT_MAX
      ∧ scale_255 g m = some v ∧ 0 ≤ v ∧ v ≤ 255 := by
  obtain ⟨g, m, h1, h2, h3, h4, h5, h6, h7⟩ := built_in_convolve_bound matrix hk image x0 y0 hgrey
  obtain ⟨v, hv1, hv2, _⟩ := scale_255_le g m h4 h3
  exact ⟨g, m, v, h1, h2, h3, h5, h6, h7, hv1, Nat.zero_le _, hv2⟩

/-- Witness of C4: the Scharr kernel on the 2x2 checker at `(0, 0)`. -/
theorem convolve_le_max_output_witness :
    ScharrConvolutionMatrix ∈ built_in_kernels
    ∧ (∀ p ∈ convolve_reads ScharrConvolutionMatrix checker_2x2 0 0,
        grey_at checker_2x2 p.1 p.2 ≤ 255)
    ∧ ∃ g m v, ConvolutionMatrix_convolve ScharrConvolutionMatrix checker_2x2 0 0 = some g
      ∧ ConvolutionMatrix_max_output ScharrConvolutionMatrix 255 = some m
      ∧ g ≤ m
      ∧ (convolve_loops ScharrConvolutionMatrix checker_2x2 0 0).grad_x
          = gradient_sum ScharrConvolutionMatrix.x_kernel ScharrConvolutionMatrix checker_2x2 0 0
      ∧ (convolve_loops ScharrConvolutionMatrix checker_2x2 0 0).grad_y
          = gradient_sum ScharrConvolutionMatrix.y_kernel ScharrConvolutionMatrix checker_2x2 0 0
      ∧ (convolve_loops ScharrConvolutionMatrix checker_2x2 0 0).grad_x
            * (convolve_loops ScharrConvolutionMatrix checker_2x2 0 0).grad_x
          + (convolve_loops ScharrConvolutionMatrix checker_2x2 0 0).grad_y
            * (convolve_loops ScharrConvolutionMatrix checker_2x2 0 0).grad_y
          ≤ INT_MAX
      ∧ scale_255 g m = some v ∧ 0 ≤ v ∧ v ≤ 255 :=
  ⟨by simp [built_in_kernels], by decide,
    convolve_le_max_output ScharrConvolutionMatrix (by simp [built_in_kernels]) checker_2x2 0 0
      (by decide)⟩


/-! ## `explode` after `compress` -/

theorem compress_testBit (format : SDL_PixelFormat) (r g b a i : Nat) :
    (compress format r g b a).testBit i
      = (decide (i < 32) &&
          ((decide (format.Rshift ≤ i) && r.testBit (i - format.Rshift))
            || (decide (format.Gshift ≤ i) && g.testBit (i - format.Gshift))
            || (decide (format.Bshift ≤ i) && b.testBit (i - format.Bshift))
            || (decide (format.Ashift ≤ i) && a.testBit (i - format.Ashift)))) := by
  have hM : UINT32_MOD = 2 ^ 32 := by norm_num [UINT32_MOD]
  unfold compress
  simp only [hM, Nat.testBit_lor, Nat.zero_testBit, Bool.false_or, Nat.testBit_mod_two_pow,
    Nat.testBit_shiftLeft, ge_iff_le]
  cases decide (i < 32) <;> simp

theorem compress_lt (format : SDL_PixelFormat) (r g b a : Nat) :
    compress format r g b a < UINT32_MOD := by
  have hM : UINT32_MOD = 2 ^ 32 := by norm_num [UINT32_MOD]
  rw [hM]
  apply Nat.lt_pow_two_of_testBit
  intro i hi
  rw [compress_testBit]
  simp [Nat.not_lt.mpr hi]

theorem testBit_outside_run (v s n i : Nat) (hv : v < 2 ^ n) (hi : i < s ∨ s + n ≤ i) :
    (decide (s ≤ i) && v.testBit (i - s)) = false := by
  rcases hi with h | h
  · simp [Nat.not_le.mpr h]
  · have : v < 2 ^ (i - s) := lt_of_lt_of_le hv (Nat.pow_le_pow_right (by norm_num) (by omega))
    simp [Nat.testBit_lt_two_pow this]

/-- One channel of `explode` after `compress`: a value that fits its run of
`n` bits at `s` comes back when the other three runs lie outside `[s, s+n)`. -/
theorem channel_roundtrip (p v s n : Nat) (hv : v < 2 ^ n)
    (hp : ∀ j, j < n → p.testBit (s + j) = v.testBit j) :
    (p &&& ((2 ^ n - 1) <<< s)) >>> s = v := by
  apply Nat.eq_of_testBit_eq
  intro j
  rw [Nat.testBit_shiftRight, Nat.testBit_and, Nat.testBit_shiftLeft,
    Nat.testBit_two_pow_sub_one]
  have e : s + j - s = j := by omega
  by_cases hj : j < n
  · simp [hp j hj, e, hj]
  · have : v < 2 ^ j := lt_of_lt_of_le hv (Nat.pow_le_pow_right (by norm_num) (by omega))
    simp [e, hj, Nat.testBit_lt_two_pow this]

theorem masks_disjoint_runs (s1 n1 s2 n2 : Nat) (h1 : 0 < n1) (h2 : 0 < n2)
    (h : ((2 ^ n1 - 1) <<< s1) &&& ((2 ^ n2 - 1) <<< s2) = 0) :
    s1 + n1 ≤ s2 ∨ s2 + n2 ≤ s1 := by
  by_contra hc
  have hb := congrArg (fun m => m.testBit (max s1 s2)) h
  simp only [Nat.testBit_and, Nat.testBit_shiftLeft, Nat.testBit_two_pow_sub_one,
    Nat.zero_testBit, ge_iff_le] at hb
  have a1 : s1 ≤ max s1 s2 := le_max_left _ _
  have a2 : s2 ≤ max s1 s2 := le_max_right _ _
  have a3 : max s1 s2 - s1 < n1 := by
    rcases max_cases s1 s2 with ⟨hm, _⟩ | ⟨hm, _⟩ <;> rw [hm] <;> omega
  have a4 : max s1 s2 - s2 < n2 := by
    rcases max_cases s1 s2 with ⟨hm, _⟩ | ⟨hm, _⟩ <;> rw [hm] <;> omega
  simp [a1, a2, a3, a4] at hb

/-- For four runs of bits `[s, s+n)` inside 32 bits that are pairwise disjoint
and values that fit them, `explode` after `compress` gives the values back. -/
theorem explode_compress_of_runs (format : SDL_PixelFormat) (r g b a nr ng nb na : Nat)
    (mR : format.Rmask = (2 ^ nr - 1) <<< format.Rshift)
    (mG : format.Gmask = (2 ^ ng - 1) <<< format.Gshift)
    (mB : format.Bmask = (2 ^ nb - 1) <<< format.Bshift)
    (mA : format.Amask = (2 ^ na - 1) <<< format.Ashift)
    (bR : format.Rshift + nr ≤ 32) (bG : format.Gshift + ng ≤ 32)
    (bB : format.Bshift + nb ≤ 32) (bA : format.Ashift + na ≤ 32)
    (dRG : format.Rshift + nr ≤ format.Gshift ∨ format.Gshift + ng ≤ format.Rshift)
    (dRB : format.Rshift + nr ≤ format.Bshift ∨ format.Bshift + nb ≤ format.Rshift)
    (dRA : format.Rshift + nr ≤ format.Ashift ∨ format.Ashift + na ≤ format.Rshift)
    (dGB : format.Gshift + ng ≤ format.Bshift ∨ format.Bshift + nb ≤ format.Gshift)
    (dGA : format.Gshift + ng ≤ format.Ashift ∨ format.Ashift + na ≤ format.Gshift)
    (dBA : format.Bshift + nb ≤ format.Ashift ∨ format.Ashift + na ≤ format.Bshift)
    (hr : r < 2 ^ nr) (hg : g < 2 ^ ng) (hb : b < 2 ^ nb) (ha : a < 2 ^ na) :
    explode format (compress format r g b a) = (r, g, b, a) := by
  unfold explode
  rw [mR, mG, mB, mA]
  refine Prod.ext ?_ (Prod.ext ?_ (Prod.ext ?_ ?_))
  · apply channel_roundtrip _ _ _ _ hr
    intro j hj
    rw [compress_testBit]
    have e : format.Rshift + j - format.Rshift = j := by omega
    have h32 : format.Rshift + j < 32 := by omega
    rw [testBit_outside_run g format.Gshift ng _ hg (by omega),
      testBit_outside_run b format.Bshift nb _ hb (by omega),
      testBit_outside_run a format.Ashift na _ ha (by omega)]
    simp [e, h32]
  · apply channel_roundtrip _ _ _ _ hg
    intro j hj
    rw [compress_testBit]
    have e : format.Gshift + j - format.Gshift = j := by omega
    have h32 : format.Gshift + j < 32 := by omega
    rw [testBit_outside_run r format.Rshift nr _ hr (by omega),
      testBit_outside_run b format.Bshift nb _ hb (by omega),
      testBit_outside_run a format.Ashift na _ ha (by omega)]
    simp [e, h32]
  · apply channel_roundtrip _ _ _ _ hb
    intro j hj
    rw [compress_testBit]
    have e : format.Bshift + j - format.Bshift = j := by omega
    have h32 : format.Bshift + j < 32 := by omega
    rw [testBit_outside_run r format.Rshift nr _ hr (by omega),
      testBit_outside_run g format.Gshift ng _ hg (by omega),
      testBit_outside_run a format.Ashift na _ ha (by omega)]
    simp [e, h32]
  · apply channel_roundtrip _ _ _ _ ha
    intro j hj
    rw [compress_testBit]
    have e : format.Ashift + j - format.Ashift = j := by omega
    have h32 : format.Ashift + j < 32 := by omega
    rw [testBit_outside_run r format.Rshift nr _ hr (by omega),
      testBit_outside_run g format.Gshift ng _ hg (by omega),
      testBit_outside_run b format.Bshift nb _ hb (by omega)]
    simp [e, h32]

theorem explode_compress_eight_bit (format : SDL_PixelFormat) (h : eight_bit_channels format)
    (r g b a : Nat) (hr : r ≤ 255) (hg : g ≤ 255) (hb : b ≤ 255) (ha : a ≤ 255) :
    explode format (compress format r g b a) = (r, g, b, a) := by
  obtain ⟨mR, mG, mB, mA, bR, bG, bB, bA, dRG, dRB, dRA, dGB, dGA, dBA⟩ := h
  have e : (0xFF : Nat) = 2 ^ 8 - 1 := by norm_num
  rw [e] at mR mG mB mA
  rw [mR, mG] at dRG
  rw [mR, mB] at dRB
  rw [mR, mA] at dRA
  rw [mG, mB] at dGB
  rw [mG, mA] at dGA
  rw [mB, mA] at dBA
  exact explode_compress_of_runs format r g b a 8 8 8 8 mR mG mB mA bR bG bB bA
    (masks_disjoint_runs _ _ _ _ (by norm_num) (by norm_num) dRG)
    (masks_disjoint_runs _ _ _ _ (by norm_num) (by norm_num) dRB)
    (masks_disjoint_runs _ _ _ _ (by norm_num) (by norm_num) dRA)
    (masks_disjoint_runs _ _ _ _ (by norm_num) (by norm_num) dGB)
    (masks_disjoint_runs _ _ _ _ (by norm_num) (by norm_num) dGA)
    (masks_disjoint_runs _ _ _ _ (by norm_num) (by norm_num) dBA)
    (by omega) (by omega) (by omega) (by omega)

theorem masked_channel_le (p s : Nat) : (p &&& (0xFF <<< s)) >>> s ≤ 255 := by
  have : (p &&& (0xFF <<< s)) >>> s < 2 ^ 8 := by
    apply Nat.lt_pow_two_of_testBit
    intro i hi
    have e : (0xFF : Nat) = 2 ^ 8 - 1 := by norm_num
    rw [Nat.testBit_shiftRight, Nat.testBit_and, Nat.testBit_shiftLeft, e,
      Nat.testBit_two_pow_sub_one]
    have : ¬ (s + i - s < 8) := by omega
    simp only [this, decide_False, Bool.and_false, Bool.false_and]
  omega

theorem to_greyscale_le (format : SDL_PixelFormat) (r g b a : Nat)
    (hr : r ≤ 255) (hg : g ≤ 255) (hb : b ≤ 255) : to_greyscale format r g b a ≤ 255 := by
  unfold to_greyscale UINT32_MOD
  omega

theorem grey_at_le_of_eight_bit (image : SDL_Surface) (h : eight_bit_channels image.format)
    (x y : Int) : grey_at image x y ≤ 255 := by
  obtain ⟨mR, mG, mB, _⟩ := h
  unfold grey_at explode
  simp only
  rw [mR, mG, mB]
  exact to_greyscale_le _ _ _ _ _ (masked_channel_le _ _) (masked_channel_le _ _)
    (masked_channel_le _ _)


/-! ## Write loops -/

theorem write_grey_shape (e : SDL_Surface) (x y : Int) (v : Nat) :
    (write_grey e x y v).w = e.w ∧ (write_grey e x y v).h = e.h
    ∧ (write_grey e x y v).format = e.format := ⟨rfl, rfl, rfl⟩

theorem write_grey_pixels (e : SDL_Surface) (x y : Int) (v : Nat) :
    (write_grey e x y v).pixels (pixel_index e x y) = compress e.format v v v 0xFF
    ∧ ∀ j, j ≠ pixel_index e x y → (write_grey e x y v).pixels j = e.pixels j := by
  unfold write_grey set_pixel
  refine ⟨by simp, ?_⟩
  intro j hj
  simp [hj]

theorem foldlM_some_eq_foldl {σ α : Type} (f : σ → α → σ) :
    ∀ (l : List α) (s : σ), l.foldlM (fun s a => some (f s a)) s = some (l.foldl f s) := by
  intro l
  induction l with
  | nil => intro s; rfl
  | cons a l ih => intro s; simp only [List.foldlM_cons, List.foldl_cons]; exact ih _

/-- A loop whose every step stores, at the index `idx a`, a word satisfying
`P (idx a)` and leaves the shape and the other words alone, ends with a word
satisfying `P` at the index of every element it went through. -/
theorem foldlM_write_invariant {α : Type} (w0 : Nat) (f0 : SDL_PixelFormat)
    (step : SDL_Surface → α → Option SDL_Surface) (idx : α → Nat) (P : Nat → Nat → Prop)
    (Q : α → Prop)
    (hstep : ∀ e a e1, Q a → e.w = w0 → e.format = f0 → step e a = some e1 →
      e1.w = w0 ∧ e1.format = f0 ∧ e1.h = e.h ∧ P (idx a) (e1.pixels (idx a))
        ∧ ∀ j, j ≠ idx a → e1.pixels j = e.pixels j) :
    ∀ (l : List α) (e e2 : SDL_Surface), (∀ a ∈ l, Q a) → e.w = w0 → e.format = f0 →
      l.foldlM step e = some e2 →
      e2.w = w0 ∧ e2.format = f0 ∧ e2.h = e.h
        ∧ (∀ a ∈ l, P (idx a) (e2.pixels (idx a)))
        ∧ (∀ j, P j (e.pixels j) → P j (e2.pixels j))
        ∧ (∀ j, (∀ a ∈ l, idx a ≠ j) → e2.pixels j = e.pixels j) := by
  intro l
  induction l with
  | nil =>
    intro e e2 _ hw hf h
    simp only [List.foldlM_nil, Option.pure_def, Option.some.injEq] at h
    subst h
    exact ⟨hw, hf, rfl, by simp, fun _ h => h, fun _ _ => rfl⟩
  | cons a l ih =>
    intro e e2 hQ hw hf h
    simp only [List.foldlM_cons, Option.bind_eq_bind, Option.bind_eq_some] at h
    obtain ⟨e1, h1, h2⟩ := h
    obtain ⟨s1, s2, s3, s4, s5⟩ := hstep e a e1 (hQ a (List.mem_cons_self _ _)) hw hf h1
    obtain ⟨t1, t2, t3, t4, t5, t6⟩ :=
      ih e1 e2 (fun b hb => hQ b (List.mem_cons_of_mem _ hb)) s1 s2 h2
    refine ⟨t1, t2, t3.trans s3, ?_, ?_, ?_⟩
    · intro b hb
      rcases List.mem_cons.mp hb with rfl | hb
      · exact t5 _ s4
      · exact t4 b hb
    · intro j hj
      apply t5
      by_cases hja : j = idx a
      · subst hja; exact s4
      · rw [s5 j hja]; exact hj
    · intro j hj
      rw [t6 j (fun b hb => hj b (List.mem_cons_of_mem _ hb))]
      exact s5 j (fun hc => hj a (List.mem_cons_self _ _) hc.symm)

theorem foldlM_total {σ α : Type} (step : σ → α → Option σ) :
    ∀ (l : List α) (s : σ), (∀ s a, a ∈ l → ∃ s1, step s a = some s1) →
      ∃ s2, l.foldlM step s = some s2 := by
  intro l
  induction l with
  | nil => intro s _; exact ⟨s, rfl⟩
  | cons a l ih =>
    intro s h
    obtain ⟨s1, h1⟩ := h s a (List.mem_cons_self _ _)
    obtain ⟨s2, h2⟩ := ih s1 (fun s b hb => h s b (List.mem_cons_of_mem _ hb))
    exact ⟨s2, by simp only [List.foldlM_cons, h1, Option.bind_eq_bind, Option.some_bind]; exact h2⟩

theorem pixel_index_nat (e : SDL_Surface) (x y : Nat) :
    pixel_index e (x : Int) (y : Int) = y * e.w + x := by
  unfold pixel_index
  have : ((y : Int) * (e.w : Int) + (x : Int)) = ((y * e.w + x : Nat) : Int) := by push_cast; ring
  rw [this, Int.toNat_ofNat]

theorem row_major_unique (w x y x1 y1 : Nat) (hx : x < w) (hx1 : x1 < w)
    (h : y1 * w + x1 = y * w + x) : x = x1 ∧ y = y1 := by
  have hw : 0 < w := by omega
  have e1 : (y1 * w + x1) % w = x1 := by
    rw [Nat.add_comm, Nat.add_mul_mod_self_right, Nat.mod_eq_of_lt hx1]
  have e2 : (y * w + x) % w = x := by
    rw [Nat.add_comm, Nat.add_mul_mod_self_right, Nat.mod_eq_of_lt hx]
  have e3 : (y1 * w + x1) / w = y1 := by
    rw [Nat.add_comm, Nat.add_mul_div_right _ _ hw, Nat.div_eq_of_lt hx1, Nat.zero_add]
  have e4 : (y * w + x) / w = y := by
    rw [Nat.add_comm, Nat.add_mul_div_right _ _ hw, Nat.div_eq_of_lt hx, Nat.zero_add]
  rw [h] at e1 e3
  exact ⟨e2.symm.trans e1, e4.symm.trans e3⟩

theorem mem_coords (w h : Nat) (o : Nat × Nat) :
    o ∈ ((List.range h).flatMap fun y => (List.range w).map fun x => (x, y))
      ↔ o.1 < w ∧ o.2 < h := by
  simp only [List.mem_flatMap, List.mem_range, List.mem_map]
  constructor
  · rintro ⟨y, hy, x, hx, rfl⟩
    exact ⟨hx, hy⟩
  · rintro ⟨hx, hy⟩
    exact ⟨o.2, hy, o.1, hx, rfl⟩

/-- A row-by-row loop that writes at every `(x, y)` the grey pixel of the
value `val x y`: it completes when every value is defined, keeps the shape of
the surface, and leaves at `(x, y)` the pixel `compress(v, v, v, 0xFF)`. -/
theorem grey_write_loop (val : Nat → Nat → Option Nat)
    (step : SDL_Surface → Nat × Nat → Option SDL_Surface)
    (hdef : ∀ e o, step e o = (val o.1 o.2).map fun v => write_grey e (o.1 : Int) (o.2 : Int) v)
    (w h : Nat) (e : SDL_Surface) (hw : e.w = w)
    (hval : ∀ x y, x < w → y < h → ∃ v, val x y = some v) :
    ∃ e2, ((List.range h).flatMap fun y => (List.range w).map fun x => (x, y)).foldlM step e
        = some e2
      ∧ e2.w = e.w ∧ e2.h = e.h ∧ e2.format = e.format
      ∧ (∀ x y, x < w → y < h →
          ∃ v, val x y = some v ∧ e2.pixels (y * w + x) = compress e.format v v v 0xFF)
      ∧ (∀ j, h * w ≤ j → e2.pixels j = e.pixels j) := by
  obtain ⟨e2, he2⟩ := foldlM_total step
    ((List.range h).flatMap fun y => (List.range w).map fun x => (x, y)) e (by
      intro s o ho
      obtain ⟨hx, hy⟩ := (mem_coords w h o).mp ho
      obtain ⟨v, hv⟩ := hval o.1 o.2 hx hy
      exact ⟨_, by rw [hdef, hv]; rfl⟩)
  have inv := foldlM_write_invariant w e.format step (fun o => o.2 * w + o.1)
    (fun j word => ∀ x y, x < w → j = y * w + x →
      ∃ v, val x y = some v ∧ word = compress e.format v v v 0xFF)
    (fun o => o.1 < w)
    (by
      intro s o s1 hQ hsw hsf hs
      rw [hdef] at hs
      simp only [Option.map_eq_some'] at hs
      obtain ⟨v, hv, rfl⟩ := hs
      obtain ⟨p1, p2⟩ := write_grey_pixels s (o.1 : Int) (o.2 : Int) v
      rw [pixel_index_nat, hsw] at p1 p2
      refine ⟨hsw, hsf, rfl, ?_, p2⟩
      intro x y hx hj
      obtain ⟨rfl, rfl⟩ := row_major_unique w x y o.1 o.2 hx hQ hj
      exact ⟨v, hv, by rw [p1, hsf]⟩)
    _ e e2 (fun o ho => ((mem_coords w h o).mp ho).1) hw rfl he2
  obtain ⟨i1, i2, i3, i4, _, i6⟩ := inv
  refine ⟨e2, he2, i1.trans hw.symm, i3, i2, ?_, ?_⟩
  · intro x y hx hy
    exact i4 (x, y) ((mem_coords w h (x, y)).mpr ⟨hx, hy⟩) x y hx rfl
  · intro j hj
    apply i6
    intro o ho hc
    obtain ⟨hx, hy⟩ := (mem_coords w h o).mp ho
    have : o.2 * w + o.1 < h * w := by
      calc o.2 * w + o.1 < o.2 * w + w := by omega
        _ = (o.2 + 1) * w := by ring
        _ ≤ h * w := Nat.mul_le_mul_right _ hy
    have hc1 : o.2 * w + o.1 = j := hc
    omega


/-! ## The Global and None normalizers -/

/-- The grey level the Global normalizer writes at `(x, y)`. -/
theorem global_step_eq (ed : EdgeDetector) (m y x : Nat) (e : SDL_Surface) :
    global_step ed m y x e
      = ((ConvolutionMatrix_convolve ed.matrix ed.image (x : Int) (y : Int)).bind
          fun g => scale_255 g m).map fun v => write_grey e (x : Int) (y : Int) v := by
  unfold global_step
  cases ConvolutionMatrix_convolve ed.matrix ed.image (x : Int) (y : Int) with
  | none => rfl
  | some g =>
    cases h : scale_255 g m with
    | none => simp [h]
    | some v => simp [h]

theorem none_step_eq (ed : EdgeDetector) (y x : Nat) (e : SDL_Surface) :
    none_step ed y x e
      = (ConvolutionMatrix_convolve ed.matrix ed.image (x : Int) (y : Int)).map
          fun v => write_grey e (x : Int) (y : Int) v := by
  unfold none_step
  cases ConvolutionMatrix_convolve ed.matrix ed.image (x : Int) (y : Int) <;> rfl

/-- The None pass `EdgeDetector_detect_normalize_none` completes when every magnitude is
defined, and leaves at `(x, y)` the pixel `compress(g, g, g, 0xFF)` of the
magnitude `g` at `(x, y)`. -/
theorem detect_none_spec (ed : EdgeDetector) (hw : ed.edges.w = ed.image.w)
    (hval : ∀ x y : Nat, x < ed.image.w → y < ed.image.h →
      ∃ g, ConvolutionMatrix_convolve ed.matrix ed.image (x : Int) (y : Int) = some g) :
    ∃ out, EdgeDetector_detect_normalize_none ed = some out
      ∧ out.edges.w = ed.edges.w ∧ out.edges.h = ed.edges.h
      ∧ out.edges.format = ed.edges.format
      ∧ ∀ x y : Nat, x < ed.image.w → y < ed.image.h →
          ∃ g, ConvolutionMatrix_convolve ed.matrix ed.image (x : Int) (y : Int) = some g
            ∧ out.edges.pixels (y * ed.image.w + x) = compress ed.edges.format g g g 0xFF := by
  obtain ⟨e2, h1, h2, h3, h4, h5, _⟩ := grey_write_loop
    (fun x y => ConvolutionMatrix_convolve ed.matrix ed.image (x : Int) (y : Int))
    (fun e o => none_step ed o.2 o.1 e) (fun e o => none_step_eq ed o.2 o.1 e)
    ed.image.w ed.image.h (SDL_FillRect ed.edges 0x000000) hw hval
  refine ⟨{ ed with edges := e2 }, ?_, h2, h3, h4, h5⟩
  unfold EdgeDetector_detect_normalize_none
  have := foldlM_nested (fun e y x => none_step ed y x e) (List.range ed.image.w)
    (List.range ed.image.h) (SDL_FillRect ed.edges 0x000000)
  simp only at this
  simp only [this, h1, Option.bind_eq_bind, Option.some_bind, Option.pure_def]

/-- The Global pass `EdgeDetector_detect_normalize_global` completes when `max_output` and
every scaled magnitude are defined, and leaves at `(x, y)` the pixel
`compress(v, v, v, 0xFF)` of the scaled magnitude `v` at `(x, y)`. -/
theorem detect_global_spec (ed : EdgeDetector) (m : Nat) (hw : ed.edges.w = ed.image.w)
    (hm : ConvolutionMatrix_max_output ed.matrix 255 = some m)
    (hval : ∀ x y : Nat, x < ed.image.w → y < ed.image.h →
      ∃ v, (ConvolutionMatrix_convolve ed.matrix ed.image (x : Int) (y : Int)).bind
        (fun g => scale_255 g m) = some v) :
    ∃ out, EdgeDetector_detect_normalize_global ed = some out
      ∧ out.edges.w = ed.edges.w ∧ out.edges.h = ed.edges.h
      ∧ out.edges.format = ed.edges.format
      ∧ ∀ x y : Nat, x < ed.image.w → y < ed.image.h →
          ∃ v, (ConvolutionMatrix_convolve ed.matrix ed.image (x : Int) (y : Int)).bind
                (fun g => scale_255 g m) = some v
            ∧ out.edges.pixels (y * ed.image.w + x) = compress ed.edges.format v v v 0xFF := by
  obtain ⟨e2, h1, h2, h3, h4, h5, _⟩ := grey_write_loop
    (fun x y => (ConvolutionMatrix_convolve ed.matrix ed.image (x : Int) (y : Int)).bind
      fun g => scale_255 g m)
    (fun e o => global_step ed m o.2 o.1 e) (fun e o => global_step_eq ed m o.2 o.1 e)
    ed.image.w ed.image.h (SDL_FillRect ed.edges 0x000000) hw hval
  refine ⟨{ ed with edges := e2 }, ?_, h2, h3, h4, h5⟩
  unfold EdgeDetector_detect_normalize_global
  have := foldlM_nested (fun e y x => global_step ed m y x e) (List.range ed.image.w)
    (List.range ed.image.h) (SDL_FillRect ed.edges 0x000000)
  simp only at this
  simp only [hm, this, h1, Option.bind_eq_bind, Option.some_bind, Option.pure_def]


/-! ## The Local normalizer -/

theorem mapM_option_some {α β : Type} (f : α → Option β) (g : α → β) :
    ∀ l : List α, (∀ a ∈ l, f a = some (g a)) → l.mapM f = some (l.map g) := by
  intro l
  induction l with
  | nil => intro _; rfl
  | cons a l ih =>
    intro h
    rw [List.mapM_cons, h a (List.mem_cons_self _ _),
      ih (fun b hb => h b (List.mem_cons_of_mem _ hb))]
    rfl

theorem mapM_option_none {α β : Type} (f : α → Option β) (a : α) (l : List α)
    (h : f a = none) : (a :: l).mapM f = none := by
  rw [List.mapM_cons, h]
  rfl

/-- First loop of the Local normalizer over the indices `l`, from the state
`s`: it completes when every magnitude is defined, appends the magnitudes and
keeps `max` and `min` as the running extrema. -/
theorem local_gradients_fold (ed : EdgeDetector) :
    ∀ (l : List Nat) (s : LocalState),
      (∀ i ∈ l, ∃ g, ConvolutionMatrix_convolve ed.matrix ed.image
        ((i % ed.image.w : Nat) : Int) ((i / ed.image.w : Nat) : Int) = some g) →
      ∃ s2, l.foldlM (local_gradient_step ed) s = some s2
        ∧ s2.gradients = s.gradients ++ l.map (fun i =>
            (ConvolutionMatrix_convolve ed.matrix ed.image
              ((i % ed.image.w : Nat) : Int) ((i / ed.image.w : Nat) : Int)).getD 0)
        ∧ s.max ≤ s2.max ∧ s2.min ≤ s.min
        ∧ (∀ g ∈ s2.gradients, g ∈ s.gradients ∨ (s2.min ≤ g ∧ g ≤ s2.max))
        ∧ (s2.max = s.max ∨ s2.max ∈ s2.gradients)
        ∧ (s2.min = s.min ∨ s2.min ∈ s2.gradients) := by
  intro l
  induction l with
  | nil =>
    intro s _
    exact ⟨s, rfl, by simp, le_refl _, le_refl _, fun g hg => Or.inl hg, Or.inl rfl, Or.inl rfl⟩
  | cons i l ih =>
    intro s h
    obtain ⟨g, hg⟩ := h i (List.mem_cons_self _ _)
    have hstep : local_gradient_step ed s i
        = some { gradients := s.gradients ++ [g],
                 max := if g > s.max then g else s.max,
                 min := if g < s.min then g else s.min } := by
      unfold local_gradient_step
      rw [hg]
      rfl
    obtain ⟨s2, h1, h2, h3, h4, h5, h6, h7⟩ :=
      ih { gradients := s.gradients ++ [g],
           max := if g > s.max then g else s.max,
           min := if g < s.min then g else s.min }
        (fun j hj => h j (List.mem_cons_of_mem _ hj))
    simp only at h2 h3 h4 h5 h6 h7
    have hmax : s.max ≤ (if g > s.max then g else s.max) ∧ g ≤ (if g > s.max then g else s.max) := by
      split <;> omega
    have hmin : (if g < s.min then g else s.min) ≤ s.min ∧ (if g < s.min then g else s.min) ≤ g := by
      split <;> omega
    have hgm : g ∈ s2.gradients := by rw [h2]; simp
    refine ⟨s2, ?_, ?_, le_trans hmax.1 h3, le_trans h4 hmin.1, ?_, ?_, ?_⟩
    · simp only [List.foldlM_cons, hstep, Option.bind_eq_bind, Option.some_bind]
      exact h1
    · rw [h2, List.map_cons, hg]
      simp
    · intro v hv
      rcases h5 v hv with hv1 | hv1
      · rcases List.mem_append.mp hv1 with hv2 | hv2
        · exact Or.inl hv2
        · have : v = g := by simpa using hv2
          subst this
          exact Or.inr ⟨le_trans h4 hmin.2, le_trans hmax.2 h3⟩
      · exact Or.inr hv1
    · rcases h6 with h6 | h6
      · by_cases hc : g > s.max
        · rw [if_pos hc] at h6; exact Or.inr (h6 ▸ hgm)
        · rw [if_neg hc] at h6; exact Or.inl h6
      · exact Or.inr h6
    · rcases h7 with h7 | h7
      · by_cases hc : g < s.min
        · rw [if_pos hc] at h7; exact Or.inr (h7 ▸ hgm)
        · rw [if_neg hc] at h7; exact Or.inl h7
      · exact Or.inr h7

theorem sqrt_sum_squares_lt (gx gy : Int) (g : Nat) (h : sqrt_sum_squares gx gy = some g) :
    g < UINT32_MOD := by
  unfold sqrt_sum_squares at h
  split at h
  · rename_i hle
    simp only [Option.some.injEq] at h
    unfold INT_MAX at hle
    have hn : (gx * gx + gy * gy).toNat < 4294967296 := by omega
    rw [sqrt_uint32_eq _ hn] at h
    have := Nat.sqrt_le_self (gx * gx + gy * gy).toNat
    unfold UINT32_MOD
    omega
  · exact absurd h (by simp)

theorem convolve_lt (matrix : ConvolutionMatrix) (image : SDL_Surface) (x0 y0 : Int) (g : Nat)
    (h : ConvolutionMatrix_convolve matrix image x0 y0 = some g) : g < UINT32_MOD :=
  sqrt_sum_squares_lt _ _ g h

/-- First loop of the Local normalizer: when every magnitude is defined it
yields the magnitudes in pixel order with `min ≤ g ≤ max` for each of them,
and on a nonempty image `min` and `max` are magnitudes of the image. -/
theorem local_gradients_spec (ed : EdgeDetector)
    (hval : ∀ i, i < ed.image.h * ed.image.w →
      ∃ g, ConvolutionMatrix_convolve ed.matrix ed.image
        ((i % ed.image.w : Nat) : Int) ((i / ed.image.w : Nat) : Int) = some g) :
    ∃ s, local_gradients ed = some s
      ∧ s.gradients = (List.range (ed.image.h * ed.image.w)).map (fun i =>
          (ConvolutionMatrix_convolve ed.matrix ed.image
            ((i % ed.image.w : Nat) : Int) ((i / ed.image.w : Nat) : Int)).getD 0)
      ∧ (∀ g ∈ s.gradients, s.min ≤ g ∧ g ≤ s.max ∧ g < UINT32_MOD)
      ∧ s.max < UINT32_MOD
      ∧ (0 < ed.image.h * ed.image.w → s.min ∈ s.gradients ∧ s.max ∈ s.gradients) := by
  obtain ⟨s, h1, h2, _, _, h5, h6, h7⟩ := local_gradients_fold ed
    (List.range (ed.image.h * ed.image.w)) { gradients := [], max := 0, min := 0xFFFFFFFF }
    (fun i hi => hval i (List.mem_range.mp hi))
  simp only [List.nil_append, List.not_mem_nil, false_or] at h2 h5 h6 h7
  have hlt : ∀ g ∈ s.gradients, g < UINT32_MOD := by
    intro g hg
    rw [h2] at hg
    obtain ⟨i, hi, rfl⟩ := List.mem_map.mp hg
    obtain ⟨g, hg⟩ := hval i (List.mem_range.mp hi)
    rw [hg]
    exact convolve_lt _ _ _ _ g hg
  have hmax : s.max < UINT32_MOD := by
    rcases h6 with h6 | h6
    · rw [h6]; decide
    · exact hlt _ h6
  refine ⟨s, h1, h2, fun g hg => ⟨(h5 g hg).1, (h5 g hg).2, hlt g hg⟩, hmax, ?_⟩
  intro hn
  have hne : ∃ g, g ∈ s.gradients := by
    rw [h2]
    exact ⟨_, List.mem_map.mpr ⟨0, List.mem_range.mpr hn, rfl⟩⟩
  obtain ⟨g, hg⟩ := hne
  have hb := h5 g hg
  have hgl := hlt g hg
  unfold UINT32_MOD at hgl
  constructor
  · rcases h7 with h7 | h7
    · have : g = s.min := by omega
      rw [← this]; exact hg
    · exact h7
  · rcases h6 with h6 | h6
    · have : g = s.max := by omega
      rw [← this]; exact hg
    · exact h6

/-- Second loop of the Local normalizer when `min < max`: every magnitude
`g` becomes `(g - min) * 255 / (max - min)`, a value of at most 255. -/
theorem local_normalize_spec (s : LocalState) (hlt : s.min < s.max)
    (hmax : s.max < UINT32_MOD)
    (hb : ∀ g ∈ s.gradients, s.min ≤ g ∧ g ≤ s.max ∧ g < UINT32_MOD) :
    local_normalize s
        = some (s.gradients.map fun g => (g - s.min) * 255 / (s.max - s.min))
    ∧ ∀ g ∈ s.gradients, (g - s.min) * 255 / (s.max - s.min) ≤ 255 := by
  have hdiv : ∀ g ∈ s.gradients, (g - s.min) * 255 / (s.max - s.min) ≤ 255 := by
    intro g hg
    obtain ⟨b1, b2, _⟩ := hb g hg
    apply Nat.div_le_of_le_mul
    have : g - s.min ≤ s.max - s.min := by omega
    nlinarith
  refine ⟨?_, hdiv⟩
  unfold local_normalize
  apply mapM_option_some
  intro g hg
  obtain ⟨b1, b2, b3⟩ := hb g hg
  have e1 : sub_uint32 g s.min = g - s.min := by
    unfold sub_uint32 UINT32_MOD at *; omega
  have e2 : sub_uint32 s.max s.min = s.max - s.min := by
    unfold sub_uint32 UINT32_MOD at *; omega
  have := hdiv g hg
  rw [e1, e2]
  unfold scale_255 UINT32_MOD
  rw [if_neg (by omega), if_pos (by omega)]

/-- Second loop of the Local normalizer when `max = min` on a nonempty image:
the first division is `0.0/0` and the result is undefined. -/
theorem local_normalize_degenerate (s : LocalState) (heq : s.min = s.max)
    (hne : s.gradients ≠ []) : local_normalize s = none := by
  unfold local_normalize
  cases hg : s.gradients with
  | nil => exact absurd hg hne
  | cons g l =>
    apply mapM_option_none
    have : sub_uint32 s.max s.min = 0 := by
      rw [heq]; unfold sub_uint32 UINT32_MOD; omega
    rw [this]
    rfl

/-- Third loop of the Local normalizer: pixel `i` of the buffer becomes
`compress(v, v, v, 0xFF)` for the `i`-th grey level `v`. -/
theorem local_write_spec (n : Nat) (gs : List Nat) (e : SDL_Surface) :
    (local_write n gs e).w = e.w ∧ (local_write n gs e).h = e.h
    ∧ (local_write n gs e).format = e.format
    ∧ (∀ i, i < n → (local_write n gs e).pixels i
        = compress e.format (gs.getD i 0) (gs.getD i 0) (gs.getD i 0) 0xFF)
    ∧ (∀ j, n ≤ j → (local_write n gs e).pixels j = e.pixels j) := by
  have hfold := foldlM_some_eq_foldl
    (fun (e : SDL_Surface) (i : Nat) =>
      write_grey e ((i % e.w : Nat) : Int) ((i / e.w : Nat) : Int) (gs.getD i 0))
    (List.range n) e
  have inv := foldlM_write_invariant e.w e.format
    (fun (e : SDL_Surface) (i : Nat) =>
      some (write_grey e ((i % e.w : Nat) : Int) ((i / e.w : Nat) : Int) (gs.getD i 0)))
    (fun i => i)
    (fun j word => word = compress e.format (gs.getD j 0) (gs.getD j 0) (gs.getD j 0) 0xFF)
    (fun _ => True)
    (by
      intro s i s1 _ hsw hsf hs
      simp only [Option.some.injEq] at hs
      subst hs
      obtain ⟨p1, p2⟩ := write_grey_pixels s ((i % s.w : Nat) : Int) ((i / s.w : Nat) : Int)
        (gs.getD i 0)
      rw [pixel_index_nat, Nat.div_add_mod'] at p1 p2
      exact ⟨hsw, hsf, rfl, by rw [p1, hsf], p2⟩)
    (List.range n) e (local_write n gs e) (fun _ _ => trivial) rfl rfl hfold
  obtain ⟨i1, i2, i3, i4, _, i6⟩ := inv
  refine ⟨i1, i3, i2, fun i hi => i4 i (List.mem_range.mpr hi), ?_⟩
  intro j hj
  apply i6
  intro a ha hc
  have := List.mem_range.mp ha
  have hc1 : a = j := hc
  omega


/-! ## Output pixels -/

theorem grey_pixel_explode (e : SDL_Surface) (he : eight_bit_channels e.format) (x y v : Nat)
    (hv : v ≤ 255) (hp : e.pixels (y * e.w + x) = compress e.format v v v 0xFF) :
    explode e.format (get_pixel e (x : Int) (y : Int)) = (v, v, v, 0xFF) := by
  unfold get_pixel
  rw [pixel_index_nat, hp, Nat.mod_eq_of_lt (compress_lt _ _ _ _ _)]
  exact explode_compress_eight_bit e.format he v v v 0xFF hv hv hv (by norm_num)

theorem built_in_convolve_defined (matrix : ConvolutionMatrix) (hk : matrix ∈ built_in_kernels)
    (image : SDL_Surface) (hi : eight_bit_channels image.format) (x0 y0 : Int) :
    ∃ g m, ConvolutionMatrix_convolve matrix image x0 y0 = some g
      ∧ ConvolutionMatrix_max_output matrix 255 = some m ∧ g ≤ m ∧ 0 < m := by
  obtain ⟨g, m, h1, h2, h3, h4, _⟩ := built_in_convolve_bound matrix hk image x0 y0
    (fun p _ => grey_at_le_of_eight_bit image hi p.1 p.2)
  exact ⟨g, m, h1, h2, h3, h4⟩

/-- Local normalization with `min < max`: the grey levels are defined, lie in
`[0, 255]`, a pixel of magnitude `min` gets 0, one of magnitude `max` gets
255, and both 0 and 255 occur. -/
theorem local_values_spec (ed : EdgeDetector)
    (hval : ∀ i, i < ed.image.h * ed.image.w →
      ∃ g, ConvolutionMatrix_convolve ed.matrix ed.image
        ((i % ed.image.w : Nat) : Int) ((i / ed.image.w : Nat) : Int) = some g) :
    ∃ s, local_gradients ed = some s
      ∧ s.gradients.length = ed.image.h * ed.image.w
      ∧ (s.min < s.max →
          local_values ed
              = some (s.gradients.map fun g => (g - s.min) * 255 / (s.max - s.min))
          ∧ (∀ g ∈ s.gradients, (g - s.min) * 255 / (s.max - s.min) ≤ 255)
          ∧ (s.min - s.min) * 255 / (s.max - s.min) = 0
          ∧ (s.max - s.min) * 255 / (s.max - s.min) = 255
          ∧ s.min ∈ s.gradients ∧ s.max ∈ s.gradients)
      ∧ (s.min = s.max → 0 < ed.image.h * ed.image.w → local_values ed = none) := by
  obtain ⟨s, h1, h2, h3, h4, h5⟩ := local_gradients_spec ed hval
  have hlen : s.gradients.length = ed.image.h * ed.image.w := by
    rw [h2, List.length_map, List.length_range]
  refine ⟨s, h1, hlen, ?_, ?_⟩
  · intro hlt
    obtain ⟨n1, n2⟩ := local_normalize_spec s hlt h4 h3
    have hpos : 0 < ed.image.h * ed.image.w := by
      by_contra hc
      have h0 : ed.image.h * ed.image.w = 0 := by omega
      rw [h0] at h2
      unfold local_gradients at h1
      rw [h0] at h1
      simp only [List.range_zero, List.foldlM_nil, Option.pure_def, Option.some.injEq] at h1
      rw [← h1] at hlt
      simp at hlt
    refine ⟨?_, n2, ?_, ?_, (h5 hpos).1, (h5 hpos).2⟩
    · unfold local_values
      rw [h1]
      exact n1
    · simp
    · exact Nat.mul_div_cancel_left 255 (by omega)
  · intro heq hpos
    unfold local_values
    rw [h1]
    apply local_normalize_degenerate s heq
    intro hnil
    rw [hnil] at hlen
    simp only [List.length_nil] at hlen
    omega


theorem index_lt_of_coords (w h x y : Nat) (hx : x < w) (hy : y < h) : y * w + x < h * w := by
  calc y * w + x < y * w + w := by omega
    _ = (y + 1) * w := by ring
    _ ≤ h * w := Nat.mul_le_mul_right _ hy

/-- C7, as stated, fails under None normalization: on the 2x1 black/white image
with the Sobel kernel the magnitude at `(0, 0)` is 510, and
`compress(510, 510, 510, 0xFF)` explodes to `(255, 255, 254, 255)`.  It also
fails under Local normalization when the allocation of the gradient field
fails: the pass returns without writing, and the stale pixels `0xFF123456`
explode to `(18, 52, 86, 255)`. -/
theorem none_output_not_grey :
    eight_bit_channels edge_2x1.format
    ∧ SobelConvolutionMatrix ∈ built_in_kernels
    ∧ ConvolutionMatrix_convolve SobelConvolutionMatrix edge_2x1 0 0 = some 510
    ∧ (EdgeDetector_detect_normalize_none (detector_on SobelConvolutionMatrix edge_2x1)).map
        (fun out => buffer_channels out.edges)
        = some [(255, 255, 254, 255), (0, 0, 0, 255)]
    ∧ (255 : Nat) ≠ 254
    ∧ (EdgeDetector_detect_normalize_local (detector_on SobelConvolutionMatrix edge_2x1)
          false).map (fun out => buffer_channels out.edges)
        = some [(18, 52, 86, 255), (18, 52, 86, 255)]
    ∧ (18 : Nat) ≠ 52 := by
  refine ⟨by unfold eight_bit_channels; decide, by simp [built_in_kernels], by decide,
    by decide, by decide, by decide, by decide⟩

/-- C7, amended: for every source image under a layout of four pairwise-disjoint
8-bit channels, an output surface of the same size and such a layout, and each
of the four kernels: after a Global pass, and after a Local pass in which the
allocation succeeds and `min < max`, every output pixel explodes to
`(v, v, v, 0xFF)` with `v ≤ 255`;
after a None pass the pixel at `(x, y)` explodes to `(g, g, g, 0xFF)` whenever
its magnitude `g` is at most 255. -/
theorem output_pixels_grey_opaque (ed : EdgeDetector) (hk : ed.matrix ∈ built_in_kernels)
    (hi : eight_bit_channels ed.image.format) (he : eight_bit_channels ed.edges.format)
    (hw : ed.edges.w = ed.image.w) (hh : ed.edges.h = ed.image.h) :
    (∃ out, EdgeDetector_detect_normalize_global ed = some out
      ∧ ∀ x y : Nat, x < out.edges.w → y < out.edges.h →
          ∃ v, v ≤ 255
            ∧ explode out.edges.format (get_pixel out.edges (x : Int) (y : Int))
                = (v, v, v, 0xFF))
    ∧ (∃ s, local_gradients ed = some s
        ∧ (s.min < s.max →
            ∃ out, EdgeDetector_detect_normalize_local ed true = some out
              ∧ ∀ x y : Nat, x < out.edges.w → y < out.edges.h →
                  ∃ v, v ≤ 255
                    ∧ explode out.edges.format (get_pixel out.edges (x : Int) (y : Int))
                        = (v, v, v, 0xFF)))
    ∧ (∃ out, EdgeDetector_detect_normalize_none ed = some out
        ∧ ∀ x y : Nat, x < out.edges.w → y < out.edges.h →
            ∃ g, ConvolutionMatrix_convolve ed.matrix ed.image (x : Int) (y : Int) = some g
              ∧ (g ≤ 255 →
                  explode out.edges.format (get_pixel out.edges (x : Int) (y : Int))
                    = (g, g, g, 0xFF))) := by
  obtain ⟨_, m, _, hm, _, hmpos⟩ := built_in_convolve_defined ed.matrix hk ed.image hi 0 0
  refine ⟨?_, ?_, ?_⟩
  · obtain ⟨out, o1, o2, o3, o4, o5⟩ := detect_global_spec ed m hw hm (by
      intro x y _ _
      obtain ⟨g, m1, c1, c2, c3, c4⟩ :=
        built_in_convolve_defined ed.matrix hk ed.image hi (x : Int) (y : Int)
      have : m1 = m := by rw [hm] at c2; exact (Option.some.inj c2).symm
      subst this
      obtain ⟨v, hv, _⟩ := scale_255_le g m1 c4 c3
      exact ⟨v, by rw [c1]; exact hv⟩)
    refine ⟨out, o1, ?_⟩
    intro x y hx hy
    rw [o2, hw] at hx
    rw [o3, hh] at hy
    obtain ⟨v, hv, hp⟩ := o5 x y hx hy
    obtain ⟨g, m1, c1, c2, c3, c4⟩ :=
      built_in_convolve_defined ed.matrix hk ed.image hi (x : Int) (y : Int)
    have : m1 = m := by rw [hm] at c2; exact (Option.some.inj c2).symm
    subst this
    obtain ⟨v1, hv1, hv2, _⟩ := scale_255_le g m1 c4 c3
    rw [c1, Option.some_bind, hv1] at hv
    have hvv : v1 = v := Option.some.inj hv
    subst hvv
    refine ⟨v1, hv2, ?_⟩
    have hwo : out.edges.w = ed.image.w := o2.trans hw
    apply grey_pixel_explode out.edges (by rw [o4]; exact he) x y v1 hv2
    rw [hwo, hp, o4]
  · obtain ⟨s, l1, l2, l3, _⟩ := local_values_spec ed (by
      intro i _
      obtain ⟨g, _, c1, _⟩ := built_in_convolve_defined ed.matrix hk ed.image hi
        ((i % ed.image.w : Nat) : Int) ((i / ed.image.w : Nat) : Int)
      exact ⟨g, c1⟩)
    refine ⟨s, l1, ?_⟩
    intro hlt
    obtain ⟨v1, v2, _⟩ := l3 hlt
    obtain ⟨w1, w2, w3, w4, _⟩ := local_write_spec (ed.image.h * ed.image.w)
      (s.gradients.map fun g => (g - s.min) * 255 / (s.max - s.min))
      (SDL_FillRect ed.edges 0x000000)
    refine ⟨⟨ed.matrix, ed.image, local_write (ed.image.h * ed.image.w)
        (s.gradients.map fun g => (g - s.min) * 255 / (s.max - s.min))
        (SDL_FillRect ed.edges 0x000000)⟩, ?_, ?_⟩
    · unfold EdgeDetector_detect_normalize_local
      simp only [v1, Bool.true_eq_false, if_false, Option.bind_eq_bind, Option.some_bind,
        Option.pure_def]
    · intro x y hx hy
      simp only at hx hy ⊢
      have hx1 : x < ed.image.w := by rw [w1] at hx; exact hw ▸ hx
      have hy1 : y < ed.image.h := by rw [w2] at hy; exact hh ▸ hy
      have hidx := index_lt_of_coords ed.image.w ed.image.h x y hx1 hy1
      have hval : ((s.gradients.map fun g => (g - s.min) * 255 / (s.max - s.min)).getD
          (y * ed.image.w + x) 0) ≤ 255 := by
        rw [List.getD_eq_getElem?_getD]
        cases hget : (s.gradients.map fun g => (g - s.min) * 255 / (s.max - s.min))[
            y * ed.image.w + x]? with
        | none => simp
        | some v =>
          have hmem := List.getElem?_mem hget
          obtain ⟨g, hg, rfl⟩ := List.mem_map.mp hmem
          simpa using v2 g hg
      refine ⟨_, hval, ?_⟩
      apply grey_pixel_explode _ (by rw [w3]; exact he) x y _ hval
      rw [w1, w3]
      have : (SDL_FillRect ed.edges 0x000000).w = ed.image.w := hw
      rw [this]
      exact w4 _ hidx
  · obtain ⟨out, o1, o2, o3, o4, o5⟩ := detect_none_spec ed hw (by
      intro x y _ _
      obtain ⟨g, _, c1, _⟩ :=
        built_in_convolve_defined ed.matrix hk ed.image hi (x : Int) (y : Int)
      exact ⟨g, c1⟩)
    refine ⟨out, o1, ?_⟩
    intro x y hx hy
    rw [o2, hw] at hx
    rw [o3, hh] at hy
    obtain ⟨g, hg, hp⟩ := o5 x y hx hy
    refine ⟨g, hg, ?_⟩
    intro hg255
    have hwo : out.edges.w = ed.image.w := o2.trans hw
    apply grey_pixel_explode out.edges (by rw [o4]; exact he) x y g hg255
    rw [hwo, hp, o4]


/-- Witness of the amended C7: the Sobel kernel on the 2x1 black/white image. -/
theorem output_pixels_grey_opaque_witness :
    (detector_on SobelConvolutionMatrix edge_2x1).matrix ∈ built_in_kernels
    ∧ eight_bit_channels (detector_on SobelConvolutionMatrix edge_2x1).image.format
    ∧ eight_bit_channels (detector_on SobelConvolutionMatrix edge_2x1).edges.format
    ∧ (detector_on SobelConvolutionMatrix edge_2x1).edges.w
        = (detector_on SobelConvolutionMatrix edge_2x1).image.w
    ∧ (detector_on SobelConvolutionMatrix edge_2x1).edges.h
        = (detector_on SobelConvolutionMatrix edge_2x1).image.h
    ∧ (∃ out, EdgeDetector_detect_normalize_global (detector_on SobelConvolutionMatrix edge_2x1)
          = some out
        ∧ ∀ x y : Nat, x < out.edges.w → y < out.edges.h →
            ∃ v, v ≤ 255
              ∧ explode out.edges.format (get_pixel out.edges (x : Int) (y : Int))
                  = (v, v, v, 0xFF))
    ∧ (∃ s, local_gradients (detector_on SobelConvolutionMatrix edge_2x1) = some s
        ∧ (s.min < s.max →
            ∃ out, EdgeDetector_detect_normalize_local
                (detector_on SobelConvolutionMatrix edge_2x1) true = some out
              ∧ ∀ x y : Nat, x < out.edges.w → y < out.edges.h →
                  ∃ v, v ≤ 255
                    ∧ explode out.edges.format (get_pixel out.edges (x : Int) (y : Int))
                        = (v, v, v, 0xFF)))
    ∧ (∃ out, EdgeDetector_detect_normalize_none (detector_on SobelConvolutionMatrix edge_2x1)
          = some out
        ∧ ∀ x y : Nat, x < out.edges.w → y < out.edges.h →
            ∃ g, ConvolutionMatrix_convolve (detector_on SobelConvolutionMatrix edge_2x1).matrix
                (detector_on SobelConvolutionMatrix edge_2x1).image (x : Int) (y : Int) = some g
              ∧ (g ≤ 255 →
                  explode out.edges.format (get_pixel out.edges (x : Int) (y : Int))
                    = (g, g, g, 0xFF))) :=
  have hk : (detector_on SobelConvolutionMatrix edge_2x1).matrix ∈ built_in_kernels := by
    simp [built_in_kernels, detector_on]
  have hi : eight_bit_channels (detector_on SobelConvolutionMatrix edge_2x1).image.format := by
    unfold eight_bit_channels; decide
  have he : eight_bit_channels (detector_on SobelConvolutionMatrix edge_2x1).edges.format := by
    unfold eight_bit_channels; decide
  ⟨hk, hi, he, rfl, rfl,
    output_pixels_grey_opaque (detector_on SobelConvolutionMatrix edge_2x1) hk hi he rfl rfl⟩

/-- C5 fails on the code: on a single-pixel image the only magnitude is both
`max` and `min`, so the Local normalizer, once its buffer is allocated,
evaluates `0.0/0` and no grey level is defined. -/
theorem local_single_pixel_undefined :
    (local_gradients (detector_on SobelConvolutionMatrix white_1x1)).map
        (fun s => (s.gradients, s.max, s.min)) = some ([0], 0, 0)
    ∧ scale_255 (sub_uint32 0 0) (sub_uint32 0 0) = none
    ∧ local_values (detector_on SobelConvolutionMatrix white_1x1) = none
    ∧ (EdgeDetector_detect_normalize_local
        (detector_on SobelConvolutionMatrix white_1x1) true).isNone = true := by
  decide

/-- C6 fails on the code: on the all-black 3x3 image every magnitude is 0, so
under each kernel the Local normalizer, once its buffer is allocated, has
`max = min = 0`, evaluates `0.0/0` and its result is undefined.  Global and None give an all-black opaque output
when the word after the pixel buffer is 0; when it is not, the convolver
reads it at `(3, 2)` and the last pixel is no longer black. -/
theorem all_black_local_undefined :
    (∀ k ∈ built_in_kernels,
      (local_gradients (detector_on k (black_3x3 0))).map (fun s => (s.max, s.min))
        = some (0, 0))
    ∧ scale_255 (sub_uint32 0 0) (sub_uint32 0 0) = none
    ∧ (∀ k ∈ built_in_kernels,
        (EdgeDetector_detect_normalize_local (detector_on k (black_3x3 0)) true).isNone = true)
    ∧ (∀ k ∈ built_in_kernels,
        (EdgeDetector_detect_normalize_global (detector_on k (black_3x3 0))).map
          (fun out => buffer_channels out.edges) = some (List.replicate 9 (0, 0, 0, 255)))
    ∧ (∀ k ∈ built_in_kernels,
        (EdgeDetector_detect_normalize_none (detector_on k (black_3x3 0))).map
          (fun out => buffer_channels out.edges) = some (List.replicate 9 (0, 0, 0, 255)))
    ∧ (3, 2) ∈ convolve_reads SobelConvolutionMatrix (black_3x3 0xFFFFFFFF) 2 2
    ∧ (EdgeDetector_detect_normalize_none
          (detector_on SobelConvolutionMatrix (black_3x3 0xFFFFFFFF))).map
        (fun out => (buffer_channels out.edges).getLast?) = some (some (255, 255, 254, 255)) := by
  have hcases : ∀ (P : ConvolutionMatrix → Prop), P SobelConvolutionMatrix →
      P PrewittConvolutionMatrix → P RobertsConvolutionMatrix → P ScharrConvolutionMatrix →
      ∀ k ∈ built_in_kernels, P k := by
    intro P h1 h2 h3 h4 k hk
    simp only [built_in_kernels, List.mem_cons, List.mem_singleton, List.not_mem_nil,
      or_false] at hk
    rcases hk with rfl | rfl | rfl | rfl <;> assumption
  refine ⟨?_, by decide, ?_, ?_, ?_, by decide, by decide⟩
  · exact hcases _ (by decide) (by decide) (by decide) (by decide)
  · exact hcases _ (by decide) (by decide) (by decide) (by decide)
  · exact hcases _ (by decide) (by decide) (by decide) (by decide)
  · exact hcases _ (by decide) (by decide) (by decide) (by decide)


/-! ## Evaluations -/

/-- C11: for each of the four built-in kernels (Sobel, Prewitt, Roberts,
Scharr), `ConvolutionMatrix_max_output(kernel, 0)` is 0. -/
theorem max_output_at_zero :
    ConvolutionMatrix_max_output SobelConvolutionMatrix 0 = some 0
    ∧ ConvolutionMatrix_max_output PrewittConvolutionMatrix 0 = some 0
    ∧ ConvolutionMatrix_max_output RobertsConvolutionMatrix 0 = some 0
    ∧ ConvolutionMatrix_max_output ScharrConvolutionMatrix 0 = some 0
    ∧ built_in_kernels = [SobelConvolutionMatrix, PrewittConvolutionMatrix,
        RobertsConvolutionMatrix, ScharrConvolutionMatrix] :=
  ⟨by decide, by decide, by decide, by decide, rfl⟩

/-- Evaluation under ARGB8888: on the 2x1 image with pixel `(0,0)` black and pixel `(1,0)` white,
under the Sobel kernel with Global normalization, the accumulated gradients at
`(0,0)` are `-2 * 255 = -510` and 0, the raw magnitude is 510,
`max_output(Sobel, 255)` is 1442, the scaled grey level is
`510 * 255 / 1442 = 90`, and the output pixel at `(0,0)` explodes to
`(90, 90, 90, 0xFF)`. -/
theorem sobel_global_two_by_one_argb :
    edge_2x1.w = 2 ∧ edge_2x1.h = 1
    ∧ explode edge_2x1.format (get_pixel edge_2x1 0 0) = (0, 0, 0, 255)
    ∧ explode edge_2x1.format (get_pixel edge_2x1 1 0) = (255, 255, 255, 255)
    ∧ SobelConvolutionMatrix.x_kernel 1 2 = -2
    ∧ (convolve_loops SobelConvolutionMatrix edge_2x1 0 0).grad_x = -2 * 255
    ∧ (convolve_loops SobelConvolutionMatrix edge_2x1 0 0).grad_y = 0
    ∧ ConvolutionMatrix_convolve SobelConvolutionMatrix edge_2x1 0 0 = some 510
    ∧ ConvolutionMatrix_max_output SobelConvolutionMatrix 255 = some 1442
    ∧ scale_255 510 1442 = some 90
    ∧ 510 * 255 / 1442 = 90
    ∧ (EdgeDetector_detect_normalize_global (detector_on SobelConvolutionMatrix edge_2x1)).map
        (fun out => explode out.edges.format (get_pixel out.edges 0 0))
        = some (90, 90, 90, 255) := by
  decide

/-- C15: the four built-in kernels have pairwise distinct weights, and on the
3x3 grey ramp the four kernels give four pairwise distinct output buffers
under each of the None, Global and Local normalizations (the Local buffer
being allocated). -/
theorem kernels_and_outputs_distinct :
    (built_in_kernels.map kernel_weights).Nodup
    ∧ (built_in_kernels.map fun k =>
        (EdgeDetector_detect_normalize_none (detector_on k ramp_3x3)).map
          fun out => buffer_words out.edges).Nodup
    ∧ (built_in_kernels.map fun k =>
        (EdgeDetector_detect_normalize_global (detector_on k ramp_3x3)).map
          fun out => buffer_words out.edges).Nodup
    ∧ (built_in_kernels.map fun k =>
        (EdgeDetector_detect_normalize_local (detector_on k ramp_3x3) true).map
          fun out => buffer_words out.edges).Nodup
    ∧ (built_in_kernels.all fun k =>
        (EdgeDetector_detect_normalize_none (detector_on k ramp_3x3)).isSome
        && (EdgeDetector_detect_normalize_global (detector_on k ramp_3x3)).isSome
        && (EdgeDetector_detect_normalize_local (detector_on k ramp_3x3) true).isSome) = true := by
  decide


/-! ## Truncation of the magnitude -/

/-- The value `round_sqrt n` is the integer nearest to the square root of `n`. -/
theorem round_sqrt_nearest (n : Nat) :
    4 * n < (2 * round_sqrt n + 1) * (2 * round_sqrt n + 1)
    ∧ (round_sqrt n = 0 ∨ (2 * round_sqrt n - 1) * (2 * round_sqrt n - 1) ≤ 4 * n) := by
  unfold round_sqrt
  have h1 := Nat.sqrt_le (4 * n)
  have h2 := Nat.lt_succ_sqrt (4 * n)
  have h3 : Nat.sqrt (4 * n) + 1 ≤ 2 * ((Nat.sqrt (4 * n) + 1) / 2) + 1 := by omega
  have h4 : 2 * ((Nat.sqrt (4 * n) + 1) / 2) ≤ Nat.sqrt (4 * n) + 1 := by omega
  constructor
  · calc 4 * n < (Nat.sqrt (4 * n)).succ * (Nat.sqrt (4 * n)).succ := h2
      _ ≤ _ := Nat.mul_le_mul h3 h3
  · by_cases h0 : (Nat.sqrt (4 * n) + 1) / 2 = 0
    · exact Or.inl h0
    · right
      have h5 : 2 * ((Nat.sqrt (4 * n) + 1) / 2) - 1 ≤ Nat.sqrt (4 * n) := by omega
      exact le_trans (Nat.mul_le_mul h5 h5) h1

theorem sqrt_le_round_sqrt (n : Nat) :
    Nat.sqrt n ≤ round_sqrt n ∧ round_sqrt n ≤ Nat.sqrt n + 1 := by
  unfold round_sqrt
  have a1 := Nat.sqrt_le n
  have a2 := Nat.lt_succ_sqrt n
  have b1 : 2 * Nat.sqrt n ≤ Nat.sqrt (4 * n) := by
    rw [Nat.le_sqrt]
    nlinarith
  have b2 : Nat.sqrt (4 * n) < 2 * (Nat.sqrt n + 1) := by
    rw [Nat.sqrt_lt]
    simp only [Nat.succ_eq_add_one] at a2
    nlinarith
  omega

/-- C12, as stated, fails: with the Roberts kernel at `(0, 0)` of the 2x2 image
whose top row has grey value 2 the gradients are 2 and 2, `sqrt(8) = 2.83`
rounds to 3, and the function returns 2. -/
theorem convolve_truncates :
    (convolve_loops RobertsConvolutionMatrix top_row_2x2 0 0).grad_x = 2
    ∧ (convolve_loops RobertsConvolutionMatrix top_row_2x2 0 0).grad_y = 2
    ∧ round_sqrt (2 * 2 + 2 * 2) = 3
    ∧ ConvolutionMatrix_convolve RobertsConvolutionMatrix top_row_2x2 0 0 = some 2 := by
  refine ⟨by decide, by decide, ?_, by decide⟩
  have h : Nat.sqrt (4 * (2 * 2 + 2 * 2)) = 5 := by
    symm; rw [Nat.eq_sqrt]; decide
  unfold round_sqrt
  rw [h]

/-- C12, amended: for every kernel, image and coordinate, when
`grad_x^2 + grad_y^2` of the accumulated gradients fits in an `int`, the
magnitude returned by `ConvolutionMatrix_convolve` is the integer part of
`sqrt(grad_x^2 + grad_y^2)` (truncation, not rounding): the rounded value or
one less. -/
theorem convolve_is_truncated_sqrt (matrix : ConvolutionMatrix) (image : SDL_Surface)
    (x0 y0 : Int)
    (h : (convolve_loops matrix image x0 y0).grad_x * (convolve_loops matrix image x0 y0).grad_x
        + (convolve_loops matrix image x0 y0).grad_y * (convolve_loops matrix image x0 y0).grad_y
        ≤ INT_MAX) :
    ConvolutionMatrix_convolve matrix image x0 y0
        = some (Nat.sqrt
            ((convolve_loops matrix image x0 y0).grad_x
                * (convolve_loops matrix image x0 y0).grad_x
              + (convolve_loops matrix image x0 y0).grad_y
                * (convolve_loops matrix image x0 y0).grad_y).toNat)
    ∧ Nat.sqrt
          ((convolve_loops matrix image x0 y0).grad_x
              * (convolve_loops matrix image x0 y0).grad_x
            + (convolve_loops matrix image x0 y0).grad_y
              * (convolve_loops matrix image x0 y0).grad_y).toNat
        ≤ round_sqrt
          ((convolve_loops matrix image x0 y0).grad_x
              * (convolve_loops matrix image x0 y0).grad_x
            + (convolve_loops matrix image x0 y0).grad_y
              * (convolve_loops matrix image x0 y0).grad_y).toNat
    ∧ round_sqrt
          ((convolve_loops matrix image x0 y0).grad_x
              * (convolve_loops matrix image x0 y0).grad_x
            + (convolve_loops matrix image x0 y0).grad_y
              * (convolve_loops matrix image x0 y0).grad_y).toNat
        ≤ Nat.sqrt
          ((convolve_loops matrix image x0 y0).grad_x
              * (convolve_loops matrix image x0 y0).grad_x
            + (convolve_loops matrix image x0 y0).grad_y
              * (convolve_loops matrix image x0 y0).grad_y).toNat + 1 := by
  refine ⟨?_, (sqrt_le_round_sqrt _).1, (sqrt_le_round_sqrt _).2⟩
  unfold ConvolutionMatrix_convolve
  exact sqrt_sum_squares_eq _ _ h

/-- Witness of the amended C12: the Roberts kernel at `(0, 0)` of the 2x2 image
whose top row has grey value 2. -/
theorem convolve_is_truncated_sqrt_witness :
    ((convolve_loops RobertsConvolutionMatrix top_row_2x2 0 0).grad_x
          * (convolve_loops RobertsConvolutionMatrix top_row_2x2 0 0).grad_x
        + (convolve_loops RobertsConvolutionMatrix top_row_2x2 0 0).grad_y
          * (convolve_loops RobertsConvolutionMatrix top_row_2x2 0 0).grad_y ≤ INT_MAX)
    ∧ ConvolutionMatrix_convolve RobertsConvolutionMatrix top_row_2x2 0 0
        = some (Nat.sqrt
            ((convolve_loops RobertsConvolutionMatrix top_row_2x2 0 0).grad_x
                * (convolve_loops RobertsConvolutionMatrix top_row_2x2 0 0).grad_x
              + (convolve_loops RobertsConvolutionMatrix top_row_2x2 0 0).grad_y
                * (convolve_loops RobertsConvolutionMatrix top_row_2x2 0 0).grad_y).toNat) :=
  ⟨by decide,
    (convolve_is_truncated_sqrt RobertsConvolutionMatrix top_row_2x2 0 0 (by decide)).1⟩


/-! ## Kernel selection -/

theorem set_convolution_mode_spec (ip : ImageProcessor) (m : ConvolutionMode)
    (hm : m ∈ recognized_modes) :
    (ImageProcessor_set_convolution_mode ip m).convolution_mode = m
    ∧ (ImageProcessor_set_convolution_mode ip m).edge_detector.matrix = kernel_named m
    ∧ (ImageProcessor_set_convolution_mode ip m).display_mode = ip.display_mode
    ∧ (ImageProcessor_set_convolution_mode ip m).normalization_mode = ip.normalization_mode
    ∧ (ImageProcessor_set_convolution_mode ip m).edge_detector.image = ip.edge_detector.image
    ∧ (ImageProcessor_set_convolution_mode ip m).edge_detector.edges = ip.edge_detector.edges := by
  simp only [recognized_modes, List.mem_cons, List.mem_singleton, List.not_mem_nil,
    or_false] at hm
  rcases hm with rfl | rfl | rfl | rfl <;> exact ⟨rfl, rfl, rfl, rfl, rfl, rfl⟩

theorem selections_keep_named_kernel :
    ∀ (ms : List ConvolutionMode) (ip : ImageProcessor),
      (∀ c ∈ ms, c ∈ recognized_modes) →
      ip.edge_detector.matrix = kernel_named ip.convolution_mode →
      (ms.foldl ImageProcessor_set_convolution_mode ip).edge_detector.matrix
        = kernel_named (ms.foldl ImageProcessor_set_convolution_mode ip).convolution_mode := by
  intro ms
  induction ms with
  | nil => intro ip _ h; exact h
  | cons c ms ih =>
    intro ip hall _
    simp only [List.foldl_cons]
    apply ih _ (fun d hd => hall d (List.mem_cons_of_mem _ hd))
    obtain ⟨h1, h2, _⟩ := set_convolution_mode_spec ip c (hall c (List.mem_cons_self _ _))
    rw [h1, h2]

/-- C17: for every processor state and every recognized mode `m` (SOBEL,
PREWITT, ROBERTS, SCHARR), `ImageProcessor_set_convolution_mode(ip, m)` sets
`convolution_mode` to `m` and makes the detector's matrix the kernel of that
name, whose declared dimensions (3x3 for Sobel, Prewitt and Scharr, 2x2 for
Roberts) are the ones written in `CONVOLUTION_NAMES[m]`; the display mode, the
normalization mode and both image buffers are unchanged; and after any further
recognized selections the matrix is still the kernel named by
`convolution_mode`. -/
theorem set_convolution_mode_selects_named_kernel (ip : ImageProcessor) (m : ConvolutionMode)
    (hm : m ∈ recognized_modes) :
    (ImageProcessor_set_convolution_mode ip m).convolution_mode = m
    ∧ (ImageProcessor_set_convolution_mode ip m).edge_detector.matrix = kernel_named m
    ∧ label_dimensions (CONVOLUTION_NAMES.getD m.value "")
        = [(ImageProcessor_set_convolution_mode ip m).edge_detector.matrix.width,
           (ImageProcessor_set_convolution_mode ip m).edge_detector.matrix.height]
    ∧ (kernel_named ConvolutionMode.SOBEL = SobelConvolutionMatrix
        ∧ kernel_named ConvolutionMode.PREWITT = PrewittConvolutionMatrix
        ∧ kernel_named ConvolutionMode.ROBERTS = RobertsConvolutionMatrix
        ∧ kernel_named ConvolutionMode.SCHARR = ScharrConvolutionMatrix)
    ∧ ((SobelConvolutionMatrix.width, SobelConvolutionMatrix.height) = (3, 3)
        ∧ (PrewittConvolutionMatrix.width, PrewittConvolutionMatrix.height) = (3, 3)
        ∧ (RobertsConvolutionMatrix.width, RobertsConvolutionMatrix.height) = (2, 2)
        ∧ (ScharrConvolutionMatrix.width, ScharrConvolutionMatrix.height) = (3, 3))
    ∧ CONVOLUTION_NAMES = ["Sobel (3x3)", "Prewitt (3x3)", "Roberts (2x2)", "Scharr (3x3)"]
    ∧ (ImageProcessor_set_convolution_mode ip m).display_mode = ip.display_mode
    ∧ (ImageProcessor_set_convolution_mode ip m).normalization_mode = ip.normalization_mode
    ∧ (ImageProcessor_set_convolution_mode ip m).edge_detector.image = ip.edge_detector.image
    ∧ (ImageProcessor_set_convolution_mode ip m).edge_detector.edges = ip.edge_detector.edges
    ∧ (∀ ms : List ConvolutionMode, (∀ c ∈ ms, c ∈ recognized_modes) →
        (ms.foldl ImageProcessor_set_convolution_mode
            (ImageProcessor_set_convolution_mode ip m)).edge_detector.matrix
          = kernel_named (ms.foldl ImageProcessor_set_convolution_mode
              (ImageProcessor_set_convolution_mode ip m)).convolution_mode) := by
  obtain ⟨h1, h2, h3, h4, h5, h6⟩ := set_convolution_mode_spec ip m hm
  refine ⟨h1, h2, ?_, ⟨rfl, rfl, rfl, rfl⟩, ⟨rfl, rfl, rfl, rfl⟩, rfl, h3, h4, h5, h6, ?_⟩
  · rw [h2]
    simp only [recognized_modes, List.mem_cons, List.mem_singleton, List.not_mem_nil,
      or_false] at hm
    rcases hm with rfl | rfl | rfl | rfl <;> decide
  · intro ms hall
    apply selections_keep_named_kernel ms _ hall
    rw [h1, h2]

/-- Witness of C17: selecting ROBERTS on a processor that shows the Sobel edges
of the 2x1 image. -/
theorem set_convolution_mode_selects_named_kernel_witness :
    ConvolutionMode.ROBERTS ∈ recognized_modes
    ∧ (ImageProcessor_set_convolution_mode
        (processor_on ConvolutionMode.SOBEL NormalizationMode.LOCAL edge_2x1)
        ConvolutionMode.ROBERTS).convolution_mode = ConvolutionMode.ROBERTS
    ∧ (ImageProcessor_set_convolution_mode
        (processor_on ConvolutionMode.SOBEL NormalizationMode.LOCAL edge_2x1)
        ConvolutionMode.ROBERTS).edge_detector.matrix = kernel_named ConvolutionMode.ROBERTS
    ∧ label_dimensions (CONVOLUTION_NAMES.getD ConvolutionMode.ROBERTS.value "")
        = [(ImageProcessor_set_convolution_mode
              (processor_on ConvolutionMode.SOBEL NormalizationMode.LOCAL edge_2x1)
              ConvolutionMode.ROBERTS).edge_detector.matrix.width,
           (ImageProcessor_set_convolution_mode
              (processor_on ConvolutionMode.SOBEL NormalizationMode.LOCAL edge_2x1)
              ConvolutionMode.ROBERTS).edge_detector.matrix.height] :=
  have hm : ConvolutionMode.ROBERTS ∈ recognized_modes := by decide
  ⟨hm,
    (set_convolution_mode_selects_named_kernel
      (processor_on ConvolutionMode.SOBEL NormalizationMode.LOCAL edge_2x1)
      ConvolutionMode.ROBERTS hm).1,
    (set_convolution_mode_selects_named_kernel
      (processor_on ConvolutionMode.SOBEL NormalizationMode.LOCAL edge_2x1)
      ConvolutionMode.ROBERTS hm).2.1,
    (set_convolution_mode_selects_named_kernel
      (processor_on ConvolutionMode.SOBEL NormalizationMode.LOCAL edge_2x1)
      ConvolutionMode.ROBERTS hm).2.2.1⟩


/-! ## Flat regions -/

theorem map_mul_const_sum (k : Nat × Nat → Int) (c : Int) :
    ∀ l : List (Nat × Nat), (l.map fun o => k o * c).sum = (l.map k).sum * c := by
  intro l
  induction l with
  | nil => simp
  | cons o l ih => simp only [List.map_cons, List.sum_cons, ih, add_mul]

/-- On an image of one grey value `c`, at a coordinate whose footprint lies
inside the image, each exact gradient sum is `c` times the sum of the weights. -/
theorem gradient_sum_of_flat (kernel : Nat → Nat → Int) (matrix : ConvolutionMatrix)
    (image : SDL_Surface) (c : Nat) (x0 y0 : Int)
    (hflat : ∀ x y : Int, 0 ≤ x → x < (image.w : Int) → 0 ≤ y → y < (image.h : Int) →
      grey_at image x y = c)
    (hin : footprint_inside matrix image x0 y0) :
    gradient_sum kernel matrix image x0 y0 = weight_sum kernel matrix * (c : Int) := by
  unfold gradient_sum sampled_offsets weight_sum
  have hall : (footprint_offsets matrix).filter
      (fun o => passes_bounds_test image (sample_coordinate matrix x0 y0 o))
      = footprint_offsets matrix := by
    apply List.filter_eq_self.mpr
    intro o ho
    obtain ⟨h1, h2, h3, h4⟩ := hin o ho
    unfold passes_bounds_test
    simp only [decide_eq_true_eq]
    exact ⟨h1, le_of_lt h2, h3, h4⟩
  rw [hall, ← map_mul_const_sum (fun o => kernel o.2 o.1) (c : Int)]
  apply congrArg
  apply List.map_congr_left
  intro o ho
  obtain ⟨h1, h2, h3, h4⟩ := hin o ho
  rw [hflat _ _ h1 h2 h3 h4]

/-- C19: for each of the four built-in kernels the x weights and the y weights
each sum to zero over the declared footprint, so on every image of one grey
value `c ≤ 255`, at every coordinate whose whole footprint lies inside
`[0, w) x [0, h)`, `ConvolutionMatrix_convolve` returns 0. -/
theorem flat_region_has_no_response (matrix : ConvolutionMatrix)
    (hk : matrix ∈ built_in_kernels) (image : SDL_Surface) (c : Nat) (x0 y0 : Int)
    (_hc : c ≤ 255)
    (hflat : ∀ x y : Int, 0 ≤ x → x < (image.w : Int) → 0 ≤ y → y < (image.h : Int) →
      grey_at image x y = c)
    (hin : footprint_inside matrix image x0 y0) :
    weight_sum matrix.x_kernel matrix = 0 ∧ weight_sum matrix.y_kernel matrix = 0
    ∧ ConvolutionMatrix_convolve matrix image x0 y0 = some 0 := by
  have hsum : weight_sum matrix.x_kernel matrix = 0 ∧ weight_sum matrix.y_kernel matrix = 0 := by
    simp only [built_in_kernels, List.mem_cons, List.mem_singleton, List.not_mem_nil,
      or_false] at hk
    rcases hk with rfl | rfl | rfl | rfl <;> exact ⟨by decide, by decide⟩
  have gx := gradient_sum_of_flat matrix.x_kernel matrix image c x0 y0 hflat hin
  have gy := gradient_sum_of_flat matrix.y_kernel matrix image c x0 y0 hflat hin
  rw [hsum.1, zero_mul] at gx
  rw [hsum.2, zero_mul] at gy
  refine ⟨hsum.1, hsum.2, ?_⟩
  have h := (convolve_eq matrix image x0 y0 (by rw [gx, gy]; decide)).2.2
  rw [gx, gy] at h
  simpa using h

theorem grey_3x3_flat (x y : Int) (hx0 : 0 ≤ x) (hx : x < 3) (hy0 : 0 ≤ y) (hy : y < 3) :
    grey_at grey_3x3 x y = 100 := by
  have hxs : x = 0 ∨ x = 1 ∨ x = 2 := by omega
  have hys : y = 0 ∨ y = 1 ∨ y = 2 := by omega
  rcases hxs with rfl | rfl | rfl <;> rcases hys with rfl | rfl | rfl <;> decide

/-- Witness of C19: the Sobel kernel at `(1, 1)` of the 3x3 image of grey value 100. -/
theorem flat_region_has_no_response_witness :
    SobelConvolutionMatrix ∈ built_in_kernels ∧ (100 : Nat) ≤ 255
    ∧ (∀ x y : Int, 0 ≤ x → x < (grey_3x3.w : Int) → 0 ≤ y → y < (grey_3x3.h : Int) →
        grey_at grey_3x3 x y = 100)
    ∧ footprint_inside SobelConvolutionMatrix grey_3x3 1 1
    ∧ weight_sum SobelConvolutionMatrix.x_kernel SobelConvolutionMatrix = 0
    ∧ weight_sum SobelConvolutionMatrix.y_kernel SobelConvolutionMatrix = 0
    ∧ ConvolutionMatrix_convolve SobelConvolutionMatrix grey_3x3 1 1 = some 0 :=
  have hk : SobelConvolutionMatrix ∈ built_in_kernels := by simp [built_in_kernels]
  have hflat : ∀ x y : Int, 0 ≤ x → x < (grey_3x3.w : Int) → 0 ≤ y → y < (grey_3x3.h : Int) →
      grey_at grey_3x3 x y = 100 := fun x y a b c d => grey_3x3_flat x y a b c d
  have hin : footprint_inside SobelConvolutionMatrix grey_3x3 1 1 := by
    unfold footprint_inside
    decide
  ⟨hk, by decide, hflat, hin,
    flat_region_has_no_response SobelConvolutionMatrix hk grey_3x3 100 1 1 (by decide) hflat hin⟩


/-! ## Round trip of channel values -/

theorem testBit_other_run (v s n i : Nat) (hv : v < 2 ^ n) (h : n = 0 ∨ i < s ∨ s + n ≤ i) :
    (decide (s ≤ i) && v.testBit (i - s)) = false := by
  rcases h with h | h
  · subst h
    have : v = 0 := by simpa using hv
    subst this
    simp
  · exact testBit_outside_run v s n i hv h

theorem run_within_32 (n s : Nat) (h : (2 ^ n - 1) <<< s < UINT32_MOD) :
    n = 0 ∨ s + n ≤ 32 := by
  by_contra hc
  push_neg at hc
  obtain ⟨hn, hs⟩ := hc
  have hlt : (2 ^ n - 1) <<< s < 2 ^ (s + n - 1) :=
    lt_of_lt_of_le h (by
      have : (2 : Nat) ^ 32 ≤ 2 ^ (s + n - 1) := Nat.pow_le_pow_right (by norm_num) (by omega)
      simpa [UINT32_MOD] using this)
  have hbit := Nat.testBit_lt_two_pow hlt
  rw [Nat.testBit_shiftLeft, Nat.testBit_two_pow_sub_one] at hbit
  have h1 : s + n - 1 ≥ s := by omega
  have h2 : s + n - 1 - s < n := by omega
  simp [h1, h2] at hbit

theorem runs_disjoint_or_empty (s1 n1 s2 n2 : Nat)
    (h : ((2 ^ n1 - 1) <<< s1) &&& ((2 ^ n2 - 1) <<< s2) = 0) :
    n1 = 0 ∨ n2 = 0 ∨ s1 + n1 ≤ s2 ∨ s2 + n2 ≤ s1 := by
  by_cases h1 : n1 = 0
  · exact Or.inl h1
  · by_cases h2 : n2 = 0
    · exact Or.inr (Or.inl h2)
    · exact Or.inr (Or.inr (masks_disjoint_runs s1 n1 s2 n2 (by omega) (by omega) h))

/-- One channel of `explode` after `compress`, for a run of `n` bits at `s`
and three other runs that are empty or lie outside it. -/
theorem channel_of_compress (format : SDL_PixelFormat) (r g b a : Nat) (v s n : Nat)
    (s1 n1 v1 s2 n2 v2 s3 n3 v3 : Nat)
    (hbits : ∀ i, (compress format r g b a).testBit i
      = (decide (i < 32) &&
          ((decide (s ≤ i) && v.testBit (i - s))
            || (decide (s1 ≤ i) && v1.testBit (i - s1))
            || (decide (s2 ≤ i) && v2.testBit (i - s2))
            || (decide (s3 ≤ i) && v3.testBit (i - s3)))))
    (hv : v < 2 ^ n) (hv1 : v1 < 2 ^ n1) (hv2 : v2 < 2 ^ n2) (hv3 : v3 < 2 ^ n3)
    (hb : n = 0 ∨ s + n ≤ 32)
    (d1 : n = 0 ∨ n1 = 0 ∨ s + n ≤ s1 ∨ s1 + n1 ≤ s)
    (d2 : n = 0 ∨ n2 = 0 ∨ s + n ≤ s2 ∨ s2 + n2 ≤ s)
    (d3 : n = 0 ∨ n3 = 0 ∨ s + n ≤ s3 ∨ s3 + n3 ≤ s) :
    (compress format r g b a &&& ((2 ^ n - 1) <<< s)) >>> s = v := by
  apply channel_roundtrip _ _ _ _ hv
  intro j hj
  have hn : n ≠ 0 := by omega
  have h32 : s + j < 32 := by
    rcases hb with hb | hb
    · exact absurd hb hn
    · omega
  have e : s + j - s = j := by omega
  have o1 : (decide (s1 ≤ s + j) && v1.testBit (s + j - s1)) = false := by
    apply testBit_other_run v1 s1 n1 _ hv1
    rcases d1 with d | d | d | d
    · exact absurd d hn
    · exact Or.inl d
    · exact Or.inr (Or.inl (by omega))
    · exact Or.inr (Or.inr (by omega))
  have o2 : (decide (s2 ≤ s + j) && v2.testBit (s + j - s2)) = false := by
    apply testBit_other_run v2 s2 n2 _ hv2
    rcases d2 with d | d | d | d
    · exact absurd d hn
    · exact Or.inl d
    · exact Or.inr (Or.inl (by omega))
    · exact Or.inr (Or.inr (by omega))
  have o3 : (decide (s3 ≤ s + j) && v3.testBit (s + j - s3)) = false := by
    apply testBit_other_run v3 s3 n3 _ hv3
    rcases d3 with d | d | d | d
    · exact absurd d hn
    · exact Or.inl d
    · exact Or.inr (Or.inl (by omega))
    · exact Or.inr (Or.inr (by omega))
  rw [hbits, o1, o2, o3]
  simp [e, h32]

/-- C18: for every layout whose four masks are 32-bit, pairwise disjoint and
each a contiguous run of `n` bits starting at its channel's shift, and all
channel values `r`, `g`, `b`, `a` that fit their channel's width,
`explode(layout, compress(layout, r, g, b, a))` is exactly `(r, g, b, a)`. -/
theorem explode_compress_roundtrip (format : SDL_PixelFormat) (r g b a nr ng nb na : Nat)
    (mR : format.Rmask = (2 ^ nr - 1) <<< format.Rshift)
    (mG : format.Gmask = (2 ^ ng - 1) <<< format.Gshift)
    (mB : format.Bmask = (2 ^ nb - 1) <<< format.Bshift)
    (mA : format.Amask = (2 ^ na - 1) <<< format.Ashift)
    (uR : format.Rmask < UINT32_MOD) (uG : format.Gmask < UINT32_MOD)
    (uB : format.Bmask < UINT32_MOD) (uA : format.Amask < UINT32_MOD)
    (dRG : format.Rmask &&& format.Gmask = 0) (dRB : format.Rmask &&& format.Bmask = 0)
    (dRA : format.Rmask &&& format.Amask = 0) (dGB : format.Gmask &&& format.Bmask = 0)
    (dGA : format.Gmask &&& format.Amask = 0) (dBA : format.Bmask &&& format.Amask = 0)
    (hr : r < 2 ^ nr) (hg : g < 2 ^ ng) (hb : b < 2 ^ nb) (ha : a < 2 ^ na) :
    explode format (compress format r g b a) = (r, g, b, a) := by
  have dGR : format.Gmask &&& format.Rmask = 0 := by rw [Nat.land_comm]; exact dRG
  have dBR : format.Bmask &&& format.Rmask = 0 := by rw [Nat.land_comm]; exact dRB
  have dAR : format.Amask &&& format.Rmask = 0 := by rw [Nat.land_comm]; exact dRA
  have dBG : format.Bmask &&& format.Gmask = 0 := by rw [Nat.land_comm]; exact dGB
  have dAG : format.Amask &&& format.Gmask = 0 := by rw [Nat.land_comm]; exact dGA
  have dAB : format.Amask &&& format.Bmask = 0 := by rw [Nat.land_comm]; exact dBA
  rw [mR] at uR; rw [mG] at uG; rw [mB] at uB; rw [mA] at uA
  rw [mR, mG] at dRG dGR
  rw [mR, mB] at dRB dBR
  rw [mR, mA] at dRA dAR
  rw [mG, mB] at dGB dBG
  rw [mG, mA] at dGA dAG
  rw [mB, mA] at dBA dAB
  unfold explode
  rw [mR, mG, mB, mA]
  refine Prod.ext ?_ (Prod.ext ?_ (Prod.ext ?_ ?_))
  · exact channel_of_compress format r g b a r format.Rshift nr
      format.Gshift ng g format.Bshift nb b format.Ashift na a
      (fun i => compress_testBit format r g b a i)
      hr hg hb ha (run_within_32 _ _ uR)
      (runs_disjoint_or_empty _ _ _ _ dRG) (runs_disjoint_or_empty _ _ _ _ dRB)
      (runs_disjoint_or_empty _ _ _ _ dRA)
  · exact channel_of_compress format r g b a g format.Gshift ng
      format.Rshift nr r format.Bshift nb b format.Ashift na a
      (fun i => by
        rw [compress_testBit]
        cases decide (i < 32) <;> cases (decide (format.Rshift ≤ i) && r.testBit (i - format.Rshift))
          <;> cases (decide (format.Gshift ≤ i) && g.testBit (i - format.Gshift)) <;> rfl)
      hg hr hb ha (run_within_32 _ _ uG)
      (runs_disjoint_or_empty _ _ _ _ dGR) (runs_disjoint_or_empty _ _ _ _ dGB)
      (runs_disjoint_or_empty _ _ _ _ dGA)
  · exact channel_of_compress format r g b a b format.Bshift nb
      format.Rshift nr r format.Gshift ng g format.Ashift na a
      (fun i => by
        rw [compress_testBit]
        cases decide (i < 32) <;> cases (decide (format.Rshift ≤ i) && r.testBit (i - format.Rshift))
          <;> cases (decide (format.Gshift ≤ i) && g.testBit (i - format.Gshift))
          <;> cases (decide (format.Bshift ≤ i) && b.testBit (i - format.Bshift)) <;> rfl)
      hb hr hg ha (run_within_32 _ _ uB)
      (runs_disjoint_or_empty _ _ _ _ dBR) (runs_disjoint_or_empty _ _ _ _ dBG)
      (runs_disjoint_or_empty _ _ _ _ dBA)
  · exact channel_of_compress format r g b a a format.Ashift na
      format.Rshift nr r format.Gshift ng g format.Bshift nb b
      (fun i => by
        rw [compress_testBit]
        cases decide (i < 32) <;> cases (decide (format.Rshift ≤ i) && r.testBit (i - format.Rshift))
          <;> cases (decide (format.Gshift ≤ i) && g.testBit (i - format.Gshift))
          <;> cases (decide (format.Bshift ≤ i) && b.testBit (i - format.Bshift))
          <;> cases (decide (format.Ashift ≤ i) && a.testBit (i - format.Ashift)) <;> rfl)
      ha hr hg hb (run_within_32 _ _ uA)
      (runs_disjoint_or_empty _ _ _ _ dAR) (runs_disjoint_or_empty _ _ _ _ dAG)
      (runs_disjoint_or_empty _ _ _ _ dAB)

/-- Witness of C18: the ARGB8888 layout and the values `(18, 52, 86, 255)`. -/
theorem explode_compress_roundtrip_witness :
    ARGB8888.Rmask = (2 ^ 8 - 1) <<< ARGB8888.Rshift
    ∧ ARGB8888.Gmask = (2 ^ 8 - 1) <<< ARGB8888.Gshift
    ∧ ARGB8888.Bmask = (2 ^ 8 - 1) <<< ARGB8888.Bshift
    ∧ ARGB8888.Amask = (2 ^ 8 - 1) <<< ARGB8888.Ashift
    ∧ ARGB8888.Rmask < UINT32_MOD ∧ ARGB8888.Gmask < UINT32_MOD
    ∧ ARGB8888.Bmask < UINT32_MOD ∧ ARGB8888.Amask < UINT32_MOD
    ∧ ARGB8888.Rmask &&& ARGB8888.Gmask = 0 ∧ ARGB8888.Rmask &&& ARGB8888.Bmask = 0
    ∧ ARGB8888.Rmask &&& ARGB8888.Amask = 0 ∧ ARGB8888.Gmask &&& ARGB8888.Bmask = 0
    ∧ ARGB8888.Gmask &&& ARGB8888.Amask = 0 ∧ ARGB8888.Bmask &&& ARGB8888.Amask = 0
    ∧ 18 < 2 ^ 8 ∧ 52 < 2 ^ 8 ∧ 86 < 2 ^ 8 ∧ 255 < 2 ^ 8
    ∧ explode ARGB8888 (compress ARGB8888 18 52 86 255) = (18, 52, 86, 255) :=
  have mR : ARGB8888.Rmask = (2 ^ 8 - 1) <<< ARGB8888.Rshift := by decide
  have mG : ARGB8888.Gmask = (2 ^ 8 - 1) <<< ARGB8888.Gshift := by decide
  have mB : ARGB8888.Bmask = (2 ^ 8 - 1) <<< ARGB8888.Bshift := by decide
  have mA : ARGB8888.Amask = (2 ^ 8 - 1) <<< ARGB8888.Ashift := by decide
  have uR : ARGB8888.Rmask < UINT32_MOD := by decide
  have uG : ARGB8888.Gmask < UINT32_MOD := by decide
  have uB : ARGB8888.Bmask < UINT32_MOD := by decide
  have uA : ARGB8888.Amask < UINT32_MOD := by decide
  have dRG : ARGB8888.Rmask &&& ARGB8888.Gmask = 0 := by decide
  have dRB : ARGB8888.Rmask &&& ARGB8888.Bmask = 0 := by decide
  have dRA : ARGB8888.Rmask &&& ARGB8888.Amask = 0 := by decide
  have dGB : ARGB8888.Gmask &&& ARGB8888.Bmask = 0 := by decide
  have dGA : ARGB8888.Gmask &&& ARGB8888.Amask = 0 := by decide
  have dBA : ARGB8888.Bmask &&& ARGB8888.Amask = 0 := by decide
  have hr : 18 < 2 ^ 8 := by norm_num
  have hg : 52 < 2 ^ 8 := by norm_num
  have hb : 86 < 2 ^ 8 := by norm_num
  have ha : 255 < 2 ^ 8 := by norm_num
  ⟨mR, mG, mB, mA, uR, uG, uB, uA, dRG, dRB, dRA, dGB, dGA, dBA, hr, hg, hb, ha,
    explode_compress_roundtrip ARGB8888 18 52 86 255 8 8 8 8 mR mG mB mA uR uG uB uA
      dRG dRB dRA dGB dGA dBA hr hg hb ha⟩

/-! ## Independence of the prior output buffer -/

theorem foldlM_some_defined {σ α : Type} (step : σ → α → Option σ) :
    ∀ (l : List α) (s s2 : σ), l.foldlM step s = some s2 →
      ∀ a ∈ l, ∃ t t1, step t a = some t1 := by
  intro l
  induction l with
  | nil => intro _ _ _ a ha; exact absurd ha (List.not_mem_nil _)
  | cons b l ih =>
    intro s s2 h a ha
    simp only [List.foldlM_cons, Option.bind_eq_bind, Option.bind_eq_some] at h
    obtain ⟨s1, h1, h2⟩ := h
    rcases List.mem_cons.mp ha with rfl | ha
    · exact ⟨s, s1, h1⟩
    · exact ih s1 s2 h2 a ha

theorem detect_none_defined (ed : EdgeDetector) (out : EdgeDetector)
    (h : EdgeDetector_detect_normalize_none ed = some out) :
    ∀ x y : Nat, x < ed.image.w → y < ed.image.h →
      ∃ g, ConvolutionMatrix_convolve ed.matrix ed.image (x : Int) (y : Int) = some g := by
  intro x y hx hy
  unfold EdgeDetector_detect_normalize_none at h
  have hn := foldlM_nested (fun e y x => none_step ed y x e) (List.range ed.image.w)
    (List.range ed.image.h) (SDL_FillRect ed.edges 0x000000)
  simp only at hn
  simp only [hn, Option.bind_eq_bind, Option.bind_eq_some, Option.pure_def] at h
  obtain ⟨e2, h2, _⟩ := h
  obtain ⟨t, t1, ht⟩ := foldlM_some_defined _ _ _ _ h2 (x, y)
    ((mem_coords ed.image.w ed.image.h (x, y)).mpr ⟨hx, hy⟩)
  simp only [none_step_eq, Option.map_eq_some'] at ht
  obtain ⟨g, hg, _⟩ := ht
  exact ⟨g, hg⟩

theorem detect_global_defined (ed : EdgeDetector) (out : EdgeDetector)
    (h : EdgeDetector_detect_normalize_global ed = some out) :
    ∃ m, ConvolutionMatrix_max_output ed.matrix 255 = some m
      ∧ ∀ x y : Nat, x < ed.image.w → y < ed.image.h →
        ∃ v, (ConvolutionMatrix_convolve ed.matrix ed.image (x : Int) (y : Int)).bind
          (fun g => scale_255 g m) = some v := by
  unfold EdgeDetector_detect_normalize_global at h
  simp only [Option.bind_eq_bind, Option.bind_eq_some, Option.pure_def] at h
  obtain ⟨m, hm, e2, h2, _⟩ := h
  refine ⟨m, hm, ?_⟩
  intro x y hx hy
  have hn := foldlM_nested (fun e y x => global_step ed m y x e) (List.range ed.image.w)
    (List.range ed.image.h) (SDL_FillRect ed.edges 0x000000)
  simp only at hn
  rw [hn] at h2
  obtain ⟨t, t1, ht⟩ := foldlM_some_defined _ _ _ _ h2 (x, y)
    ((mem_coords ed.image.w ed.image.h (x, y)).mpr ⟨hx, hy⟩)
  simp only [global_step_eq, Option.map_eq_some'] at ht
  obtain ⟨v, hv, _⟩ := ht
  exact ⟨v, hv⟩

theorem get_pixel_of_word (e : SDL_Surface) (w x y word : Nat) (hw : e.w = w)
    (hp : e.pixels (y * w + x) = word) :
    get_pixel e (x : Int) (y : Int) = word % UINT32_MOD := by
  unfold get_pixel
  rw [pixel_index_nat, hw, hp]

/-- The None pass gives the same pixels whatever the output surface held. -/
theorem none_independent_of_prior (ed1 ed2 : EdgeDetector) (hm : ed1.matrix = ed2.matrix)
    (hi : ed1.image = ed2.image) (hw1 : ed1.edges.w = ed1.image.w)
    (hw2 : ed2.edges.w = ed2.image.w) (hf : ed1.edges.format = ed2.edges.format) :
    ∀ out1, EdgeDetector_detect_normalize_none ed1 = some out1 →
      ∃ out2, EdgeDetector_detect_normalize_none ed2 = some out2
        ∧ ∀ x y : Nat, x < ed1.image.w → y < ed1.image.h →
            get_pixel out1.edges (x : Int) (y : Int) = get_pixel out2.edges (x : Int) (y : Int) := by
  intro out1 h1
  have hval := detect_none_defined ed1 out1 h1
  obtain ⟨o1, a1, a2, _, _, a5⟩ := detect_none_spec ed1 hw1 hval
  have : o1 = out1 := Option.some.inj (a1.symm.trans h1)
  subst this
  obtain ⟨o2, b1, b2, _, _, b5⟩ := detect_none_spec ed2 hw2 (by rw [← hm, ← hi]; exact hval)
  refine ⟨o2, b1, ?_⟩
  intro x y hx hy
  obtain ⟨g1, c1, p1⟩ := a5 x y hx hy
  obtain ⟨g2, c2, p2⟩ := b5 x y (by rw [← hi]; exact hx) (by rw [← hi]; exact hy)
  rw [← hm, ← hi, c1] at c2
  have hg : g1 = g2 := Option.some.inj c2
  subst hg
  rw [get_pixel_of_word o1.edges ed1.image.w x y _ (a2.trans hw1) p1,
    get_pixel_of_word o2.edges ed2.image.w x y _ (b2.trans hw2) p2, hf]

/-- The Global pass gives the same pixels whatever the output surface held. -/
theorem global_independent_of_prior (ed1 ed2 : EdgeDetector) (hm : ed1.matrix = ed2.matrix)
    (hi : ed1.image = ed2.image) (hw1 : ed1.edges.w = ed1.image.w)
    (hw2 : ed2.edges.w = ed2.image.w) (hf : ed1.edges.format = ed2.edges.format) :
    ∀ out1, EdgeDetector_detect_normalize_global ed1 = some out1 →
      ∃ out2, EdgeDetector_detect_normalize_global ed2 = some out2
        ∧ ∀ x y : Nat, x < ed1.image.w → y < ed1.image.h →
            get_pixel out1.edges (x : Int) (y : Int) = get_pixel out2.edges (x : Int) (y : Int) := by
  intro out1 h1
  obtain ⟨m, hmax, hval⟩ := detect_global_defined ed1 out1 h1
  obtain ⟨o1, a1, a2, _, _, a5⟩ := detect_global_spec ed1 m hw1 hmax hval
  have : o1 = out1 := Option.some.inj (a1.symm.trans h1)
  subst this
  obtain ⟨o2, b1, b2, _, _, b5⟩ := detect_global_spec ed2 m hw2 (by rw [← hm]; exact hmax)
    (by rw [← hm, ← hi]; exact hval)
  refine ⟨o2, b1, ?_⟩
  intro x y hx hy
  obtain ⟨g1, c1, p1⟩ := a5 x y hx hy
  obtain ⟨g2, c2, p2⟩ := b5 x y (by rw [← hi]; exact hx) (by rw [← hi]; exact hy)
  rw [← hm, ← hi, c1] at c2
  have hg : g1 = g2 := Option.some.inj c2
  subst hg
  rw [get_pixel_of_word o1.edges ed1.image.w x y _ (a2.trans hw1) p1,
    get_pixel_of_word o2.edges ed2.image.w x y _ (b2.trans hw2) p2, hf]

theorem local_values_congr (ed1 ed2 : EdgeDetector) (hm : ed1.matrix = ed2.matrix)
    (hi : ed1.image = ed2.image) : local_values ed1 = local_values ed2 := by
  have hstep : local_gradient_step ed1 = local_gradient_step ed2 := by
    funext s i
    unfold local_gradient_step
    rw [hm, hi]
  unfold local_values local_gradients
  rw [hstep, hi]

/-- The Local pass gives the same pixels whatever the output surface held. -/
theorem local_independent_of_prior (ed1 ed2 : EdgeDetector) (hm : ed1.matrix = ed2.matrix)
    (hi : ed1.image = ed2.image) (hw1 : ed1.edges.w = ed1.image.w)
    (hw2 : ed2.edges.w = ed2.image.w) (hf : ed1.edges.format = ed2.edges.format) :
    ∀ out1, EdgeDetector_detect_normalize_local ed1 true = some out1 →
      ∃ out2, EdgeDetector_detect_normalize_local ed2 true = some out2
        ∧ ∀ x y : Nat, x < ed1.image.w → y < ed1.image.h →
            get_pixel out1.edges (x : Int) (y : Int) = get_pixel out2.edges (x : Int) (y : Int) := by
  intro out1 h1
  unfold EdgeDetector_detect_normalize_local at h1 ⊢
  simp only [Bool.true_eq_false, if_false, Option.bind_eq_bind, Option.bind_eq_some,
    Option.pure_def, Option.some.injEq] at h1
  obtain ⟨gs, hgs, rfl⟩ := h1
  rw [← local_values_congr ed1 ed2 hm hi, hgs]
  simp only [Bool.true_eq_false, if_false, Option.bind_eq_bind, Option.some_bind,
    Option.pure_def]
  refine ⟨_, rfl, ?_⟩
  intro x y hx hy
  simp only
  obtain ⟨u1, _, u3, u4, _⟩ := local_write_spec (ed1.image.h * ed1.image.w) gs
    (SDL_FillRect ed1.edges 0x000000)
  obtain ⟨v1, _, v3, v4, _⟩ := local_write_spec (ed2.image.h * ed2.image.w) gs
    (SDL_FillRect ed2.edges 0x000000)
  have hidx := index_lt_of_coords ed1.image.w ed1.image.h x y hx hy
  have hidx2 : y * ed2.image.w + x < ed2.image.h * ed2.image.w := by rw [← hi]; exact hidx
  have e1 : (SDL_FillRect ed1.edges 0x000000).w = ed1.image.w := hw1
  have e2 : (SDL_FillRect ed2.edges 0x000000).w = ed2.image.w := hw2
  rw [get_pixel_of_word _ ed1.image.w x y _ (u1.trans e1) (u4 _ hidx),
    get_pixel_of_word _ ed2.image.w x y _ (v1.trans e2) (v4 _ hidx2)]
  have f1 : (SDL_FillRect ed1.edges 0x000000).format = ed1.edges.format := rfl
  have f2 : (SDL_FillRect ed2.edges 0x000000).format = ed2.edges.format := rfl
  rw [f1, f2, hf, hi]


/-- With a built-in kernel on a source of 8-bit channels the Global and None
passes always complete, and the Local pass completes when `min < max`. -/
theorem built_in_passes_complete (ed : EdgeDetector) (hk : ed.matrix ∈ built_in_kernels)
    (hi : eight_bit_channels ed.image.format) (hw : ed.edges.w = ed.image.w) :
    (∃ out, EdgeDetector_detect_normalize_global ed = some out)
    ∧ (∃ out, EdgeDetector_detect_normalize_none ed = some out)
    ∧ (∀ s, local_gradients ed = some s → s.min < s.max →
        ∃ out, EdgeDetector_detect_normalize_local ed true = some out) := by
  obtain ⟨_, m, _, hm, _, _⟩ := built_in_convolve_defined ed.matrix hk ed.image hi 0 0
  refine ⟨?_, ?_, ?_⟩
  · obtain ⟨out, o1, _⟩ := detect_global_spec ed m hw hm (by
      intro x y _ _
      obtain ⟨g, m1, c1, c2, c3, c4⟩ :=
        built_in_convolve_defined ed.matrix hk ed.image hi (x : Int) (y : Int)
      have : m1 = m := by rw [hm] at c2; exact (Option.some.inj c2).symm
      subst this
      obtain ⟨v, hv, _⟩ := scale_255_le g m1 c4 c3
      exact ⟨v, by rw [c1]; exact hv⟩)
    exact ⟨out, o1⟩
  · obtain ⟨out, o1, _⟩ := detect_none_spec ed hw (by
      intro x y _ _
      obtain ⟨g, _, c1, _⟩ :=
        built_in_convolve_defined ed.matrix hk ed.image hi (x : Int) (y : Int)
      exact ⟨g, c1⟩)
    exact ⟨out, o1⟩
  · intro s hs hlt
    obtain ⟨s1, l1, _, l3, _⟩ := local_values_spec ed (by
      intro i _
      obtain ⟨g, _, c1, _⟩ := built_in_convolve_defined ed.matrix hk ed.image hi
        ((i % ed.image.w : Nat) : Int) ((i / ed.image.w : Nat) : Int)
      exact ⟨g, c1⟩)
    have : s1 = s := Option.some.inj (l1.symm.trans hs)
    subst this
    obtain ⟨v1, _⟩ := l3 hlt
    unfold EdgeDetector_detect_normalize_local
    simp only [v1, Bool.true_eq_false, if_false, Option.bind_eq_bind, Option.some_bind,
      Option.pure_def]
    exact ⟨_, rfl⟩

/-- C14, as stated, fails under Local normalization when the allocation of the
gradient field fails: the pass returns before clearing or writing anything
(`main.c:395-398`), so from an output surface full of `0xFF123456` and from one
full of `0x00ABCDEF` the two runs on the same source and kernel end with these
two different buffers. -/
theorem local_without_allocation_keeps_prior :
    (detector_with_prior SobelConvolutionMatrix ramp_3x3 0xFF123456).matrix
        = (detector_with_prior SobelConvolutionMatrix ramp_3x3 0x00ABCDEF).matrix
    ∧ (detector_with_prior SobelConvolutionMatrix ramp_3x3 0xFF123456).image
        = (detector_with_prior SobelConvolutionMatrix ramp_3x3 0x00ABCDEF).image
    ∧ (detector_with_prior SobelConvolutionMatrix ramp_3x3 0xFF123456).edges.format
        = (detector_with_prior SobelConvolutionMatrix ramp_3x3 0x00ABCDEF).edges.format
    ∧ (ImageProcessor_detect (processor_around NormalizationMode.LOCAL
          (detector_with_prior SobelConvolutionMatrix ramp_3x3 0xFF123456)) false).map
        (fun out => buffer_words out.edge_detector.edges)
        = some (List.replicate 9 0xFF123456)
    ∧ (ImageProcessor_detect (processor_around NormalizationMode.LOCAL
          (detector_with_prior SobelConvolutionMatrix ramp_3x3 0x00ABCDEF)) false).map
        (fun out => buffer_words out.edge_detector.edges)
        = some (List.replicate 9 0x00ABCDEF)
    ∧ List.replicate 9 0xFF123456 ≠ List.replicate 9 0x00ABCDEF :=
  ⟨rfl, rfl, rfl, by decide, by decide, by decide⟩

/-- C14, amended: for every source image, kernel and normalization mode, two
detection passes that differ only in what the output surface held before (same
source, kernel, mode, output size and layout), and whose allocation succeeds
when the mode is Local, end alike: when one pass completes, so does the other,
and every pixel `(x, y)` with `0 ≤ x < w` and `0 ≤ y < h` of the two output
buffers is the same.  With a built-in kernel on a source of 8-bit channels the
pass does complete under Global and None, and under Local when `min < max`. -/
theorem detect_independent_of_prior_output (ip1 ip2 : ImageProcessor) (a1 a2 : Bool)
    (hn : ip1.normalization_mode = ip2.normalization_mode)
    (hm : ip1.edge_detector.matrix = ip2.edge_detector.matrix)
    (hi : ip1.edge_detector.image = ip2.edge_detector.image)
    (hw1 : ip1.edge_detector.edges.w = ip1.edge_detector.image.w)
    (hw2 : ip2.edge_detector.edges.w = ip2.edge_detector.image.w)
    (hf : ip1.edge_detector.edges.format = ip2.edge_detector.edges.format)
    (halloc : ip1.normalization_mode = NormalizationMode.LOCAL → a1 = true ∧ a2 = true) :
    (∀ out1, ImageProcessor_detect ip1 a1 = some out1 →
      ∃ out2, ImageProcessor_detect ip2 a2 = some out2
        ∧ ∀ x y : Nat, x < ip1.edge_detector.image.w → y < ip1.edge_detector.image.h →
            get_pixel out1.edge_detector.edges (x : Int) (y : Int)
              = get_pixel out2.edge_detector.edges (x : Int) (y : Int))
    ∧ (ip1.edge_detector.matrix ∈ built_in_kernels →
        eight_bit_channels ip1.edge_detector.image.format →
        (ip1.normalization_mode = NormalizationMode.GLOBAL
          ∨ ip1.normalization_mode = NormalizationMode.NONE
          ∨ ∃ s, local_gradients ip1.edge_detector = some s ∧ s.min < s.max) →
        ∃ out1, ImageProcessor_detect ip1 a1 = some out1) := by
  constructor
  · intro out1 h1
    unfold ImageProcessor_detect at h1 ⊢
    rw [← hn]
    cases hmode : ip1.normalization_mode with
    | LOCAL =>
      obtain ⟨rfl, rfl⟩ := halloc hmode
      simp only [hmode, if_true, Option.map_eq_some'] at h1 ⊢
      obtain ⟨e1, he1, rfl⟩ := h1
      obtain ⟨e2, he2, hp⟩ :=
        local_independent_of_prior ip1.edge_detector ip2.edge_detector hm hi hw1 hw2 hf e1 he1
      exact ⟨_, ⟨e2, he2, rfl⟩, hp⟩
    | GLOBAL =>
      simp only [hmode, if_true, Option.map_eq_some', reduceCtorEq, if_false] at h1 ⊢
      obtain ⟨e1, he1, rfl⟩ := h1
      obtain ⟨e2, he2, hp⟩ :=
        global_independent_of_prior ip1.edge_detector ip2.edge_detector hm hi hw1 hw2 hf e1 he1
      exact ⟨_, ⟨e2, he2, rfl⟩, hp⟩
    | NONE =>
      simp only [hmode, if_true, Option.map_eq_some', reduceCtorEq, if_false] at h1 ⊢
      obtain ⟨e1, he1, rfl⟩ := h1
      obtain ⟨e2, he2, hp⟩ :=
        none_independent_of_prior ip1.edge_detector ip2.edge_detector hm hi hw1 hw2 hf e1 he1
      exact ⟨_, ⟨e2, he2, rfl⟩, hp⟩
  · intro hk h8 hmode
    obtain ⟨cg, cn, cl⟩ := built_in_passes_complete ip1.edge_detector hk h8 hw1
    unfold ImageProcessor_detect
    cases hcase : ip1.normalization_mode with
    | LOCAL =>
      obtain ⟨rfl, _⟩ := halloc hcase
      rw [hcase] at hmode
      simp only [reduceCtorEq, false_or] at hmode
      obtain ⟨s, hs, hlt⟩ := hmode
      obtain ⟨e, he⟩ := cl s hs hlt
      simp only [if_true, he, Option.map_some']
      exact ⟨_, rfl⟩
    | GLOBAL =>
      obtain ⟨e, he⟩ := cg
      simp only [reduceCtorEq, if_false, if_true, he, Option.map_some']
      exact ⟨_, rfl⟩
    | NONE =>
      obtain ⟨e, he⟩ := cn
      simp only [reduceCtorEq, if_false, if_true, he, Option.map_some']
      exact ⟨_, rfl⟩

/-- Witness of the amended C14: Local passes with the Sobel kernel on the 3x3
grey ramp whose allocation succeeds, from an output surface full of
`0xFF123456` and from one full of `0x00ABCDEF`; both complete. -/
theorem detect_independent_of_prior_output_witness :
    (ImageProcessor_detect (processor_around NormalizationMode.LOCAL
        (detector_with_prior SobelConvolutionMatrix ramp_3x3 0xFF123456)) true).isSome = true
    ∧ (ImageProcessor_detect (processor_around NormalizationMode.LOCAL
        (detector_with_prior SobelConvolutionMatrix ramp_3x3 0x00ABCDEF)) true).isSome = true
    ∧ (detector_with_prior SobelConvolutionMatrix ramp_3x3 0xFF123456).matrix
        = (detector_with_prior SobelConvolutionMatrix ramp_3x3 0x00ABCDEF).matrix
    ∧ (detector_with_prior SobelConvolutionMatrix ramp_3x3 0xFF123456).image
        = (detector_with_prior SobelConvolutionMatrix ramp_3x3 0x00ABCDEF).image
    ∧ (detector_with_prior SobelConvolutionMatrix ramp_3x3 0xFF123456).edges.w = ramp_3x3.w
    ∧ (detector_with_prior SobelConvolutionMatrix ramp_3x3 0x00ABCDEF).edges.w = ramp_3x3.w
    ∧ (detector_with_prior SobelConvolutionMatrix ramp_3x3 0xFF123456).edges.format
        = (detector_with_prior SobelConvolutionMatrix ramp_3x3 0x00ABCDEF).edges.format
    ∧ (detector_with_prior SobelConvolutionMatrix ramp_3x3 0xFF123456).edges.pixels 0
        ≠ (detector_with_prior SobelConvolutionMatrix ramp_3x3 0x00ABCDEF).edges.pixels 0
    ∧ ((processor_around NormalizationMode.LOCAL
          (detector_with_prior SobelConvolutionMatrix ramp_3x3 0xFF123456)).normalization_mode
        = NormalizationMode.LOCAL → true = true ∧ true = true)
    ∧ ∀ out1, ImageProcessor_detect (processor_around NormalizationMode.LOCAL
          (detector_with_prior SobelConvolutionMatrix ramp_3x3 0xFF123456)) true = some out1 →
        ∃ out2, ImageProcessor_detect (processor_around NormalizationMode.LOCAL
            (detector_with_prior SobelConvolutionMatrix ramp_3x3 0x00ABCDEF)) true = some out2
          ∧ ∀ x y : Nat, x < ramp_3x3.w → y < ramp_3x3.h →
              get_pixel out1.edge_detector.edges (x : Int) (y : Int)
                = get_pixel out2.edge_detector.edges (x : Int) (y : Int) :=
  ⟨by decide, by decide, rfl, rfl, rfl, rfl, rfl, by decide, fun _ => ⟨rfl, rfl⟩,
    (detect_independent_of_prior_output
      (processor_around NormalizationMode.LOCAL
        (detector_with_prior SobelConvolutionMatrix ramp_3x3 0xFF123456))
      (processor_around NormalizationMode.LOCAL
        (detector_with_prior SobelConvolutionMatrix ramp_3x3 0x00ABCDEF))
      true true rfl rfl rfl rfl rfl rfl (fun _ => ⟨rfl, rfl⟩)).1⟩

/-! ## Attainability of `max_output` -/

theorem map_add_sum (f g : Nat × Nat → Int) :
    ∀ l : List (Nat × Nat), (l.map fun o => f o + g o).sum = (l.map f).sum + (l.map g).sum := by
  intro l
  induction l with
  | nil => simp
  | cons o l ih => simp only [List.map_cons, List.sum_cons, ih]; ring

theorem gradient_sum_add (k1 k2 : Nat → Nat → Int) (matrix : ConvolutionMatrix)
    (image : SDL_Surface) (x0 y0 : Int) :
    gradient_sum (fun y x => k1 y x + k2 y x) matrix image x0 y0
      = gradient_sum k1 matrix image x0 y0 + gradient_sum k2 matrix image x0 y0 := by
  unfold gradient_sum
  rw [← map_add_sum]
  apply congrArg
  apply List.map_congr_left
  intro o _
  ring

theorem gradient_sum_sub (k1 k2 : Nat → Nat → Int) (matrix : ConvolutionMatrix)
    (image : SDL_Surface) (x0 y0 : Int) :
    gradient_sum (fun y x => k1 y x - k2 y x) matrix image x0 y0
      = gradient_sum k1 matrix image x0 y0 - gradient_sum k2 matrix image x0 y0 := by
  have h := gradient_sum_add (fun y x => k1 y x - k2 y x) k2 matrix image x0 y0
  simp only [sub_add_cancel] at h
  linarith

theorem grey_le_of_channels (image : SDL_Surface) (h : channels_at_most image 255) (x y : Int) :
    grey_at image x y ≤ 255 := by
  obtain ⟨h1, h2, h3, _⟩ := h x y
  unfold grey_at
  exact to_greyscale_le _ _ _ _ _ h1 h2 h3

theorem channels_of_eight_bit (image : SDL_Surface) (h : eight_bit_channels image.format) :
    channels_at_most image 255 := by
  obtain ⟨mR, mG, mB, mA, _⟩ := h
  intro x y
  unfold explode
  simp only
  rw [mR, mG, mB, mA]
  exact ⟨masked_channel_le _ _, masked_channel_le _ _, masked_channel_le _ _,
    masked_channel_le _ _⟩

theorem sq_sum_le_of_diagonals (u v A B : Int) (hA : 0 ≤ A)
    (hu1 : u ≤ A) (hu2 : -A ≤ u) (hv1 : v ≤ A) (hv2 : -A ≤ v)
    (hs1 : u + v ≤ B) (hs2 : -B ≤ u + v) (hd1 : u - v ≤ B) (hd2 : -B ≤ u - v) :
    u * u + v * v ≤ A * B := by
  rcases le_total 0 u with h0u | h0u <;> rcases le_total 0 v with h0v | h0v
  · nlinarith
  · nlinarith
  · nlinarith
  · nlinarith

/-- A kernel whose weight sums are at most `S` on each axis and at most `D` on
the two diagonals (`x + y` and `x - y` weights) never produces, on 8-bit
channel values, a magnitude as large as `M` when `255 S * 255 D < M^2`. -/
theorem magnitude_below (matrix : ConvolutionMatrix) (S D : Int) (M : Nat) (hS : 0 ≤ S)
    (px : positive_weight_sum matrix.x_kernel matrix ≤ S)
    (nx : negative_weight_sum matrix.x_kernel matrix ≤ S)
    (py : positive_weight_sum matrix.y_kernel matrix ≤ S)
    (ny : negative_weight_sum matrix.y_kernel matrix ≤ S)
    (ps : positive_weight_sum (fun y x => matrix.x_kernel y x + matrix.y_kernel y x) matrix ≤ D)
    (ns : negative_weight_sum (fun y x => matrix.x_kernel y x + matrix.y_kernel y x) matrix ≤ D)
    (pd : positive_weight_sum (fun y x => matrix.x_kernel y x - matrix.y_kernel y x) matrix ≤ D)
    (nd : negative_weight_sum (fun y x => matrix.x_kernel y x - matrix.y_kernel y x) matrix ≤ D)
    (hM : 255 * S * (255 * D) < (M : Int) * M) (hfit : 255 * S * (255 * D) ≤ INT_MAX)
    (image : SDL_Surface) (x0 y0 : Int) (hc : channels_at_most image 255) :
    ∃ g, ConvolutionMatrix_convolve matrix image x0 y0 = some g ∧ g < M := by
  have hgrey : ∀ p ∈ convolve_reads matrix image x0 y0, grey_at image p.1 p.2 ≤ 255 :=
    fun p _ => grey_le_of_channels image hc p.1 p.2
  obtain ⟨ux, lx⟩ := gradient_sum_bounds matrix.x_kernel matrix image x0 y0 255 hgrey
  obtain ⟨uy, ly⟩ := gradient_sum_bounds matrix.y_kernel matrix image x0 y0 255 hgrey
  obtain ⟨us, ls⟩ := gradient_sum_bounds
    (fun y x => matrix.x_kernel y x + matrix.y_kernel y x) matrix image x0 y0 255 hgrey
  obtain ⟨ud, ld⟩ := gradient_sum_bounds
    (fun y x => matrix.x_kernel y x - matrix.y_kernel y x) matrix image x0 y0 255 hgrey
  rw [gradient_sum_add] at us ls
  rw [gradient_sum_sub] at ud ld
  push_cast at ux lx uy ly us ls ud ld
  have hsq := sq_sum_le_of_diagonals
    (gradient_sum matrix.x_kernel matrix image x0 y0)
    (gradient_sum matrix.y_kernel matrix image x0 y0) (255 * S) (255 * D)
    (by linarith) (by linarith) (by linarith) (by linarith) (by linarith)
    (by linarith) (by linarith) (by linarith) (by linarith)
  have hle := le_trans hsq hfit
  refine ⟨_, (convolve_eq matrix image x0 y0 hle).2.2, ?_⟩
  rw [Nat.sqrt_lt]
  have h0 : 0 ≤ gradient_sum matrix.x_kernel matrix image x0 y0
        * gradient_sum matrix.x_kernel matrix image x0 y0
      + gradient_sum matrix.y_kernel matrix image x0 y0
        * gradient_sum matrix.y_kernel matrix image x0 y0 :=
    add_nonneg (mul_self_nonneg _) (mul_self_nonneg _)
  have hlt := lt_of_le_of_lt hsq hM
  have hcast : (((gradient_sum matrix.x_kernel matrix image x0 y0
        * gradient_sum matrix.x_kernel matrix image x0 y0
      + gradient_sum matrix.y_kernel matrix image x0 y0
        * gradient_sum matrix.y_kernel matrix image x0 y0).toNat : Nat) : Int)
      < ((M * M : Nat) : Int) := by
    rw [Int.toNat_of_nonneg h0]
    push_cast
    exact hlt
  exact_mod_cast hcast


theorem sobel_magnitude_below (image : SDL_Surface) (x0 y0 : Int)
    (hc : channels_at_most image 255) :
    ∃ g, ConvolutionMatrix_convolve SobelConvolutionMatrix image x0 y0 = some g ∧ g < 1442 := by
  have hS : (0 : Int) ≤ 4 := by norm_num
  have px : positive_weight_sum SobelConvolutionMatrix.x_kernel SobelConvolutionMatrix ≤ 4 := by decide
  have nx : negative_weight_sum SobelConvolutionMatrix.x_kernel SobelConvolutionMatrix ≤ 4 := by decide
  have py : positive_weight_sum SobelConvolutionMatrix.y_kernel SobelConvolutionMatrix ≤ 4 := by decide
  have ny : negative_weight_sum SobelConvolutionMatrix.y_kernel SobelConvolutionMatrix ≤ 4 := by decide
  have ps : positive_weight_sum (fun y x => SobelConvolutionMatrix.x_kernel y x + SobelConvolutionMatrix.y_kernel y x) SobelConvolutionMatrix ≤ 6 := by
    decide
  have ns : negative_weight_sum (fun y x => SobelConvolutionMatrix.x_kernel y x + SobelConvolutionMatrix.y_kernel y x) SobelConvolutionMatrix ≤ 6 := by
    decide
  have pd : positive_weight_sum (fun y x => SobelConvolutionMatrix.x_kernel y x - SobelConvolutionMatrix.y_kernel y x) SobelConvolutionMatrix ≤ 6 := by
    decide
  have nd : negative_weight_sum (fun y x => SobelConvolutionMatrix.x_kernel y x - SobelConvolutionMatrix.y_kernel y x) SobelConvolutionMatrix ≤ 6 := by
    decide
  have hM : (255 : Int) * 4 * (255 * 6) < ((1442 : Nat) : Int) * ((1442 : Nat) : Int) := by
    norm_num
  have hfit : (255 : Int) * 4 * (255 * 6) ≤ INT_MAX := by
    unfold INT_MAX; norm_num
  exact magnitude_below SobelConvolutionMatrix 4 6 1442 hS px nx py ny ps ns pd nd hM hfit image x0 y0 hc

theorem prewitt_magnitude_below (image : SDL_Surface) (x0 y0 : Int)
    (hc : channels_at_most image 255) :
    ∃ g, ConvolutionMatrix_convolve PrewittConvolutionMatrix image x0 y0 = some g ∧ g < 1081 := by
  have hS : (0 : Int) ≤ 3 := by norm_num
  have px : positive_weight_sum PrewittConvolutionMatrix.x_kernel PrewittConvolutionMatrix ≤ 3 := by decide
  have nx : negative_weight_sum PrewittConvolutionMatrix.x_kernel PrewittConvolutionMatrix ≤ 3 := by decide
  have py : positive_weight_sum PrewittConvolutionMatrix.y_kernel PrewittConvolutionMatrix ≤ 3 := by decide
  have ny : negative_weight_sum PrewittConvolutionMatrix.y_kernel PrewittConvolutionMatrix ≤ 3 := by decide
  have ps : positive_weight_sum (fun y x => PrewittConvolutionMatrix.x_kernel y x + PrewittConvolutionMatrix.y_kernel y x) PrewittConvolutionMatrix ≤ 4 := by
    decide
  have ns : negative_weight_sum (fun y x => PrewittConvolutionMatrix.x_kernel y x + PrewittConvolutionMatrix.y_kernel y x) PrewittConvolutionMatrix ≤ 4 := by
    decide
  have pd : positive_weight_sum (fun y x => PrewittConvolutionMatrix.x_kernel y x - PrewittConvolutionMatrix.y_kernel y x) PrewittConvolutionMatrix ≤ 4 := by
    decide
  have nd : negative_weight_sum (fun y x => PrewittConvolutionMatrix.x_kernel y x - PrewittConvolutionMatrix.y_kernel y x) PrewittConvolutionMatrix ≤ 4 := by
    decide
  have hM : (255 : Int) * 3 * (255 * 4) < ((1081 : Nat) : Int) * ((1081 : Nat) : Int) := by
    norm_num
  have hfit : (255 : Int) * 3 * (255 * 4) ≤ INT_MAX := by
    unfold INT_MAX; norm_num
  exact magnitude_below PrewittConvolutionMatrix 3 4 1081 hS px nx py ny ps ns pd nd hM hfit image x0 y0 hc

theorem scharr_magnitude_below (image : SDL_Surface) (x0 y0 : Int)
    (hc : channels_at_most image 255) :
    ∃ g, ConvolutionMatrix_convolve ScharrConvolutionMatrix image x0 y0 = some g ∧ g < 5769 := by
  have hS : (0 : Int) ≤ 16 := by norm_num
  have px : positive_weight_sum ScharrConvolutionMatrix.x_kernel ScharrConvolutionMatrix ≤ 16 := by decide
  have nx : negative_weight_sum ScharrConvolutionMatrix.x_kernel ScharrConvolutionMatrix ≤ 16 := by decide
  have py : positive_weight_sum ScharrConvolutionMatrix.y_kernel ScharrConvolutionMatrix ≤ 16 := by decide
  have ny : negative_weight_sum ScharrConvolutionMatrix.y_kernel ScharrConvolutionMatrix ≤ 16 := by decide
  have ps : positive_weight_sum (fun y x => ScharrConvolutionMatrix.x_kernel y x + ScharrConvolutionMatrix.y_kernel y x) ScharrConvolutionMatrix ≤ 26 := by
    decide
  have ns : negative_weight_sum (fun y x => ScharrConvolutionMatrix.x_kernel y x + ScharrConvolutionMatrix.y_kernel y x) ScharrConvolutionMatrix ≤ 26 := by
    decide
  have pd : positive_weight_sum (fun y x => ScharrConvolutionMatrix.x_kernel y x - ScharrConvolutionMatrix.y_kernel y x) ScharrConvolutionMatrix ≤ 26 := by
    decide
  have nd : negative_weight_sum (fun y x => ScharrConvolutionMatrix.x_kernel y x - ScharrConvolutionMatrix.y_kernel y x) ScharrConvolutionMatrix ≤ 26 := by
    decide
  have hM : (255 : Int) * 16 * (255 * 26) < ((5769 : Nat) : Int) * ((5769 : Nat) : Int) := by
    norm_num
  have hfit : (255 : Int) * 16 * (255 * 26) ≤ INT_MAX := by
    unfold INT_MAX; norm_num
  exact magnitude_below ScharrConvolutionMatrix 16 26 5769 hS px nx py ny ps ns pd nd hM hfit image x0 y0 hc

/-- C16, as stated, fails for the Sobel kernel: no image with channel values in
`[0, 255]` and no coordinate give the magnitude `max_output(Sobel, 255) = 1442`
(the x and y maxima need opposite values in the corner pixels). -/
theorem sobel_never_reaches_max_output :
    ConvolutionMatrix_max_output SobelConvolutionMatrix 255 = some 1442
    ∧ ¬ ∃ (image : SDL_Surface) (x0 y0 : Int), channels_at_most image 255
        ∧ ConvolutionMatrix_convolve SobelConvolutionMatrix image x0 y0
            = ConvolutionMatrix_max_output SobelConvolutionMatrix 255 := by
  have hmax : ConvolutionMatrix_max_output SobelConvolutionMatrix 255 = some 1442 := by decide
  refine ⟨hmax, ?_⟩
  rintro ⟨image, x0, y0, hc, heq⟩
  obtain ⟨g, hg, hlt⟩ := sobel_magnitude_below image x0 y0 hc
  rw [hmax, hg] at heq
  have : g = 1442 := Option.some.inj heq
  omega

/-- C16, amended: for each of the four built-in kernels `max_output(kernel, 255)`
bounds every magnitude the kernel produces on channel values in `[0, 255]`; the
Roberts kernel reaches it (360, on the 2x2 image with a white top row over a
black bottom row, at `(0, 0)`), while the Sobel, Prewitt and Scharr kernels
stay strictly below it (1442, 1081, 5769) on every such image. -/
theorem max_output_bound_reached_by_roberts_only :
    (∀ k ∈ built_in_kernels, ∀ (image : SDL_Surface) (x0 y0 : Int),
      channels_at_most image 255 →
      ∃ g m, ConvolutionMatrix_convolve k image x0 y0 = some g
        ∧ ConvolutionMatrix_max_output k 255 = some m ∧ g ≤ m)
    ∧ (∃ (image : SDL_Surface) (x0 y0 : Int), channels_at_most image 255
        ∧ ConvolutionMatrix_convolve RobertsConvolutionMatrix image x0 y0
            = ConvolutionMatrix_max_output RobertsConvolutionMatrix 255)
    ∧ (∀ k ∈ [SobelConvolutionMatrix, PrewittConvolutionMatrix, ScharrConvolutionMatrix],
        ∀ (image : SDL_Surface) (x0 y0 : Int), channels_at_most image 255 →
        ∃ g m, ConvolutionMatrix_convolve k image x0 y0 = some g
          ∧ ConvolutionMatrix_max_output k 255 = some m ∧ g < m) := by
  refine ⟨?_, ?_, ?_⟩
  · intro k hk image x0 y0 hc
    obtain ⟨g, m, h1, h2, h3, _⟩ := built_in_convolve_bound k hk image x0 y0
      (fun p _ => grey_le_of_channels image hc p.1 p.2)
    exact ⟨g, m, h1, h2, h3⟩
  · refine ⟨white_top_2x2, 0, 0, ?_, by decide⟩
    apply channels_of_eight_bit
    unfold eight_bit_channels
    decide
  · intro k hk image x0 y0 hc
    simp only [List.mem_cons, List.mem_singleton, List.not_mem_nil, or_false] at hk
    rcases hk with rfl | rfl | rfl
    · obtain ⟨g, hg, hlt⟩ := sobel_magnitude_below image x0 y0 hc
      exact ⟨g, 1442, hg, by decide, hlt⟩
    · obtain ⟨g, hg, hlt⟩ := prewitt_magnitude_below image x0 y0 hc
      exact ⟨g, 1081, hg, by decide, hlt⟩
    · obtain ⟨g, hg, hlt⟩ := scharr_magnitude_below image x0 y0 hc
      exact ⟨g, 5769, hg, by decide, hlt⟩


/-! ## The 2x1 scenario under any 8-bit layout -/

end EdgeDetection
